import Mathlib

/-!
Verification of the rulesify format-conversion and reconciliation layer.

Rust strings are modelled shallowly as `List Char` (one element per Unicode
scalar value); byte lengths are computed by a UTF-8 length function where the
source measures bytes.  Fallible Rust functions returning `Result` are
modelled as `Option` (errors carry no payload we need).  External library
behaviour (`serde_yaml`, the `regex` crate, `std::path`) is modelled by
bespoke functions restricted to the fragments this code base exercises; each
such model carries a doc comment saying so.
-/

namespace Rulesify

/-- Rust `str` modelled as the list of its Unicode scalar values. -/
abbrev RStr := List Char

/-- Characters of a Lean string literal, used to transcribe Rust literals. -/
def rchars (s : String) : RStr := s.data

/-- The ASCII fragment of Rust `char::is_whitespace` (Unicode White_Space).
Only these whitespace characters appear in the texts this repository
produces and consumes. -/
def isRustWs (c : Char) : Bool :=
  c = ' ' || c = '\t' || c = '\n' || c = '\r' || c = '\x0b' || c = '\x0c'

/-- Rust `str::trim_start`. -/
def trimStart (s : RStr) : RStr := s.dropWhile isRustWs

/-- Rust `str::trim_end`. -/
def trimEnd (s : RStr) : RStr := (s.reverse.dropWhile isRustWs).reverse

/-- Rust `str::trim`. -/
def rtrim (s : RStr) : RStr := trimEnd (trimStart s)

/-- Rust `str::starts_with` for a string pattern. -/
def strStartsWith : RStr → RStr → Bool
  | _, [] => true
  | [], _ :: _ => false
  | c :: s, p :: ps => c = p && strStartsWith s ps

/-- Rust `str::ends_with` for a string pattern. -/
def strEndsWith (s p : RStr) : Bool := strStartsWith s.reverse p.reverse

/-- Rust `str::contains` for a string pattern (substring test). -/
def strContains (s p : RStr) : Bool :=
  if strStartsWith s p then true
  else match s with
    | [] => false
    | _ :: t => strContains t p

/-- Split at every `'\n'`, keeping the (possibly empty) final piece:
`splitNl "a\nb" = ["a","b"]`, `splitNl "a\n" = ["a",""]`, `splitNl "" = [""]`. -/
def splitNl : RStr → List RStr
  | [] => [[]]
  | c :: s =>
    if c = '\n' then [] :: splitNl s
    else
      match splitNl s with
      | [] => [[c]]
      | l :: ls => (c :: l) :: ls

/-- Remove a single trailing `'\r'`, as Rust `str::lines` does on every line
that was terminated by `'\n'`. -/
def stripCr : RStr → RStr
  | [] => []
  | [c] => if c = '\r' then [] else [c]
  | c :: c2 :: rest => c :: stripCr (c2 :: rest)

/-- Helper for `rustLines`: strip `'\r'` on all the `'\n'`-terminated pieces
and drop the final piece when it is empty. -/
def rustLinesAux : List RStr → List RStr
  | [] => []
  | [last] => if last = [] then [] else [last]
  | l :: rest => stripCr l :: rustLinesAux rest

/-- Rust `str::lines`: split at `'\n'` (also consuming a preceding `'\r'`),
with no empty trailing line for a trailing line terminator. -/
def rustLines (s : RStr) : List RStr := rustLinesAux (splitNl s)

/-- Rust `Vec::join("\n")`. -/
def joinNl : List RStr → RStr
  | [] => []
  | [l] => l
  | l :: l2 :: rest => l ++ '\n' :: joinNl (l2 :: rest)

/-- Join with an arbitrary separator, Rust `Vec::join(sep)`. -/
def joinSep (sep : RStr) : List RStr → RStr
  | [] => []
  | [l] => l
  | l :: l2 :: rest => l ++ sep ++ joinSep sep (l2 :: rest)

/-- UTF-8 byte count of one scalar value. -/
def utf8CharLen (c : Char) : Nat :=
  if c.val < 0x80 then 1
  else if c.val < 0x800 then 2
  else if c.val < 0x10000 then 3
  else 4

/-- UTF-8 byte count of a string, the value of Rust `str::len`. -/
def utf8Len (s : RStr) : Nat := (s.map utf8CharLen).sum

/-- Decimal rendering of a nonnegative integer, Rust `u64` `Display`. -/
def natStr (n : Nat) : RStr := (Nat.repr n).data

/- ===================== Rule model (src/models/rule.rs) ===================== -/

/-- `serde_json::Value`, restricted to the shapes `tool_overrides` holds in
this code base.  Numbers are modelled as integers; no claim inspects a
floating-point number.  Objects keep insertion order like `serde_json`'s
`preserve_order` map and are looked up by first key match. -/
inductive Json where
  | null : Json
  | bool : Bool → Json
  | num : Int → Json
  | str : RStr → Json
  | arr : List Json → Json
  | obj : List (RStr × Json) → Json

/-- `serde_json::Value::get` on an object (`None` on other variants). -/
def jGet (j : Json) (key : RStr) : Option Json :=
  match j with
  | .obj fields => lookupField fields
  | _ => none
where lookupField : List (RStr × Json) → Option Json
  | [] => none
  | (k, v) :: rest => if k = key then some v else lookupField rest

/-- `serde_json::Value::as_str`. -/
def jAsStr : Json → Option RStr
  | .str s => some s
  | _ => none

/-- `serde_json::Value::as_bool`. -/
def jAsBool : Json → Option Bool
  | .bool b => some b
  | _ => none

/-- `HashMap<String, serde_json::Value>` modelled as an association list
(iteration order is never observed by the code under verification). -/
abbrev ToolOverrides := List (RStr × Json)

/-- `HashMap::get`. -/
def ovGet (m : ToolOverrides) (key : RStr) : Option Json :=
  match m with
  | [] => none
  | (k, v) :: rest => if k = key then some v else ovGet rest key

inductive ContentFormat where
  | markdown
  | plainText
  | code
deriving DecidableEq

structure RuleContent where
  title : RStr
  format : ContentFormat
  value : RStr
deriving DecidableEq

structure FileReference where
  path : RStr
deriving DecidableEq

inductive RuleCondition where
  | filePattern (value : RStr)
  | regex (value : RStr)
deriving DecidableEq

structure RuleMetadata where
  name : RStr
  description : Option RStr
  tags : List RStr
  priority : Nat

structure UniversalRule where
  id : RStr
  version : RStr
  metadata : RuleMetadata
  content : List RuleContent
  references : List FileReference
  conditions : List RuleCondition
  tool_overrides : ToolOverrides

/- ===================== Rule identity (src/utils/rule_id.rs) ===================== -/

/-- Rust `char::to_lowercase`, modelled on the ASCII range: `A`–`Z` map to
`a`–`z`, all other characters (in particular every already-lowercase or
caseless character such as `'é'`) are returned unchanged.  The inputs of
every theorem below stay inside this fragment. -/
def rustLowerChar (c : Char) : Char :=
  if 'A' ≤ c ∧ c ≤ 'Z' then Char.ofNat (c.toNat + 32) else c

/-- Rust `char::is_alphanumeric` (Unicode Alphabetic ∪ Number), modelled on
the ASCII range plus the Latin-1 letters `'é'` and `'ß'` used as concrete
non-ASCII inputs below; all theorems quantify only over this fragment. -/
def rustIsAlphanumeric (c : Char) : Bool :=
  ('a' ≤ c ∧ c ≤ 'z') || ('A' ≤ c ∧ c ≤ 'Z') || ('0' ≤ c ∧ c ≤ '9')
    || c = 'é' || c = 'ß'

/-- Split at every `'-'` (keeping empty pieces), Rust `str::split('-')`. -/
def splitHyphen : RStr → List RStr
  | [] => [[]]
  | c :: s =>
    if c = '-' then [] :: splitHyphen s
    else
      match splitHyphen s with
      | [] => [[c]]
      | l :: ls => (c :: l) :: ls

/-- Rust `Vec::join("-")`. -/
def joinHyphen : List RStr → RStr
  | [] => []
  | [l] => l
  | l :: l2 :: rest => l ++ '-' :: joinHyphen (l2 :: rest)

/-- The pipeline `to_lowercase().replace(' ', "-").replace('_', "-")`
followed by the alphanumeric-or-hyphen filter.  It opens `sanitize_rule_id`
and is also inlined by the cursor and cline importers to derive a rule id
from a name (those importers skip the hyphen collapsing and length checks
that `sanitize_rule_id` adds). -/
def lowercaseHyphenFilter (input : RStr) : RStr :=
  ((input.map rustLowerChar).map
      (fun c => if c = ' ' then '-' else if c = '_' then '-' else c)).filter
    (fun c => rustIsAlphanumeric c || c = '-')

/-- `sanitize_rule_id` (src/utils/rule_id.rs): lowercase, map spaces and
underscores to hyphens, keep only alphanumerics and hyphens, collapse
runs of hyphens, and bail out when the result is empty, shorter than 2
bytes or longer than 50 bytes. -/
def sanitize_rule_id (input : RStr) : Option RStr :=
  let sanitized := lowercaseHyphenFilter input
  let cleaned := joinHyphen ((splitHyphen sanitized).filter (fun part => part ≠ []))
  if cleaned = [] then none
  else if utf8Len cleaned < 2 then none
  else if 50 < utf8Len cleaned then none
  else some cleaned

/-- `is_valid_rule_id` (src/utils/rule_id.rs). -/
def is_valid_rule_id (input : RStr) : Bool :=
  if utf8Len input < 2 || 50 < utf8Len input then false
  else if strContains input (rchars "--") then false
  else
    input.all (fun c => ('a' ≤ c ∧ c ≤ 'z') || ('0' ≤ c ∧ c ≤ '9') || c = '-')
      && !(strStartsWith input ['-']) && !(strEndsWith input ['-'])

/-- The 18-character literal `"<!-- rulesify-id: "` that opens an identity
marker (the regex `<!-- rulesify-id: ([^>]+) -->` begins with it). -/
def markerOpen : RStr := rchars "<!-- rulesify-id: "

/-- The 17-character literal `"<!-- rulesify-id:"` used by the
`content.contains(...)` checks. -/
def markerKey : RStr := rchars "<!-- rulesify-id:"

/-- A full identity marker comment for `id`. -/
def markerComment (id : RStr) : RStr := markerOpen ++ id ++ rchars " -->"

/-- Does the regex `<!-- rulesify-id: ([^>]+) -->` match at the head of `s`?
If so, return the length of the full match together with the capture.
Regex semantics: after the literal opener, `[^>]+` with backtracking takes
the maximal run `r` of non-`'>'` characters; the match succeeds exactly when
that run ends in `" --"`, has length at least 4 (so the capture is
non-empty) and is followed by the `'>'` character. -/
def matchMarkerAt (s : RStr) : Option (Nat × RStr) :=
  if strStartsWith s markerOpen then
    let v := s.drop 18
    let r := v.takeWhile (fun c => c ≠ '>')
    if r.length < v.length ∧ 4 ≤ r.length ∧ strEndsWith r (rchars " --") then
      some (18 + r.length + 1, r.take (r.length - 3))
    else none
  else none

/-- `Regex::replace` (first, leftmost match) for the identity-marker regex:
the model of the one `regex` crate call in `embed_rule_id_in_content`. -/
def reReplaceMarker (s repl : RStr) : RStr :=
  match s with
  | [] => []
  | c :: t =>
    match matchMarkerAt s with
    | some (n, _) => repl ++ s.drop n
    | none => c :: reReplaceMarker t repl

/-- `Regex::captures` (first, leftmost match) for the identity-marker regex,
returning the first capture group: the model of the `regex` crate call in
`extract_embedded_rule_id`. -/
def reFindMarker (s : RStr) : Option RStr :=
  match s with
  | [] => none
  | _ :: t =>
    match matchMarkerAt s with
    | some (_, cap) => some cap
    | none => reFindMarker t

/-- `embed_rule_id_in_content` (src/utils/rule_id.rs). -/
def embed_rule_id_in_content (content rule_id : RStr) : RStr :=
  let comment := markerComment rule_id
  if strContains content markerKey then reReplaceMarker content comment
  else comment ++ '\n' :: content

/-- `extract_embedded_rule_id` (src/utils/rule_id.rs): first capture,
trimmed, discarded when empty. -/
def extract_embedded_rule_id (content : RStr) : Option RStr :=
  (reFindMarker content).map rtrim |>.filter (fun id => id ≠ [])

/-- Rust `Path::file_name` on Unix: the component after the last `'/'`
(trailing slashes ignored); `None` for an empty path or a trailing `"."` /
`".."` component. -/
def pathFileName (p : RStr) : Option RStr :=
  let q := (p.reverse.dropWhile (fun c => c = '/')).reverse
  let name := (q.reverse.takeWhile (fun c => c ≠ '/')).reverse
  if name = [] ∨ name = rchars "." ∨ name = rchars ".." then none else some name

/-- Rust `Path::file_stem`: the file name up to (not including) its last
`'.'`, except that a leading `'.'` does not start an extension. -/
def pathFileStem (p : RStr) : Option RStr :=
  (pathFileName p).map fun name =>
    let afterDot := name.reverse.takeWhile (fun c => c ≠ '.')
    if afterDot.length = name.length then name
    else
      let stem := name.take (name.length - afterDot.length - 1)
      if stem = [] then name else stem

/-- `extract_rule_id_from_filename` (src/utils/rule_id.rs). -/
def extract_rule_id_from_filename (file_path : RStr) : Option RStr :=
  (pathFileStem file_path).bind sanitize_rule_id

/-- `determine_rule_id_with_fallback` (src/utils/rule_id.rs).  The system
clock read in the last-resort branch is passed in as `now` (seconds since
the epoch); the operation itself never fails. -/
def determine_rule_id_with_fallback (content : RStr) (file_path : Option RStr)
    (rule_name : Option RStr) (now : Nat) : RStr :=
  match extract_embedded_rule_id content with
  | some embedded =>
    if is_valid_rule_id embedded then embedded
    else determineFallback file_path rule_name now
  | none => determineFallback file_path rule_name now
where
  /-- Priorities 2–4 of the fallback ladder. -/
  determineFallback (file_path : Option RStr) (rule_name : Option RStr) (now : Nat) : RStr :=
    match file_path.bind extract_rule_id_from_filename with
    | some filename_id => filename_id
    | none =>
      match rule_name.bind sanitize_rule_id with
      | some name_id => name_id
      | none => rchars "imported-rule-" ++ natStr now

/- ===================== Markdown-family parsing state ===================== -/

theorem length_dropWhile_le (p : α → Bool) : ∀ l : List α, (l.dropWhile p).length ≤ l.length
  | [] => Nat.le_refl _
  | a :: t => by
    simp only [List.dropWhile]
    cases hp : p a
    · simp
    · simpa using Nat.le_succ_of_le (length_dropWhile_le p t)

/-- The mutable locals of the line loops in `parse_cline_format`,
`parse_claude_code_format` and `parse_goose_format`. -/
structure MdParseState where
  name : RStr
  description : Option RStr
  sections : List RuleContent
  current : Option (RStr × List RStr)

/-- Closing a section: `content_lines.join("\n").trim()`. -/
def finishSection (fmt : ContentFormat) (cur : RStr × List RStr) : RuleContent :=
  ⟨cur.1, fmt, rtrim (joinNl cur.2)⟩

/- ===================== Cline converter (src/converters/cline.rs) ===================== -/

/-- The `while i < lines.len()` loop of `parse_cline_format`, as a recursion
over the lines.  The Rust loop jumps its index (`i = j`) after consuming a
description; the jump is modelled by the `skip` counter, which ignores the
next `skip` lines (the blanks before the description and the description
line itself). -/
def clineGo : List RStr → MdParseState → Nat → MdParseState
  | [], st, _ => st
  | _ :: rest, st, skip + 1 => clineGo rest st skip
  | l :: rest, st, 0 =>
    let line := rtrim l
    if strStartsWith line (rchars "# ") then
      let st1 := { st with name := rtrim (line.drop 2) }
      let blanks := rest.takeWhile (fun x => rtrim x = [])
      match rest.dropWhile (fun x => rtrim x = []) with
      | [] => clineGo rest st1 0
      | d :: _ =>
        let next_line := rtrim d
        if ¬strStartsWith next_line ['#'] ∧ next_line ≠ [] then
          clineGo rest { st1 with description := some next_line } (blanks.length + 1)
        else clineGo rest st1 0
    else if strStartsWith line (rchars "## ") then
      let st1 :=
        match st.current with
        | some cur => { st with sections := st.sections ++ [finishSection .markdown cur] }
        | none => st
      clineGo rest { st1 with current := some (rtrim (line.drop 3), []) } 0
    else
      match st.current with
      | some (t, ls) => clineGo rest { st with current := some (t, ls ++ [line]) } 0
      | none =>
        if line ≠ [] ∧ ¬strStartsWith line ['#'] then
          if st.sections.isEmpty then
            clineGo rest { st with current := some (rchars "Content", [line]) } 0
          else clineGo rest st 0
        else clineGo rest st 0

/-- `parse_cline_format` (src/converters/cline.rs). -/
def parse_cline_format (content : RStr) : RStr × Option RStr × List RuleContent :=
  let st := clineGo (rustLines content)
    { name := rchars "Imported Rule", description := none, sections := [], current := none } 0
  let secs :=
    match st.current with
    | some cur => st.sections ++ [finishSection .markdown cur]
    | none => st.sections
  let secs :=
    if secs.isEmpty ∧ rtrim content ≠ [] then
      [⟨rchars "Content", .markdown, rtrim content⟩]
    else secs
  (st.name, st.description, secs)

namespace Cline

/-- `ClineConverter::convert_to_tool_format` (src/converters/cline.rs).
Note: unlike the Claude and Goose exporters this one does not embed the
rule id marker. -/
def convert_to_tool_format (rule : UniversalRule) : RStr :=
  rchars "# " ++ rule.metadata.name ++ rchars "\n\n"
  ++ (match rule.metadata.description with
      | some description => description ++ rchars "\n\n"
      | none => [])
  ++ rule.content.flatMap (fun s =>
      rchars "## " ++ s.title ++ rchars "\n\n" ++ s.value ++ rchars "\n\n")

/-- `ClineConverter::convert_from_tool_format`.  (The source constructs
`RuleMetadata` with an `auto_apply` field that `src/models/rule.rs` does not
declare — a snapshot inconsistency; the model follows `src/models/rule.rs`.) -/
def convert_from_tool_format (content : RStr) : UniversalRule :=
  let p := parse_cline_format content
  { id := lowercaseHyphenFilter p.1
    version := rchars "0.1.0"
    metadata := { name := p.1, description := p.2.1, tags := [], priority := 5 }
    content := p.2.2
    references := []
    conditions := []
    tool_overrides := [] }

end Cline

/- ===================== Claude Code converter (src/converters/claude_code.rs) ===================== -/

/-- The line loop of `parse_claude_code_format`: the cline loop plus the
two identity-marker guards (same `skip`-counter modelling of the index
jump). -/
def claudeGo : List RStr → MdParseState → Nat → MdParseState
  | [], st, _ => st
  | _ :: rest, st, skip + 1 => claudeGo rest st skip
  | l :: rest, st, 0 =>
    let line := rtrim l
    if strStartsWith line (rchars "# ") then
      let st1 := { st with name := rtrim (line.drop 2) }
      let blanks := rest.takeWhile (fun x => rtrim x = [])
      match rest.dropWhile (fun x => rtrim x = []) with
      | [] => claudeGo rest st1 0
      | d :: _ =>
        let next_line := rtrim d
        if ¬strStartsWith next_line ['#'] ∧ next_line ≠ [] then
          claudeGo rest { st1 with description := some next_line } (blanks.length + 1)
        else claudeGo rest st1 0
    else if strStartsWith line (rchars "## ") then
      let st1 :=
        match st.current with
        | some cur => { st with sections := st.sections ++ [finishSection .markdown cur] }
        | none => st
      claudeGo rest { st1 with current := some (rtrim (line.drop 3), []) } 0
    else
      match st.current with
      | some (t, ls) =>
        if ¬strStartsWith line markerKey then
          claudeGo rest { st with current := some (t, ls ++ [line]) } 0
        else claudeGo rest st 0
      | none =>
        if line ≠ [] ∧ ¬strStartsWith line ['#'] ∧ ¬strStartsWith line markerKey then
          if st.sections.isEmpty then
            claudeGo rest { st with current := some (rchars "Content", [line]) } 0
          else claudeGo rest st 0
        else claudeGo rest st 0

/-- `parse_claude_code_format` (src/converters/claude_code.rs). -/
def parse_claude_code_format (content : RStr) : RStr × Option RStr × List RuleContent :=
  let st := claudeGo (rustLines content)
    { name := rchars "Imported Rule", description := none, sections := [], current := none } 0
  let secs :=
    match st.current with
    | some cur => st.sections ++ [finishSection .markdown cur]
    | none => st.sections
  let secs :=
    if secs.isEmpty ∧ rtrim content ≠ [] then
      [⟨rchars "Content", .markdown, rtrim content⟩]
    else secs
  (st.name, st.description, secs)

namespace ClaudeCode

/-- `ClaudeCodeConverter::convert_to_tool_format` (src/converters/claude_code.rs). -/
def convert_to_tool_format (rule : UniversalRule) : RStr :=
  let output :=
    rchars "# " ++ rule.metadata.name ++ rchars "\n\n"
    ++ (match rule.metadata.description with
        | some description => description ++ rchars "\n\n"
        | none => [])
    ++ rule.content.flatMap (fun s =>
        rchars "## " ++ s.title ++ rchars "\n\n" ++ s.value ++ rchars "\n\n")
  embed_rule_id_in_content output rule.id

/-- `ClaudeCodeConverter::convert_from_tool_format`; the clock read inside
`determine_rule_id_with_fallback` is the `now` argument. -/
def convert_from_tool_format (content : RStr) (now : Nat) : UniversalRule :=
  let p := parse_claude_code_format content
  { id := determine_rule_id_with_fallback content none (some p.1) now
    version := rchars "0.1.0"
    metadata := { name := p.1, description := p.2.1, tags := [], priority := 5 }
    content := p.2.2
    references := []
    conditions := []
    tool_overrides := [] }

end ClaudeCode

/- ===================== Goose converter (src/converters/goose.rs) ===================== -/

/-- Is `l` a non-empty run of the single character `c`? -/
def isUnderlineOf (c : Char) (l : RStr) : Bool :=
  decide (l ≠ []) && l.all (fun x => x = c)

/-- The two trailing branches of the `parse_goose_format` loop, taken for
the last line and for blank lines (the `i + 1 < lines.len() &&
!line.is_empty()` guard fails there). -/
def gooseElse (line : RStr) (st : MdParseState) : MdParseState :=
  match st.current with
  | some (t, ls) => { st with current := some (t, ls ++ [line]) }
  | none =>
    if line ≠ [] ∧ (st.name = [] ∨ st.name = rchars "Imported Rule") then
      { st with current := some (rchars "Content", [line]) }
    else st

/-- The non-header branches inside the lookahead region of the
`parse_goose_format` loop (note the marker guards, and that a `Content`
section is only opened once a real title has been seen). -/
def gooseMid (line : RStr) (st : MdParseState) : MdParseState :=
  match st.current with
  | some (t, ls) =>
    if ¬strStartsWith line markerKey then { st with current := some (t, ls ++ [line]) }
    else st
  | none =>
    if line ≠ [] ∧ ¬strStartsWith line markerKey
        ∧ st.name ≠ [] ∧ st.name ≠ rchars "Imported Rule" then
      { st with current := some (rchars "Content", [line]) }
    else st

/-- Closing a goose section: sections whose joined, trimmed value is empty
are dropped. -/
def gooseFinish (cur : RStr × List RStr) : List RuleContent :=
  let content_value := rtrim (joinNl cur.2)
  if content_value ≠ [] then [⟨cur.1, .plainText, content_value⟩] else []

/-- The `while i < lines.len()` loop of `parse_goose_format`.  The Rust
loop advances its index past underlines and consumed description lines; the
jumps are modelled by the `skip` counter, which ignores that many following
lines. -/
def gooseGo : List RStr → MdParseState → Nat → MdParseState
  | [], st, _ => st
  | _ :: rest, st, skip + 1 => gooseGo rest st skip
  | [l], st, 0 => gooseElse (rtrim l) st
  | l :: rest, st, 0 =>
    let line := rtrim l
    if line = [] then gooseGo rest (gooseElse line st) 0
    else
      match hnext : rest with
      | [] => gooseElse line st
      | next :: rest2 =>
        let next_line := rtrim next
        if isUnderlineOf '=' next_line ∨ isUnderlineOf '-' next_line then
          if isUnderlineOf '=' next_line then
            let st1 := { st with name := line }
            let blanks := rest2.takeWhile (fun x => rtrim x = [])
            match rest2.dropWhile (fun x => rtrim x = []) with
            | [] => gooseGo rest st1 1
            | d :: tail =>
              let desc_line := rtrim d
              if desc_line ≠ [] then
                let is_description :=
                  match tail with
                  | after :: _ =>
                    !(((rtrim after).all fun c => c == '=' || c == '-')
                        && !(rtrim after).isEmpty)
                  | [] => true
                if is_description then
                  gooseGo rest { st1 with description := some desc_line }
                    (1 + (blanks.length + 1))
                else gooseGo rest st1 1
              else gooseGo rest st1 1
          else
            let st1 :=
              match st.current with
              | some cur => { st with sections := st.sections ++ gooseFinish cur }
              | none => st
            gooseGo rest { st1 with current := some (line, []) } 1
        else gooseGo rest (gooseMid line st) 0

/-- `parse_goose_format` (src/converters/goose.rs). -/
def parse_goose_format (content : RStr) : RStr × Option RStr × List RuleContent :=
  let st := gooseGo (rustLines content)
    { name := rchars "Imported Rule", description := none, sections := [], current := none } 0
  let secs :=
    match st.current with
    | some cur => st.sections ++ gooseFinish cur
    | none => st.sections
  let secs :=
    if secs.isEmpty ∧ rtrim content ≠ [] then
      [⟨rchars "Content", .plainText, rtrim content⟩]
    else secs
  (st.name, st.description, secs)

namespace Goose

/-- `GooseConverter::convert_to_tool_format` (src/converters/goose.rs);
`"=".repeat(name.len())` measures bytes, hence `utf8Len`. -/
def convert_to_tool_format (rule : UniversalRule) : RStr :=
  let output :=
    rule.metadata.name ++ ['\n']
    ++ List.replicate (utf8Len rule.metadata.name) '='
    ++ rchars "\n\n"
    ++ (match rule.metadata.description with
        | some description => description ++ rchars "\n\n"
        | none => [])
    ++ rule.content.flatMap (fun s =>
        s.title ++ ['\n'] ++ List.replicate (utf8Len s.title) '-' ++ ['\n']
        ++ s.value ++ rchars "\n\n")
  embed_rule_id_in_content output rule.id

/-- `GooseConverter::convert_from_tool_format`. -/
def convert_from_tool_format (content : RStr) (now : Nat) : UniversalRule :=
  let p := parse_goose_format content
  { id := determine_rule_id_with_fallback content none (some p.1) now
    version := rchars "0.1.0"
    metadata := { name := p.1, description := p.2.1, tags := [], priority := 5 }
    content := p.2.2
    references := []
    conditions := []
    tool_overrides := [] }

end Goose

/- ===================== Cursor converter (src/converters/cursor.rs) ===================== -/

namespace Cursor

/-- The apply-mode resolution in `convert_to_tool_format` (src/converters/
cursor.rs, lines 48–72): an explicit `apply_mode` override wins; otherwise
the legacy `auto_apply` boolean (defaulting to false); otherwise the
presence of any condition selects `"specific_files"` over
`"intelligent"`. -/
def resolved_apply_mode (rule : UniversalRule) : RStr :=
  let cursor_overrides := ovGet rule.tool_overrides (rchars "cursor")
  match (cursor_overrides.bind (fun o => jGet o (rchars "apply_mode"))).bind jAsStr with
  | some m => m
  | none =>
    let auto_apply :=
      ((cursor_overrides.bind (fun o => jGet o (rchars "auto_apply"))).bind jAsBool).getD false
    if auto_apply then rchars "always"
    else if !rule.conditions.isEmpty then rchars "specific_files"
    else rchars "intelligent"

/-- The `alwaysApply` boolean the exporter emits, from the `match` at
src/converters/cursor.rs lines 85–89. -/
def alwaysApplyFlag (rule : UniversalRule) : Bool :=
  let apply_mode := resolved_apply_mode rule
  if apply_mode = rchars "always" then true
  else if apply_mode = rchars "intelligent" ∨ apply_mode = rchars "specific_files"
      ∨ apply_mode = rchars "manual" then false
  else false

/-- The YAML frontmatter block of the cursor export, including both `---`
delimiter lines and the blank line that follows the block. -/
def frontmatter (rule : UniversalRule) : RStr :=
  rchars "---\n"
  ++ (match rule.metadata.description with
      | some desc =>
        (if '\n' ∈ desc then
          rchars "description: |\n"
          ++ (rustLines desc).flatMap (fun line => rchars "  " ++ line ++ ['\n'])
        else rchars "description: \"" ++ desc ++ rchars "\"\n")
        ++ rchars "notes: \"Rule: " ++ rule.metadata.name ++ rchars "\"\n"
      | none => rchars "description: \"" ++ rule.metadata.name ++ rchars "\"\n")
  ++ (if resolved_apply_mode rule = rchars "specific_files" ∧ ¬rule.conditions.isEmpty then
        rchars "globs:\n"
        ++ rule.conditions.flatMap (fun c =>
            match c with
            | .filePattern value => rchars "  - \"" ++ value ++ rchars "\"\n"
            | .regex _ => [])
      else [])
  ++ rchars "alwaysApply: "
  ++ (if alwaysApplyFlag rule then rchars "true" else rchars "false")
  ++ rchars "\n---\n\n"

/-- The Markdown body of the cursor export: one H1 per content section, in
order, then one `@path` line per reference. -/
def body (rule : UniversalRule) : RStr :=
  rule.content.flatMap (fun s =>
    rchars "# " ++ s.title ++ rchars "\n\n" ++ s.value ++ rchars "\n\n")
  ++ rule.references.flatMap (fun r => '@' :: (r.path ++ ['\n']))

/-- `CursorConverter::convert_to_tool_format` (src/converters/cursor.rs). -/
def convert_to_tool_format (rule : UniversalRule) : RStr :=
  frontmatter rule ++ body rule

/-- The typed view of the YAML frontmatter that the importer reads through
`serde_yaml::Value` accessors (`get` with `as_str` / `as_bool` /
`as_sequence`). -/
structure Frontmatter where
  description : Option RStr
  notes : Option RStr
  globs : Option (List RStr)
  alwaysApply : Option Bool

/-- The view of `serde_yaml::Value::Null` (no frontmatter present). -/
def emptyFM : Frontmatter := ⟨none, none, none, none⟩

/-- A double-quoted YAML flow scalar without escape sequences — the only
quoted form the exporter emits. -/
def parseQuoted (v : RStr) : Option RStr :=
  match v with
  | '"' :: rest =>
    if strEndsWith rest ['"'] ∧ rest ≠ [] then
      let mid := rest.take (rest.length - 1)
      if '"' ∈ mid then none else some mid
    else none
  | _ => none

/-- Modelled from `serde_yaml::from_str` restricted to the frontmatter
fragment this converter exchanges: `description` as a quoted scalar or a
`|` literal block, `notes` as a quoted scalar, `globs` as a block sequence
of quoted scalars, `alwaysApply` as a boolean, and blank lines.  Any other
line is a parse failure, standing for `serde_yaml`'s error on malformed
YAML. -/
def parseFMLines : List RStr → Frontmatter → Option Frontmatter
  | [], fm => some fm
  | l :: rest, fm =>
    if l = [] then parseFMLines rest fm
    else if l = rchars "description: |" then
      let block := rest.takeWhile (fun x => strStartsWith x (rchars "  "))
      let remaining := rest.dropWhile (fun x => strStartsWith x (rchars "  "))
      parseFMLines remaining
        { fm with description := some (joinNl (block.map (List.drop 2)) ++ ['\n']) }
    else if strStartsWith l (rchars "description: ") then
      (parseQuoted (l.drop 13)).bind fun v =>
        parseFMLines rest { fm with description := some v }
    else if strStartsWith l (rchars "notes: ") then
      (parseQuoted (l.drop 7)).bind fun v =>
        parseFMLines rest { fm with notes := some v }
    else if l = rchars "globs:" then
      let items := rest.takeWhile (fun x => strStartsWith x (rchars "  - "))
      let remaining := rest.dropWhile (fun x => strStartsWith x (rchars "  - "))
      (items.mapM (fun x => parseQuoted (x.drop 4))).bind fun vs =>
        parseFMLines remaining { fm with globs := some vs }
    else if l = rchars "alwaysApply: true" then
      parseFMLines rest { fm with alwaysApply := some true }
    else if l = rchars "alwaysApply: false" then
      parseFMLines rest { fm with alwaysApply := some false }
    else none
termination_by l => l.length
decreasing_by
  all_goals simp_wf
  all_goals try omega
  all_goals
    (first
      | (have h1 : (rest.dropWhile (fun x => strStartsWith x (rchars "  "))).length
            ≤ rest.length := length_dropWhile_le _ rest
         omega)
      | (have h1 : (rest.dropWhile (fun x => strStartsWith x (rchars "  - "))).length
            ≤ rest.length := length_dropWhile_le _ rest
         omega))

/-- `parse_cursor_format` (src/converters/cursor.rs): locate the
frontmatter delimiters (`---` at the start, closed by the next line whose
trim is exactly `---`) and split the document; `none` stands for the
converter's `ParseError`. -/
def parse_cursor_format (content : RStr) : Option (Frontmatter × RStr) :=
  if strStartsWith content (rchars "---") then
    let rest := (rustLines content).drop 1
    let fmLines := rest.takeWhile (fun l => rtrim l ≠ rchars "---")
    match rest.dropWhile (fun l => rtrim l ≠ rchars "---") with
    | [] => none
    | _ :: after =>
      (parseFMLines fmLines emptyFM).map fun fm => (fm, rtrim (joinNl after))
  else some (emptyFM, content)

/-- The mutable locals of the `parse_markdown_content` loop. -/
structure CurState where
  sections : List RuleContent
  references : List FileReference
  current : Option (RStr × List RStr)

/-- One push in `parse_markdown_content`: a finished section is kept when
its joined, trimmed value or its title is non-empty. -/
def curFinish (cur : RStr × List RStr) : List RuleContent :=
  let content_value := rtrim (joinNl cur.2)
  if content_value ≠ [] ∨ cur.1 ≠ [] then [⟨cur.1, .markdown, content_value⟩] else []

/-- The line loop of `parse_markdown_content` (lines are consumed raw, not
trimmed, unlike the cline and goose loops). -/
def curGo : List RStr → CurState → CurState
  | [], st => st
  | line :: rest, st =>
    if strStartsWith line (rchars "# ") ∨ strStartsWith line (rchars "## ") then
      let st1 :=
        match st.current with
        | some cur => { st with sections := st.sections ++ curFinish cur }
        | none => st
      let title :=
        if strStartsWith line (rchars "# ") then rtrim (line.drop 2)
        else rtrim (line.drop 3)
      curGo rest { st1 with current := some (title, []) }
    else if strStartsWith line ['@'] then
      curGo rest { st with references := st.references ++ [⟨rtrim (line.drop 1)⟩] }
    else
      match st.current with
      | some (t, ls) => curGo rest { st with current := some (t, ls ++ [line]) }
      | none =>
        if rtrim line ≠ [] then
          curGo rest { st with current := some (rchars "Content", [line]) }
        else curGo rest st

/-- `parse_markdown_content` (src/converters/cursor.rs). -/
def parse_markdown_content (markdown : RStr) : List RuleContent × List FileReference :=
  let st := curGo (rustLines markdown) ⟨[], [], none⟩
  let secs :=
    match st.current with
    | some cur => st.sections ++ curFinish cur
    | none => st.sections
  let secs :=
    if secs.isEmpty ∧ rtrim markdown ≠ [] then
      [⟨rchars "Content", .markdown, rtrim markdown⟩]
    else secs
  (secs, st.references)

/-- `CursorConverter::convert_from_tool_format`; `none` is a `ParseError`. -/
def convert_from_tool_format (content : RStr) : Option UniversalRule :=
  (parse_cursor_format content).map fun fmmd =>
    let fm := fmmd.1
    let parsed := parse_markdown_content fmmd.2
    let content_sections := parsed.1
    let references := parsed.2
    let name :=
      (((fm.notes.bind fun notes =>
            if strStartsWith notes (rchars "Rule: ") then some (notes.drop 6)
            else none).orElse
          (fun _ => fm.description)).orElse
        (fun _ => content_sections.head?.map (·.title))).getD (rchars "Imported Rule")
    let description := fm.description.filter fun s => s ≠ [] ∧ s ≠ name
    let conditions := (fm.globs.getD []).map RuleCondition.filePattern
    let rule_id := lowercaseHyphenFilter name
    let always_apply := fm.alwaysApply.getD false
    let apply_mode :=
      if always_apply then rchars "always"
      else if !conditions.isEmpty then rchars "specific_files"
      else rchars "intelligent"
    { id := rule_id
      version := rchars "0.1.0"
      metadata := { name := name, description := description, tags := [], priority := 5 }
      content := content_sections
      references := references
      conditions := conditions
      tool_overrides :=
        [(rchars "cursor",
          Json.obj [(rchars "apply_mode", Json.str apply_mode),
                    (rchars "auto_apply", Json.bool always_apply)])] }

end Cursor

/- ===================== Merge engine (src/cli/commands/deploy.rs) ===================== -/

/-- Stable insertion into a descending-by-priority list: an element is
placed after every element of strictly greater priority and before the
first element of equal or smaller priority. -/
def insertByPriority (x : UniversalRule) : List UniversalRule → List UniversalRule
  | [] => [x]
  | y :: ys =>
    if x.metadata.priority < y.metadata.priority then y :: insertByPriority x ys
    else x :: y :: ys

/-- The model of `sorted_rules.sort_by(|a, b| b.metadata.priority.cmp(&a.
metadata.priority))`: Rust's sort is stable, and a stable sort under a fixed
comparator has a unique result, so stable insertion sort computes it. -/
def sortByPriorityDesc : List UniversalRule → List UniversalRule
  | [] => []
  | x :: xs => insertByPriority x (sortByPriorityDesc xs)

/-- First-occurrence deduplication (the `HashSet::insert` loops in
`merge_rules`, with the set modelled by membership in the kept prefix). -/
def dedupFirstSeen [DecidableEq α] (key : α → β) [DecidableEq β] : List α → List α :=
  go []
where go (seen : List β) : List α → List α
  | [] => []
  | x :: rest =>
    if key x ∈ seen then go seen rest
    else x :: go (key x :: seen) rest

/-- The dedup key for conditions in `merge_rules`. -/
def conditionKey : RuleCondition → RStr
  | .filePattern value => rchars "file_pattern:" ++ value
  | .regex value => rchars "regex:" ++ value

/-- The synthetic source-header section `merge_rules` places before each
rule's own sections. -/
def mergeHeaderSection (rule : UniversalRule) : RuleContent :=
  ⟨rchars "From: " ++ rule.metadata.name, .markdown,
   rchars "*The following sections are from rule: " ++ rule.metadata.name ++ rchars "*"⟩

/-- `merge_rules` (src/cli/commands/deploy.rs); `none` is the error on an
empty input list. -/
def merge_rules (rules : List UniversalRule) (new_id : RStr) : Option UniversalRule :=
  match rules with
  | [] => none
  | [rule] => some { rule with id := new_id }
  | _ =>
    let sorted_rules := sortByPriorityDesc rules
    match sorted_rules with
    | [] => none
    | highest :: _ =>
      let descriptions := sorted_rules.filterMap (fun rule => rule.metadata.description)
      some
        { id := new_id
          version := highest.version
          metadata :=
            { name := highest.metadata.name
              description :=
                if descriptions.isEmpty then none
                else some (joinSep (rchars "\n\n---\n\n") descriptions)
              tags := dedupFirstSeen (fun tag => tag)
                (sorted_rules.flatMap (fun rule => rule.metadata.tags))
              priority := highest.metadata.priority }
          content := sorted_rules.flatMap (fun rule => mergeHeaderSection rule :: rule.content)
          references := dedupFirstSeen (fun r => r.path)
            (sorted_rules.flatMap (fun rule => rule.references))
          conditions := dedupFirstSeen conditionKey
            (sorted_rules.flatMap (fun rule => rule.conditions))
          tool_overrides := highest.tool_overrides }

/- ===================== Sync reconciler (src/cli/commands/sync.rs) ===================== -/

/-- `rules_are_equivalent` (src/cli/commands/sync.rs). -/
def rules_are_equivalent (rule1 rule2 : UniversalRule) : Bool :=
  rule1.metadata.name = rule2.metadata.name
    && rule1.metadata.description = rule2.metadata.description
    && rule1.content = rule2.content
    && rule1.references = rule2.references
    && rule1.conditions = rule2.conditions

/-- The stored rule resulting from `update_urf_file_selectively`, at the
level of rule fields.  The function performs line surgery on the URF YAML
file; on a well-formed URF file its effect on the parsed rule is: when
content, references or conditions differ it falls back to
`fallback_to_complete_update`, which rewrites the original file replacing
only the serialized `content:` block (so even the metadata-line edits made
earlier are discarded, and references/conditions keep their stored values);
otherwise each changed metadata scalar line (name, description, tags,
priority) is substituted in place and every other line is untouched. -/
def update_urf_file_selectively (existing updated : UniversalRule) : UniversalRule :=
  if existing.content ≠ updated.content ∨ existing.references ≠ updated.references
      ∨ existing.conditions ≠ updated.conditions then
    { existing with content := updated.content }
  else
    { existing with
      metadata :=
        { existing.metadata with
          name := updated.metadata.name
          description := updated.metadata.description
          tags := updated.metadata.tags
          priority := updated.metadata.priority } }

/-- The external rule store (src/store), as the read interface the sync
reconciler uses. -/
abbrev RuleStore := RStr → Option UniversalRule

/-- `RuleStore::save_rule` / writing the patched URF file. -/
def storeSave (store : RuleStore) (id : RStr) (rule : UniversalRule) : RuleStore :=
  fun key => if key = id then some rule else store key

inductive SyncOutcome where
  | updated (id : RStr)
  | created (id : RStr)
  | noChange (id : RStr)
deriving DecidableEq

/-- The caller-visible result of `sync_rule_from_file`: the outcome, whether
the no-existing-rule warning was printed, and the store afterwards. -/
structure SyncEffect where
  outcome : SyncOutcome
  warned : Bool
  store : RuleStore

/-- `sync_rule_from_file` (src/cli/commands/sync.rs), with `dry_run =
false`.  `rule_id` is the file stem of the deployed file and
`converted_rule` the result of the converter's import on the file content;
the id is overridden with the filename-based id before anything else.
(The `metadata.auto_apply` line in the source refers to a field that
`src/models/rule.rs` does not declare — a snapshot inconsistency — and is
omitted.) -/
def sync_rule_from_file (store : RuleStore) (rule_id : RStr)
    (converted_rule : UniversalRule) : SyncEffect :=
  let converted_rule := { converted_rule with id := rule_id }
  match store rule_id with
  | some existing =>
    let converted_rule :=
      { converted_rule with
        version := existing.version
        metadata :=
          { converted_rule.metadata with
            tags := existing.metadata.tags
            priority := existing.metadata.priority }
        tool_overrides := existing.tool_overrides }
    if rules_are_equivalent existing converted_rule then
      ⟨.noChange rule_id, false, store⟩
    else
      ⟨.updated rule_id, false,
        storeSave store rule_id (update_urf_file_selectively existing converted_rule)⟩
  | none =>
    ⟨.created rule_id, true, storeSave store rule_id converted_rule⟩

/- ===================== Lemmas: hyphen splitting and joining ===================== -/

/-- The characters a valid rule id may contain. -/
def validIdChar (c : Char) : Prop := ('a' ≤ c ∧ c ≤ 'z') ∨ ('0' ≤ c ∧ c ≤ '9') ∨ c = '-'

instance (c : Char) : Decidable (validIdChar c) := by unfold validIdChar; infer_instance

/-- Direct recursive form of `strContains s "--"`. -/
def hasDoubleHyphen : RStr → Bool
  | [] => false
  | [_] => false
  | a :: b :: t => (a = '-' && b = '-') || hasDoubleHyphen (b :: t)

theorem strContains_dh (s : RStr) : strContains s (rchars "--") = hasDoubleHyphen s := by
  induction s with
  | nil => rfl
  | cons a t ih =>
    match t with
    | [] => simp [strContains, strStartsWith, hasDoubleHyphen, rchars]
    | b :: t' =>
      rw [strContains]
      by_cases hab : a = '-' ∧ b = '-'
      · obtain ⟨ha, hb⟩ := hab
        subst ha hb
        simp [strStartsWith, hasDoubleHyphen, rchars]
      · have hsw : strStartsWith (a :: b :: t') (rchars "--") = false := by
          show strStartsWith (a :: b :: t') ['-', '-'] = false
          simp only [strStartsWith]
          rcases not_and_or.mp hab with h | h <;> simp [h]
        rw [hsw]
        simp only [Bool.false_eq_true, if_false]
        rw [ih]
        show hasDoubleHyphen (b :: t') = hasDoubleHyphen (a :: b :: t')
        rw [hasDoubleHyphen]
        have : (a = '-' && b = '-') = false := by
          rcases not_and_or.mp hab with h | h <;> simp [h]
        simp [this]

theorem splitHyphen_ne_nil (s : RStr) : splitHyphen s ≠ [] := by
  cases s with
  | nil => simp [splitHyphen]
  | cons c t =>
    rw [splitHyphen]
    by_cases hc : c = '-'
    · simp [hc]
    · simp only [hc, if_false]
      rcases h : splitHyphen t with _ | ⟨l, ls⟩ <;> simp

theorem joinHyphen_splitHyphen (s : RStr) : joinHyphen (splitHyphen s) = s := by
  induction s with
  | nil => rfl
  | cons c t ih =>
    rw [splitHyphen]
    by_cases hc : c = '-'
    · subst hc
      simp only [if_pos rfl]
      rcases h : splitHyphen t with _ | ⟨l, ls⟩
      · exact absurd h (splitHyphen_ne_nil t)
      · rw [h] at ih
        show joinHyphen ([] :: l :: ls) = '-' :: t
        rw [joinHyphen]
        simpa using ih
    · simp only [hc, if_false]
      rcases h : splitHyphen t with _ | ⟨l, ls⟩
      · exact absurd h (splitHyphen_ne_nil t)
      · rw [h] at ih
        rcases ls with _ | ⟨l2, ls'⟩
        · show joinHyphen [c :: l] = c :: t
          rw [joinHyphen] at ih ⊢
          simpa using ih
        · show joinHyphen ((c :: l) :: l2 :: ls') = c :: t
          rw [joinHyphen] at ih ⊢
          simpa using ih

/-- Every piece of `splitHyphen` is hyphen-free and drawn from the input. -/
theorem splitHyphen_pieces : ∀ s : RStr, ∀ part ∈ splitHyphen s, ∀ c ∈ part, c ∈ s ∧ c ≠ '-'
  | [] => by
    intro part hp c hc
    simp [splitHyphen] at hp
    subst hp
    simp at hc
  | a :: t => by
    intro part hp c hc
    have ih := splitHyphen_pieces t
    rw [splitHyphen] at hp
    by_cases ha : a = '-'
    · rw [if_pos ha] at hp
      rcases List.mem_cons.mp hp with h1 | h1
      · subst h1; simp at hc
      · have := ih part h1 c hc
        exact ⟨List.mem_cons_of_mem _ this.1, this.2⟩
    · rw [if_neg ha] at hp
      rcases h : splitHyphen t with _ | ⟨l, ls⟩
      · exact absurd h (splitHyphen_ne_nil t)
      · rw [h] at hp
        rcases List.mem_cons.mp hp with h1 | h1
        · subst h1
          rcases List.mem_cons.mp hc with h2 | h2
          · subst h2; exact ⟨List.mem_cons_self _ _, ha⟩
          · have := ih l (by rw [h]; exact List.mem_cons_self _ _) c h2
            exact ⟨List.mem_cons_of_mem _ this.1, this.2⟩
        · have := ih part (by rw [h]; exact List.mem_cons_of_mem _ h1) c hc
          exact ⟨List.mem_cons_of_mem _ this.1, this.2⟩

/-- Heads: `strStartsWith s [c]` tests the first character. -/
theorem strStartsWith_single (s : RStr) (c : Char) :
    strStartsWith s [c] = true ↔ s.head? = some c := by
  cases s with
  | nil => simp [strStartsWith]
  | cons a t => simp [strStartsWith]

/-- `strEndsWith s [c]` tests the last character. -/
theorem strEndsWith_single (s : RStr) (c : Char) :
    strEndsWith s [c] = true ↔ s.getLast? = some c := by
  unfold strEndsWith
  show strStartsWith s.reverse [c] = true ↔ _
  rw [strStartsWith_single, List.head?_reverse]

/-- Pieces after the first are non-empty when the string has no double
hyphen and does not end in a hyphen. -/
theorem splitHyphen_tail_ne_nil : ∀ s : RStr, hasDoubleHyphen s = false →
    s.getLast? ≠ some '-' → ∀ part ∈ (splitHyphen s).tail, part ≠ []
  | [], _, _ => by simp [splitHyphen]
  | [a], hdh, hend => by
    rw [splitHyphen]
    by_cases ha : a = '-'
    · subst ha; simp at hend
    · simp [ha, splitHyphen]
  | a :: b :: t, hdh, hend => by
    have hlast : (b :: t).getLast? ≠ some '-' := by
      rwa [List.getLast?_cons_cons] at hend
    have hdt : hasDoubleHyphen (b :: t) = false := by
      rw [hasDoubleHyphen] at hdh
      exact (Bool.or_eq_false_iff.mp hdh).2
    have ih := splitHyphen_tail_ne_nil (b :: t) hdt hlast
    intro part hp
    rw [splitHyphen] at hp
    by_cases ha : a = '-'
    · -- the old head piece closes; every piece of `splitHyphen (b :: t)`
      -- must be non-empty, and its head piece is non-empty since `b ≠ '-'`
      have hb : b ≠ '-' := by
        intro hb
        rw [hasDoubleHyphen, ha, hb] at hdh
        simp at hdh
      simp only [ha, if_pos rfl, List.tail_cons] at hp
      rw [splitHyphen] at hp
      simp only [hb, if_false] at hp
      rcases hsp : splitHyphen t with _ | ⟨l, ls⟩
      · exact absurd hsp (splitHyphen_ne_nil t)
      · rw [hsp] at hp
        rcases List.mem_cons.mp hp with hp | hp
        · subst hp; simp
        · apply ih part
          rw [splitHyphen]
          simp only [hb, if_false, hsp]
          simpa using hp
    · simp only [ha, if_false] at hp
      rcases hsp : splitHyphen (b :: t) with _ | ⟨l, ls⟩
      · exact absurd hsp (splitHyphen_ne_nil (b :: t))
      · rw [hsp] at hp
        simp only [List.tail_cons] at hp
        apply ih part
        rw [hsp]
        simpa using hp

/-- The first piece is non-empty when the string does not start with a
hyphen and is itself non-empty. -/
theorem splitHyphen_head_ne_nil (s : RStr) (hne : s ≠ [])
    (hstart : s.head? ≠ some '-') :
    ∀ l ls, splitHyphen s = l :: ls → l ≠ [] := by
  intro l ls hsp
  rcases s with _ | ⟨a, t⟩
  · exact absurd rfl hne
  · have ha : a ≠ '-' := by simpa using hstart
    rw [splitHyphen] at hsp
    simp only [ha, if_false] at hsp
    rcases h : splitHyphen t with _ | ⟨l2, ls2⟩
    · exact absurd h (splitHyphen_ne_nil t)
    · rw [h] at hsp
      cases hsp
      simp


/- ===================== Character-level helper lemmas ===================== -/

theorem char_ofNat_valid {n : Nat} (h : n.isValidChar) : (Char.ofNat n).val.toNat = n := by
  rw [Char.ofNat, dif_pos h]
  simp [Char.ofNatAux, UInt32.toNat]

theorem char_le_iff {a b : Char} : a ≤ b ↔ a.val.toNat ≤ b.val.toNat := by
  rw [Char.le_def, UInt32.le_def, BitVec.le_def]
  rfl

theorem char_eq_iff {a b : Char} : a = b ↔ a.val.toNat = b.val.toNat := by
  constructor
  · intro h; rw [h]
  · intro h
    exact Char.eq_of_val_eq (UInt32.eq_of_toBitVec_eq (BitVec.eq_of_toNat_eq h))

/-- Numeric characterization of `validIdChar`. -/
theorem validIdChar_iff (c : Char) : validIdChar c ↔
    (97 ≤ c.val.toNat ∧ c.val.toNat ≤ 122) ∨ (48 ≤ c.val.toNat ∧ c.val.toNat ≤ 57)
      ∨ c.val.toNat = 45 := by
  unfold validIdChar
  rw [char_le_iff, char_le_iff, char_le_iff, char_le_iff, char_eq_iff]
  rfl

theorem rustLowerChar_of_upper {c : Char} (h1 : 'A' ≤ c) (h2 : c ≤ 'Z') :
    97 ≤ (rustLowerChar c).val.toNat ∧ (rustLowerChar c).val.toNat ≤ 122 := by
  have hv1 : (65 : Nat) ≤ c.val.toNat := by simpa [char_le_iff] using h1
  have hv2 : c.val.toNat ≤ 90 := by simpa [char_le_iff] using h2
  have hvalid : (c.toNat + 32).isValidChar := by
    left
    show c.val.toNat + 32 < 55296
    omega
  have hrw : rustLowerChar c = Char.ofNat (c.toNat + 32) := by
    rw [rustLowerChar, if_pos ⟨h1, h2⟩]
  have hval : (Char.ofNat (c.toNat + 32)).val.toNat = c.toNat + 32 :=
    char_ofNat_valid hvalid
  have hto : c.toNat = c.val.toNat := rfl
  rw [hrw, hval]
  omega

theorem rustLowerChar_fixed {c : Char} (h : ¬('A' ≤ c ∧ c ≤ 'Z')) :
    rustLowerChar c = c := by
  rw [rustLowerChar, if_neg h]

/- ===================== Map/filter helper lemmas ===================== -/

theorem map_id_of {α : Type} {f : α → α} :
    ∀ l : List α, (∀ a ∈ l, f a = a) → l.map f = l
  | [], _ => rfl
  | a :: t, h => by
    rw [List.map_cons, h a (List.mem_cons_self a t),
      map_id_of t (fun x hx => h x (List.mem_cons_of_mem a hx))]

theorem filter_self_of {α : Type} {p : α → Bool} :
    ∀ l : List α, (∀ a ∈ l, p a = true) → l.filter p = l
  | [], _ => rfl
  | a :: t, h => by
    rw [List.filter_cons, if_pos (h a (List.mem_cons_self a t)),
      filter_self_of t (fun x hx => h x (List.mem_cons_of_mem a hx))]

/- ===================== is_valid_rule_id decomposition ===================== -/

theorem is_valid_iff (i : RStr) : is_valid_rule_id i = true ↔
    2 ≤ utf8Len i ∧ utf8Len i ≤ 50 ∧ hasDoubleHyphen i = false ∧
    (∀ c ∈ i, validIdChar c) ∧ i.head? ≠ some '-' ∧ i.getLast? ≠ some '-' := by
  unfold is_valid_rule_id
  rw [strContains_dh]
  by_cases h1 : utf8Len i < 2 ∨ 50 < utf8Len i
  · have : (decide (utf8Len i < 2) || decide (50 < utf8Len i)) = true := by
      rcases h1 with h | h <;> simp [h]
    simp only [this, if_true]
    constructor
    · intro h; simp at h
    · intro ⟨ha, hb, _⟩; omega
  · have : (decide (utf8Len i < 2) || decide (50 < utf8Len i)) = false := by
      push_neg at h1
      simp [Nat.not_lt.mpr h1.1, Nat.not_lt.mpr h1.2]
    simp only [this, Bool.false_eq_true, if_false]
    push_neg at h1
    by_cases h2 : hasDoubleHyphen i = true
    · simp only [h2, if_true]
      constructor
      · intro h; simp at h
      · intro ⟨_, _, hdh, _⟩; simp at hdh
    · have h2f : hasDoubleHyphen i = false := by
        cases h : hasDoubleHyphen i
        · rfl
        · exact absurd h h2
      simp only [h2f, Bool.false_eq_true, if_false]
      rw [Bool.and_eq_true, Bool.and_eq_true]
      constructor
      · intro ⟨⟨hall, hstart⟩, hend⟩
        refine ⟨by omega, by omega, by simp [h2f], ?_, ?_, ?_⟩
        · intro c hc
          have := List.all_eq_true.mp hall c hc
          unfold validIdChar
          simp only [Bool.or_eq_true, decide_eq_true_eq] at this
          tauto
        · intro hd
          rw [Bool.not_eq_true'] at hstart
          rw [← strStartsWith_single i '-'] at hd
          rw [hstart] at hd
          simp at hd
        · intro hd
          rw [Bool.not_eq_true'] at hend
          rw [← strEndsWith_single i '-'] at hd
          rw [hend] at hd
          simp at hd
      · intro ⟨_, _, _, hchars, hstart, hend⟩
        refine ⟨⟨?_, ?_⟩, ?_⟩
        · rw [List.all_eq_true]
          intro c hc
          have := hchars c hc
          unfold validIdChar at this
          simp only [Bool.or_eq_true, decide_eq_true_eq]
          tauto
        · rw [Bool.not_eq_true']
          cases h : strStartsWith i ['-']
          · rfl
          · exact absurd ((strStartsWith_single i '-').mp h) hstart
        · rw [Bool.not_eq_true']
          cases h : strEndsWith i ['-']
          · rfl
          · exact absurd ((strEndsWith_single i '-').mp h) hend


/- ===================== sanitize: part 1 (identity on valid ids) ===================== -/

theorem lowercaseHyphenFilter_fixed (i : RStr) (h : ∀ c ∈ i, validIdChar c) :
    lowercaseHyphenFilter i = i := by
  unfold lowercaseHyphenFilter
  have hlow : i.map rustLowerChar = i := by
    apply map_id_of
    intro c hc
    apply rustLowerChar_fixed
    rcases (validIdChar_iff c).mp (h c hc) with h1 | h1 | h1 <;>
      (intro ⟨ha, hb⟩
       rw [char_le_iff] at ha hb
       have c1 : ('A').val.toNat = 65 := rfl
       have c2 : ('Z').val.toNat = 90 := rfl
       omega)
  rw [hlow]
  have hsub : i.map (fun c => if c = ' ' then '-' else if c = '_' then '-' else c) = i := by
    apply map_id_of
    intro c hc
    have hs : c ≠ ' ' := by
      intro he
      rcases (validIdChar_iff c).mp (h c hc) with h1 | h1 | h1 <;>
        (rw [he] at h1; revert h1; decide)
    have hu : c ≠ '_' := by
      intro he
      rcases (validIdChar_iff c).mp (h c hc) with h1 | h1 | h1 <;>
        (rw [he] at h1; revert h1; decide)
    rw [if_neg hs, if_neg hu]
  rw [hsub]
  apply filter_self_of
  intro c hc
  have h1 := (validIdChar_iff c).mp (h c hc)
  simp only [Bool.or_eq_true, decide_eq_true_eq]
  rw [rustIsAlphanumeric]
  simp only [Bool.or_eq_true, decide_eq_true_eq, char_le_iff, char_eq_iff]
  have ca : ('a').val.toNat = 97 := rfl
  have cz : ('z').val.toNat = 122 := rfl
  have cA : ('A').val.toNat = 65 := rfl
  have cZ : ('Z').val.toNat = 90 := rfl
  have c0 : ('0').val.toNat = 48 := rfl
  have c9 : ('9').val.toNat = 57 := rfl
  have ce : ('é').val.toNat = 233 := rfl
  have cs : ('ß').val.toNat = 223 := rfl
  have cd : ('-').val.toNat = 45 := rfl
  rw [ca, cz, cA, cZ, c0, c9, ce, cs, cd]
  omega

theorem sanitize_fixes_valid (i : RStr) (h : is_valid_rule_id i = true) :
    sanitize_rule_id i = some i := by
  obtain ⟨hlen2, hlen50, hdh, hchars, hhead, hlast⟩ := (is_valid_iff i).mp h
  have hlhf : lowercaseHyphenFilter i = i := lowercaseHyphenFilter_fixed i hchars
  have hne : i ≠ [] := by
    intro he
    rw [he] at hlen2
    simp [utf8Len] at hlen2
  have hparts : ∀ part ∈ splitHyphen i, part ≠ [] := by
    intro part hp
    cases hsp : splitHyphen i with
    | nil => exact absurd hsp (splitHyphen_ne_nil i)
    | cons l ls =>
      rw [hsp] at hp
      rcases List.mem_cons.mp hp with h1 | h1
      · rw [h1]
        exact splitHyphen_head_ne_nil i hne hhead l ls hsp
      · exact splitHyphen_tail_ne_nil i hdh hlast part (by rw [hsp]; exact h1)
  have hfil : (splitHyphen i).filter (fun part => part ≠ []) = splitHyphen i := by
    apply filter_self_of
    intro a ha
    simpa using hparts a ha
  rw [sanitize_rule_id]
  simp only [hlhf, hfil, joinHyphen_splitHyphen]
  rw [if_neg hne, if_neg (by omega), if_neg (by omega)]


/- ===================== sanitize: part 2 (output validity for ASCII input) ===================== -/

theorem hasDH_append_of : ∀ p q : RStr, '-' ∉ p →
    hasDoubleHyphen (p ++ q) = hasDoubleHyphen q
  | [], q, _ => rfl
  | [x], q, hp => by
    have hx : x ≠ '-' := by
      intro he; apply hp; rw [he]; exact List.mem_cons_self _ _
    cases q with
    | nil => simp [hasDoubleHyphen]
    | cons b t =>
      show hasDoubleHyphen (x :: b :: t) = _
      rw [hasDoubleHyphen]
      simp [hx]
  | x :: x2 :: p', q, hp => by
    have hx : x ≠ '-' := by
      intro he; apply hp; rw [he]; exact List.mem_cons_self _ _
    have hsub : '-' ∉ x2 :: p' := fun hm => hp (List.mem_cons_of_mem _ hm)
    have hrec := hasDH_append_of (x2 :: p') q hsub
    rw [List.cons_append] at hrec
    show hasDoubleHyphen (x :: x2 :: (p' ++ q)) = _
    rw [hasDoubleHyphen, hrec]
    simp [hx]

theorem noHyphen_noDH : ∀ p : RStr, '-' ∉ p → hasDoubleHyphen p = false
  | [], _ => rfl
  | [_], _ => rfl
  | x :: b :: t, hp => by
    have hx : x ≠ '-' := by
      intro he; apply hp; rw [he]; exact List.mem_cons_self _ _
    have hsub : '-' ∉ b :: t := fun hm => hp (List.mem_cons_of_mem _ hm)
    rw [hasDoubleHyphen, noHyphen_noDH (b :: t) hsub]
    simp [hx]

theorem joinHyphen_chars : ∀ P : List RStr, ∀ c ∈ joinHyphen P, c = '-' ∨ ∃ p ∈ P, c ∈ p
  | [] => by intro c hc; simp [joinHyphen] at hc
  | [p] => by
    intro c hc
    right
    exact ⟨p, List.mem_cons_self _ _, hc⟩
  | p :: p2 :: rest => by
    intro c hc
    rw [joinHyphen] at hc
    rcases List.mem_append.mp hc with h | h
    · right; exact ⟨p, List.mem_cons_self _ _, h⟩
    · rcases List.mem_cons.mp h with h | h
      · left; exact h
      · rcases joinHyphen_chars (p2 :: rest) c h with h | ⟨q, hq, hcq⟩
        · left; exact h
        · right; exact ⟨q, List.mem_cons_of_mem _ hq, hcq⟩

theorem joinHyphen_ne_nil (p : RStr) (rest : List RStr) (hp : p ≠ []) :
    joinHyphen (p :: rest) ≠ [] := by
  cases rest with
  | nil => simpa [joinHyphen] using hp
  | cons p2 r =>
    rw [joinHyphen]
    simp

theorem joinHyphen_head (p : RStr) (rest : List RStr) (hp : p ≠ []) :
    (joinHyphen (p :: rest)).head? = p.head? := by
  cases rest with
  | nil => rfl
  | cons p2 r =>
    rw [joinHyphen]
    cases p with
    | nil => exact absurd rfl hp
    | cons a t => simp

theorem joinHyphen_noDH : ∀ P : List RStr, (∀ p ∈ P, p ≠ [] ∧ '-' ∉ p) →
    hasDoubleHyphen (joinHyphen P) = false
  | [] , _ => rfl
  | [p], h => noHyphen_noDH p (h p (List.mem_cons_self _ _)).2
  | p :: p2 :: rest, h => by
    rw [joinHyphen]
    rw [hasDH_append_of p ('-' :: joinHyphen (p2 :: rest)) (h p (List.mem_cons_self _ _)).2]
    have hp2 := h p2 (List.mem_cons_of_mem _ (List.mem_cons_self _ _))
    have hjne : joinHyphen (p2 :: rest) ≠ [] := joinHyphen_ne_nil p2 rest hp2.1
    cases hj : joinHyphen (p2 :: rest) with
    | nil => exact absurd hj hjne
    | cons b t =>
      rw [hasDoubleHyphen]
      have hb : b ≠ '-' := by
        have := joinHyphen_head p2 rest hp2.1
        rw [hj] at this
        cases p2 with
        | nil => exact absurd rfl hp2.1
        | cons a2 t2 =>
          simp at this
          rw [this]
          intro he
          exact hp2.2 (by rw [← he]; exact List.mem_cons_self _ _)
      simp only [hb]
      have : hasDoubleHyphen (b :: t) = false := by
        rw [← hj]
        exact joinHyphen_noDH (p2 :: rest) (fun q hq => h q (List.mem_cons_of_mem _ hq))
      simp [this]

theorem joinHyphen_last_ne : ∀ P : List RStr, (∀ p ∈ P, p ≠ [] ∧ '-' ∉ p) → P ≠ [] →
    (joinHyphen P).getLast? ≠ some '-'
  | [], _, hne => absurd rfl hne
  | [p], h, _ => by
    have hp := h p (List.mem_cons_self _ _)
    rw [joinHyphen]
    rw [List.getLast?_eq_getLast p hp.1]
    intro he
    simp at he
    exact hp.2 (by rw [← he]; exact List.getLast_mem hp.1)
  | p :: p2 :: rest, h, _ => by
    rw [joinHyphen]
    have hp2 := h p2 (List.mem_cons_of_mem _ (List.mem_cons_self _ _))
    have hjne : joinHyphen (p2 :: rest) ≠ [] := joinHyphen_ne_nil p2 rest hp2.1
    rw [List.getLast?_append_of_ne_nil p (by simp)]
    have : ('-' :: joinHyphen (p2 :: rest)).getLast? = (joinHyphen (p2 :: rest)).getLast? := by
      cases hj : joinHyphen (p2 :: rest) with
      | nil => exact absurd hj hjne
      | cons b t => rw [List.getLast?_cons_cons]
    rw [this]
    exact joinHyphen_last_ne (p2 :: rest) (fun q hq => h q (List.mem_cons_of_mem _ hq))
      (by simp)

/-- Every character the sanitizer pipeline keeps, on ASCII input, is a valid
id character. -/
theorem lowercaseHyphenFilter_valid (i : RStr) (hAscii : ∀ c ∈ i, c.val.toNat < 128) :
    ∀ c ∈ lowercaseHyphenFilter i, validIdChar c := by
  intro c hc
  unfold lowercaseHyphenFilter at hc
  have hmem := List.mem_filter.mp hc
  obtain ⟨hin, hkeep⟩ := hmem
  simp only [Bool.or_eq_true, decide_eq_true_eq] at hkeep
  rcases hkeep with halnum | hdash
  · -- kept as alphanumeric: on ASCII input only lowercase letters and
    -- digits survive the lowercasing
    obtain ⟨b, hb, hbc⟩ := List.mem_map.mp hin
    obtain ⟨a, ha, hab⟩ := List.mem_map.mp hb
    have haa : a.val.toNat < 128 := hAscii a ha
    have hbAscii : b.val.toNat < 128 ∧ ¬(65 ≤ b.val.toNat ∧ b.val.toNat ≤ 90) := by
      by_cases hup : 'A' ≤ a ∧ a ≤ 'Z'
      · have := rustLowerChar_of_upper hup.1 hup.2
        rw [hab] at this
        constructor <;> omega
      · rw [rustLowerChar_fixed hup] at hab
        subst hab
        constructor
        · exact haa
        · intro hr
          apply hup
          rw [char_le_iff, char_le_iff]
          have cA : ('A').val.toNat = 65 := rfl
          have cZ : ('Z').val.toNat = 90 := rfl
          omega
    have hcb : c.val.toNat < 128 ∧ ¬(65 ≤ c.val.toNat ∧ c.val.toNat ≤ 90) := by
      by_cases hsp : b = ' '
      · rw [if_pos hsp] at hbc
        rw [← hbc]
        exact ⟨by decide, by decide⟩
      · by_cases hun : b = '_'
        · rw [if_neg hsp, if_pos hun] at hbc
          rw [← hbc]
          exact ⟨by decide, by decide⟩
        · rw [if_neg hsp, if_neg hun] at hbc
          rw [← hbc]
          exact hbAscii
    rw [rustIsAlphanumeric] at halnum
    simp only [Bool.or_eq_true, decide_eq_true_eq, char_le_iff, char_eq_iff] at halnum
    rw [validIdChar_iff]
    have ca : ('a').val.toNat = 97 := rfl
    have cz : ('z').val.toNat = 122 := rfl
    have cA : ('A').val.toNat = 65 := rfl
    have cZ : ('Z').val.toNat = 90 := rfl
    have c0 : ('0').val.toNat = 48 := rfl
    have c9 : ('9').val.toNat = 57 := rfl
    have ce : ('é').val.toNat = 233 := rfl
    have cs : ('ß').val.toNat = 223 := rfl
    rw [ca, cz, cA, cZ, c0, c9, ce, cs] at halnum
    omega
  · rw [validIdChar_iff, hdash]
    right; right; rfl


theorem sanitize_rule_id_output_valid (i : RStr) (hAscii : ∀ c ∈ i, c.val.toNat < 128)
    (o : RStr) (ho : sanitize_rule_id i = some o) : is_valid_rule_id o = true := by
  rw [sanitize_rule_id] at ho
  by_cases h1 : joinHyphen ((splitHyphen (lowercaseHyphenFilter i)).filter
      (fun part => decide (part ≠ []))) = []
  · rw [if_pos h1] at ho; simp at ho
  rw [if_neg h1] at ho
  by_cases h2 : utf8Len (joinHyphen ((splitHyphen (lowercaseHyphenFilter i)).filter
      (fun part => decide (part ≠ [])))) < 2
  · rw [if_pos h2] at ho; simp at ho
  rw [if_neg h2] at ho
  by_cases h3 : 50 < utf8Len (joinHyphen ((splitHyphen (lowercaseHyphenFilter i)).filter
      (fun part => decide (part ≠ []))))
  · rw [if_pos h3] at ho; simp at ho
  rw [if_neg h3] at ho
  have hoc : o = joinHyphen ((splitHyphen (lowercaseHyphenFilter i)).filter
      (fun part => decide (part ≠ []))) := by
    cases ho; rfl
  subst hoc
  generalize hP : (splitHyphen (lowercaseHyphenFilter i)).filter
      (fun part => decide (part ≠ [])) = P at *
  have hPmem : ∀ p ∈ P, p ≠ [] ∧ '-' ∉ p := by
    intro p hp
    rw [← hP] at hp
    have hmf := List.mem_filter.mp hp
    refine ⟨by simpa using hmf.2, ?_⟩
    intro hm
    exact (splitHyphen_pieces (lowercaseHyphenFilter i) p hmf.1 '-' hm).2 rfl
  have hPchars : ∀ p ∈ P, ∀ c ∈ p, validIdChar c := by
    intro p hp c hc
    rw [← hP] at hp
    have hmf := List.mem_filter.mp hp
    have := splitHyphen_pieces (lowercaseHyphenFilter i) p hmf.1 c hc
    exact lowercaseHyphenFilter_valid i hAscii c this.1
  have hPne : P ≠ [] := by
    intro he
    rw [he] at h1
    exact h1 rfl
  rw [is_valid_iff]
  refine ⟨by omega, by omega, joinHyphen_noDH P hPmem, ?_, ?_, joinHyphen_last_ne P hPmem hPne⟩
  · intro c hc
    rcases joinHyphen_chars P c hc with h | ⟨p, hp, hcp⟩
    · rw [h]; decide
    · exact hPchars p hp c hcp
  · cases hPeq : P with
    | nil => exact absurd hPeq hPne
    | cons p0 P' =>
      have hp0 := hPmem p0 (by rw [hPeq]; exact List.mem_cons_self _ _)
      rw [joinHyphen_head p0 P' hp0.1]
      cases p0 with
      | nil => exact absurd rfl hp0.1
      | cons a t =>
        simp only [List.head?_cons]
        intro he
        simp at he
        apply hp0.2
        rw [he]
        exact List.mem_cons_self _ _


/-- C4 (corrected, amended): for every string that is already a valid rule
id, `sanitize_rule_id` succeeds and returns it unchanged; and for every
ASCII input on which `sanitize_rule_id` succeeds, the returned string
satisfies the rule-id invariant checked by `is_valid_rule_id`.  (The ASCII
restriction in the second part is forced by the counterexample: non-ASCII
alphanumeric input sanitizes successfully to a string the invariant
rejects.) -/
theorem claim_c4_sanitize_invariants :
    (∀ i : RStr, is_valid_rule_id i = true → sanitize_rule_id i = some i) ∧
    (∀ i : RStr, (∀ c ∈ i, c.val.toNat < 128) →
      ∀ o : RStr, sanitize_rule_id i = some o → is_valid_rule_id o = true) :=
  ⟨sanitize_fixes_valid, sanitize_rule_id_output_valid⟩

/-- C4 counterexample: the input `"éé"` (two non-ASCII Unicode letters) is
sanitized successfully and returned unchanged, yet the result violates the
§3 id invariant as checked by `is_valid_rule_id`, refuting the claim that
every successful `sanitize` output satisfies the invariant. -/
theorem claim_c4_counterexample :
    sanitize_rule_id (rchars "éé") = some (rchars "éé") ∧
    is_valid_rule_id (rchars "éé") = false := by
  constructor
  · rfl
  · rfl

/-- Witness for `claim_c4_sanitize_invariants` at concrete inputs. -/
theorem claim_c4_witness :
    (is_valid_rule_id (rchars "simple-rule") = true ∧
      sanitize_rule_id (rchars "simple-rule") = some (rchars "simple-rule")) ∧
    ((∀ c ∈ rchars "My Rule", c.val.toNat < 128) ∧
      sanitize_rule_id (rchars "My Rule") = some (rchars "my-rule") ∧
      is_valid_rule_id (rchars "my-rule") = true) :=
  ⟨⟨by decide, claim_c4_sanitize_invariants.1 _ (by decide)⟩,
   ⟨by decide, by decide,
    claim_c4_sanitize_invariants.2 (rchars "My Rule") (by decide) _ (by decide)⟩⟩


/- ===================== C5: identity fallback ladder ===================== -/

/-- Modelled from the spec (§4.5): the id-resolution ladder as a
first-success-wins `orElse` chain — (1) a syntactically valid embedded
marker, (2) the sanitized file stem, (3) the sanitized rule name, (4) the
generated `imported-rule-{unix_timestamp}` default. -/
def spec_determine_id (content : RStr) (file_path : Option RStr)
    (rule_name : Option RStr) (now : Nat) : RStr :=
  ((((extract_embedded_rule_id content).filter is_valid_rule_id).orElse
      (fun _ => file_path.bind (fun p => (pathFileStem p).bind sanitize_rule_id))).orElse
    (fun _ => rule_name.bind sanitize_rule_id)).getD
    (rchars "imported-rule-" ++ natStr now)

theorem determineFallback_eq (file_path rule_name : Option RStr) (now : Nat) :
    determine_rule_id_with_fallback.determineFallback file_path rule_name now =
      ((file_path.bind (fun p => (pathFileStem p).bind sanitize_rule_id)).orElse
        (fun _ => rule_name.bind sanitize_rule_id)).getD
        (rchars "imported-rule-" ++ natStr now) := by
  rw [determine_rule_id_with_fallback.determineFallback]
  have hext : file_path.bind extract_rule_id_from_filename =
      file_path.bind (fun p => (pathFileStem p).bind sanitize_rule_id) := rfl
  rw [hext]
  cases file_path.bind (fun p => (pathFileStem p).bind sanitize_rule_id) with
  | some v => simp [Option.orElse]
  | none =>
    cases rule_name.bind sanitize_rule_id with
    | some v => simp [Option.orElse]
    | none => simp [Option.orElse]

/-- C5 (confirmed): `determine_rule_id_with_fallback` computes exactly the
spec's strict fallback ladder, first success wins (and is total, so the
operation never fails); concretely, content carrying a valid embedded
marker beats a distinct filename and rule name. -/
theorem claim_c5_determine_id :
    (∀ (content : RStr) (file_path rule_name : Option RStr) (now : Nat),
      determine_rule_id_with_fallback content file_path rule_name now =
        spec_determine_id content file_path rule_name now) ∧
    (∀ now : Nat, determine_rule_id_with_fallback
        (rchars "<!-- rulesify-id: embedded-rule -->\n# Some Rule")
        (some (rchars "filename-rule.md")) (some (rchars "Content Rule Name")) now =
      rchars "embedded-rule") := by
  constructor
  · intro content file_path rule_name now
    rw [determine_rule_id_with_fallback, spec_determine_id]
    cases he : extract_embedded_rule_id content with
    | some e =>
      by_cases hv : is_valid_rule_id e
      · simp [Option.filter, hv, Option.orElse]
      · have hvf : is_valid_rule_id e = false := by
          cases h : is_valid_rule_id e
          · rfl
          · exact absurd h hv
        simp only [Option.filter, hvf, Bool.false_eq_true, if_false]
        rw [determineFallback_eq]
        cases file_path.bind (fun p => (pathFileStem p).bind sanitize_rule_id) with
        | some v => simp [Option.orElse]
        | none =>
          cases rule_name.bind sanitize_rule_id with
          | some v => simp [Option.orElse]
          | none => simp [Option.orElse]
    | none =>
      simp only [Option.filter]
      rw [determineFallback_eq]
      cases file_path.bind (fun p => (pathFileStem p).bind sanitize_rule_id) with
      | some v => simp [Option.orElse]
      | none =>
        cases rule_name.bind sanitize_rule_id with
        | some v => simp [Option.orElse]
        | none => simp [Option.orElse]
  · intro now
    rfl

/- ===================== C9: goose import example ===================== -/

/-- C9 (confirmed): goose import classifies each line by its successor
(`=` underline opens the title, `-` underline opens a section, a
description candidate must not itself be underlined); on
`"Title\n=====\n\nDesc\n\nSection\n-------\n\nBody"` it yields name
`"Title"`, description `"Desc"` and exactly one section `"Section"` with
body `"Body"` (for any clock value, which only affects the generated id). -/
theorem claim_c9_goose_underline_import :
    ∀ now : Nat,
      (Goose.convert_from_tool_format
          (rchars "Title\n=====\n\nDesc\n\nSection\n-------\n\nBody") now).metadata.name =
        rchars "Title" ∧
      (Goose.convert_from_tool_format
          (rchars "Title\n=====\n\nDesc\n\nSection\n-------\n\nBody") now).metadata.description =
        some (rchars "Desc") ∧
      (Goose.convert_from_tool_format
          (rchars "Title\n=====\n\nDesc\n\nSection\n-------\n\nBody") now).content =
        [⟨rchars "Section", .plainText, rchars "Body"⟩] := by
  intro now
  exact ⟨rfl, rfl, rfl⟩


/- ===================== C2: merge engine ===================== -/

theorem insertByPriority_filter (x : UniversalRule) (l : List UniversalRule) (p : Nat) :
    (insertByPriority x l).filter (fun r => r.metadata.priority == p) =
      if x.metadata.priority == p then
        x :: l.filter (fun r => r.metadata.priority == p)
      else l.filter (fun r => r.metadata.priority == p) := by
  induction l with
  | nil => rw [insertByPriority, List.filter_cons]
  | cons y ys ih =>
    rw [insertByPriority]
    by_cases h : x.metadata.priority < y.metadata.priority
    · rw [if_pos h, List.filter_cons, ih, List.filter_cons]
      by_cases hx : x.metadata.priority = p
      · have hy : ¬y.metadata.priority = p := by omega
        simp [hx, hy]
      · by_cases hy : y.metadata.priority = p
        · simp [hx, hy]
        · simp [hx, hy]
    · rw [if_neg h, List.filter_cons]

theorem sortByPriorityDesc_stable (l : List UniversalRule) (p : Nat) :
    (sortByPriorityDesc l).filter (fun r => r.metadata.priority == p) =
      l.filter (fun r => r.metadata.priority == p) := by
  induction l with
  | nil => rfl
  | cons x xs ih =>
    rw [sortByPriorityDesc, insertByPriority_filter, List.filter_cons]
    by_cases hx : x.metadata.priority = p <;> simp [hx, ih]

theorem insertByPriority_mem (x a : UniversalRule) (l : List UniversalRule) :
    a ∈ insertByPriority x l → a = x ∨ a ∈ l := by
  induction l with
  | nil => intro h; rw [insertByPriority] at h; simpa using h
  | cons y ys ih =>
    intro h
    rw [insertByPriority] at h
    by_cases hc : x.metadata.priority < y.metadata.priority
    · rw [if_pos hc] at h
      rcases List.mem_cons.mp h with h | h
      · right; rw [h]; exact List.mem_cons_self _ _
      · rcases ih h with h | h
        · left; exact h
        · right; exact List.mem_cons_of_mem _ h
    · rw [if_neg hc] at h
      rcases List.mem_cons.mp h with h | h
      · left; exact h
      · right; exact h

theorem insertByPriority_sorted (x : UniversalRule) (l : List UniversalRule)
    (hl : List.Pairwise (fun a b => b.metadata.priority ≤ a.metadata.priority) l) :
    List.Pairwise (fun a b => b.metadata.priority ≤ a.metadata.priority)
      (insertByPriority x l) := by
  induction l with
  | nil => simp [insertByPriority]
  | cons y ys ih =>
    rw [insertByPriority]
    rcases List.pairwise_cons.mp hl with ⟨hy, hys⟩
    by_cases hc : x.metadata.priority < y.metadata.priority
    · rw [if_pos hc]
      rw [List.pairwise_cons]
      constructor
      · intro a ha
        rcases insertByPriority_mem x a ys ha with h | h
        · rw [h]; omega
        · exact hy a h
      · exact ih hys
    · rw [if_neg hc]
      rw [List.pairwise_cons]
      constructor
      · intro a ha
        rcases List.mem_cons.mp ha with h | h
        · rw [h]; omega
        · have := hy a h
          omega
      · exact hl

theorem sortByPriorityDesc_sorted (l : List UniversalRule) :
    List.Pairwise (fun a b => b.metadata.priority ≤ a.metadata.priority)
      (sortByPriorityDesc l) := by
  induction l with
  | nil => simp [sortByPriorityDesc]
  | cons x xs ih =>
    rw [sortByPriorityDesc]
    exact insertByPriority_sorted x _ ih

theorem insertByPriority_perm (x : UniversalRule) (l : List UniversalRule) :
    List.Perm (insertByPriority x l) (x :: l) := by
  induction l with
  | nil => rw [insertByPriority]
  | cons y ys ih =>
    rw [insertByPriority]
    by_cases hc : x.metadata.priority < y.metadata.priority
    · rw [if_pos hc]
      exact List.Perm.trans (List.Perm.cons y ih) (List.Perm.swap x y ys)
    · rw [if_neg hc]

theorem sortByPriorityDesc_perm (l : List UniversalRule) :
    List.Perm (sortByPriorityDesc l) l := by
  induction l with
  | nil => rfl
  | cons x xs ih =>
    rw [sortByPriorityDesc]
    exact List.Perm.trans (insertByPriority_perm x _) (List.Perm.cons x ih)

/-- C2 (confirmed): `merge_rules` is the identity (except for the id) on a
single rule; on two or more rules it sorts descending by priority with a
stable sort (per-priority sublists keep input order; the result is a sorted
permutation), takes name/version/priority/tool_overrides from the
highest-priority rule, joins the present descriptions with the
`"\n\n---\n\n"` separator in priority order, deduplicates the tag union
first-seen starting from the highest-priority rule, concatenates a
`"From: {name}"` header section followed by each rule's own sections in
priority order, and deduplicates references by path and conditions by
their `(kind, value)` key, first occurrence winning. -/
theorem claim_c2_merge_rules :
    (∀ (rule : UniversalRule) (new_id : RStr),
      merge_rules [rule] new_id = some { rule with id := new_id }) ∧
    (∀ (rules : List UniversalRule) (new_id : RStr), 2 ≤ rules.length →
      ∃ highest rest, sortByPriorityDesc rules = highest :: rest ∧
        ∃ m, merge_rules rules new_id = some m ∧
          m.id = new_id ∧
          m.version = highest.version ∧
          m.metadata.name = highest.metadata.name ∧
          m.metadata.priority = highest.metadata.priority ∧
          m.tool_overrides = highest.tool_overrides ∧
          m.metadata.description =
            (let descriptions :=
              (highest :: rest).filterMap (fun rule => rule.metadata.description)
             if descriptions.isEmpty then none
             else some (joinSep (rchars "\n\n---\n\n") descriptions)) ∧
          m.metadata.tags = dedupFirstSeen (fun tag => tag)
            ((highest :: rest).flatMap (fun rule => rule.metadata.tags)) ∧
          m.content =
            (highest :: rest).flatMap (fun rule => mergeHeaderSection rule :: rule.content) ∧
          m.references = dedupFirstSeen (fun r => r.path)
            ((highest :: rest).flatMap (fun rule => rule.references)) ∧
          m.conditions = dedupFirstSeen conditionKey
            ((highest :: rest).flatMap (fun rule => rule.conditions))) ∧
    (∀ (rules : List UniversalRule) (p : Nat),
      (sortByPriorityDesc rules).filter (fun r => r.metadata.priority == p) =
        rules.filter (fun r => r.metadata.priority == p)) ∧
    (∀ rules : List UniversalRule,
      List.Pairwise (fun a b => b.metadata.priority ≤ a.metadata.priority)
        (sortByPriorityDesc rules)) ∧
    (∀ rules : List UniversalRule, List.Perm (sortByPriorityDesc rules) rules) := by
  refine ⟨fun rule new_id => rfl, ?_, sortByPriorityDesc_stable,
    sortByPriorityDesc_sorted, sortByPriorityDesc_perm⟩
  intro rules new_id hlen
  match rules with
  | [] => simp at hlen
  | [r] => simp at hlen
  | r1 :: r2 :: rs =>
    have hslen : (sortByPriorityDesc (r1 :: r2 :: rs)).length = (r1 :: r2 :: rs).length :=
      (sortByPriorityDesc_perm _).length_eq
    cases hs : sortByPriorityDesc (r1 :: r2 :: rs) with
    | nil => rw [hs] at hslen; simp at hslen
    | cons highest rest =>
      refine ⟨highest, rest, rfl, ?_⟩
      rw [merge_rules]
      · simp only [hs]
        exact ⟨_, rfl, rfl, rfl, rfl, rfl, rfl, rfl, rfl, rfl, rfl, rfl⟩
      · intro h
        simp at h
      · intro rule h
        simp at h

/-- Witness for `claim_c2_merge_rules` on a concrete two-rule list. -/
theorem claim_c2_witness :
    2 ≤ ([{ id := rchars "a", version := rchars "1", metadata :=
            { name := rchars "A", description := some (rchars "dA"), tags := [rchars "t"],
              priority := 3 },
            content := [], references := [], conditions := [], tool_overrides := [] },
          { id := rchars "b", version := rchars "2", metadata :=
            { name := rchars "B", description := none, tags := [], priority := 8 },
            content := [], references := [], conditions := [], tool_overrides := [] }] :
          List UniversalRule).length ∧
    (∃ highest rest,
      sortByPriorityDesc
          [{ id := rchars "a", version := rchars "1", metadata :=
              { name := rchars "A", description := some (rchars "dA"), tags := [rchars "t"],
                priority := 3 },
              content := [], references := [], conditions := [], tool_overrides := [] },
           { id := rchars "b", version := rchars "2", metadata :=
              { name := rchars "B", description := none, tags := [], priority := 8 },
              content := [], references := [], conditions := [], tool_overrides := [] }] =
        highest :: rest ∧
      ∃ m, merge_rules
          [{ id := rchars "a", version := rchars "1", metadata :=
              { name := rchars "A", description := some (rchars "dA"), tags := [rchars "t"],
                priority := 3 },
              content := [], references := [], conditions := [], tool_overrides := [] },
           { id := rchars "b", version := rchars "2", metadata :=
              { name := rchars "B", description := none, tags := [], priority := 8 },
              content := [], references := [], conditions := [], tool_overrides := [] }]
          (rchars "merged") = some m ∧
        m.id = rchars "merged" ∧
        m.version = highest.version ∧
        m.metadata.name = highest.metadata.name ∧
        m.metadata.priority = highest.metadata.priority ∧
        m.tool_overrides = highest.tool_overrides ∧
        m.metadata.description =
          (let descriptions :=
            (highest :: rest).filterMap (fun rule => rule.metadata.description)
           if descriptions.isEmpty then none
           else some (joinSep (rchars "\n\n---\n\n") descriptions)) ∧
        m.metadata.tags = dedupFirstSeen (fun tag => tag)
          ((highest :: rest).flatMap (fun rule => rule.metadata.tags)) ∧
        m.content =
          (highest :: rest).flatMap (fun rule => mergeHeaderSection rule :: rule.content) ∧
        m.references = dedupFirstSeen (fun r => r.path)
          ((highest :: rest).flatMap (fun rule => rule.references)) ∧
        m.conditions = dedupFirstSeen conditionKey
          ((highest :: rest).flatMap (fun rule => rule.conditions))) :=
  ⟨by simp, claim_c2_merge_rules.2.1 _ (rchars "merged") (by simp)⟩


/- ===================== C3 and C10: sync reconciler ===================== -/

/-- The converted rule after the filename-id override and the copy of the
four canonical-only fields — the value `sync_rule_from_file` compares
against the stored rule and hands to the selective update. -/
def syncConverted (existing conv : UniversalRule) (rule_id : RStr) : UniversalRule :=
  { conv with
    id := rule_id
    version := existing.version
    metadata :=
      { conv.metadata with
        tags := existing.metadata.tags
        priority := existing.metadata.priority }
    tool_overrides := existing.tool_overrides }

theorem sync_some_eq (store : RuleStore) (rule_id : RStr) (conv existing : UniversalRule)
    (h : store rule_id = some existing) :
    sync_rule_from_file store rule_id conv =
      if rules_are_equivalent existing (syncConverted existing conv rule_id) then
        ⟨.noChange rule_id, false, store⟩
      else
        ⟨.updated rule_id, false,
          storeSave store rule_id
            (update_urf_file_selectively existing (syncConverted existing conv rule_id))⟩ := by
  rw [sync_rule_from_file]
  simp only [h]
  rfl

theorem sync_none_eq (store : RuleStore) (rule_id : RStr) (conv : UniversalRule)
    (h : store rule_id = none) :
    sync_rule_from_file store rule_id conv =
      ⟨.created rule_id, true, storeSave store rule_id { conv with id := rule_id }⟩ := by
  rw [sync_rule_from_file]
  simp only [h]

/-- C3 (confirmed): the stored rule consulted by a sync is determined by
the deployed file's filename stem alone (never by an id embedded in the
file — the converted rule's own id is discarded); the equivalence test
compares exactly name, description, content, references and conditions and
is blind to version, tags, priority and tool_overrides; an equivalent
incoming rule is a no-op that writes nothing; and a missing stored rule produces a
caller-visible warning and a newly created rule whose id is the filename
stem. -/
theorem claim_c3_sync_reconciler :
    (∀ r1 r2 : UniversalRule, rules_are_equivalent r1 r2 = true ↔
      (r1.metadata.name = r2.metadata.name ∧
       r1.metadata.description = r2.metadata.description ∧
       r1.content = r2.content ∧
       r1.references = r2.references ∧
       r1.conditions = r2.conditions)) ∧
    (∀ (r1 r2 : UniversalRule) (version : RStr) (tags : List RStr) (priority : Nat)
        (overrides : ToolOverrides),
      rules_are_equivalent r1
        { r2 with
          version := version
          tool_overrides := overrides
          metadata := { r2.metadata with tags := tags, priority := priority } } =
      rules_are_equivalent r1 r2) ∧
    (∀ (store : RuleStore) (rule_id new_id : RStr) (conv : UniversalRule),
      sync_rule_from_file store rule_id { conv with id := new_id } =
        sync_rule_from_file store rule_id conv) ∧
    (∀ (store store' : RuleStore) (rule_id : RStr) (conv : UniversalRule),
      store rule_id = store' rule_id →
      (sync_rule_from_file store rule_id conv).outcome =
          (sync_rule_from_file store' rule_id conv).outcome ∧
      (sync_rule_from_file store rule_id conv).warned =
          (sync_rule_from_file store' rule_id conv).warned ∧
      (sync_rule_from_file store rule_id conv).store rule_id =
          (sync_rule_from_file store' rule_id conv).store rule_id) ∧
    (∀ (store : RuleStore) (rule_id : RStr) (conv existing : UniversalRule),
      store rule_id = some existing →
      rules_are_equivalent existing (syncConverted existing conv rule_id) = true →
      sync_rule_from_file store rule_id conv = ⟨.noChange rule_id, false, store⟩) ∧
    (∀ (store : RuleStore) (rule_id : RStr) (conv : UniversalRule),
      store rule_id = none →
      (sync_rule_from_file store rule_id conv).outcome = .created rule_id ∧
      (sync_rule_from_file store rule_id conv).warned = true ∧
      (sync_rule_from_file store rule_id conv).store rule_id =
        some { conv with id := rule_id }) := by
  refine ⟨?_, ?_, ?_, ?_, ?_, ?_⟩
  · intro r1 r2
    rw [rules_are_equivalent]
    simp only [Bool.and_eq_true, decide_eq_true_eq]
    tauto
  · intro r1 r2 version tags priority overrides
    rw [rules_are_equivalent, rules_are_equivalent]
  · intro store rule_id new_id conv
    rfl
  · intro store store' rule_id conv hst
    cases hs : store rule_id with
    | some existing =>
      rw [sync_some_eq store rule_id conv existing hs,
        sync_some_eq store' rule_id conv existing (by rw [← hst]; exact hs)]
      by_cases heq : rules_are_equivalent existing (syncConverted existing conv rule_id) = true
      · rw [if_pos heq, if_pos heq]
        refine ⟨rfl, rfl, ?_⟩
        show store rule_id = store' rule_id
        exact hst
      · rw [if_neg heq, if_neg heq]
        refine ⟨rfl, rfl, ?_⟩
        show storeSave store rule_id _ rule_id = storeSave store' rule_id _ rule_id
        rw [storeSave, storeSave, if_pos rfl, if_pos rfl]
    | none =>
      rw [sync_none_eq store rule_id conv hs,
        sync_none_eq store' rule_id conv (by rw [← hst]; exact hs)]
      refine ⟨rfl, rfl, ?_⟩
      show storeSave store rule_id _ rule_id = storeSave store' rule_id _ rule_id
      rw [storeSave, storeSave, if_pos rfl, if_pos rfl]
  · intro store rule_id conv existing hst heq
    rw [sync_some_eq store rule_id conv existing hst, if_pos heq]
  · intro store rule_id conv hst
    rw [sync_none_eq store rule_id conv hst]
    refine ⟨rfl, rfl, ?_⟩
    show storeSave store rule_id _ rule_id = _
    rw [storeSave, if_pos rfl]


/-- A concrete stored rule used by the sync witnesses. -/
def sampleStored : UniversalRule :=
  { id := rchars "tr"
    version := rchars "1.0.0"
    metadata :=
      { name := rchars "Test Rule", description := some (rchars "d"),
        tags := [rchars "t1"], priority := 7 }
    content := [⟨rchars "S", .markdown, rchars "v"⟩]
    references := []
    conditions := []
    tool_overrides := [] }

/-- A concrete converted (imported) rule used by the sync witnesses: same
five compared fields as `sampleStored`, different id and canonical-only
fields. -/
def sampleConverted : UniversalRule :=
  { id := rchars "other"
    version := rchars "0.1.0"
    metadata :=
      { name := rchars "Test Rule", description := some (rchars "d"),
        tags := [], priority := 5 }
    content := [⟨rchars "S", .markdown, rchars "v"⟩]
    references := []
    conditions := []
    tool_overrides := [] }

/-- A concrete single-rule store for the sync witnesses. -/
def sampleStore : RuleStore :=
  fun key => if key = rchars "tr" then some sampleStored else none

/-- Witness for `claim_c3_sync_reconciler` at concrete inputs: an
equivalent import against the stored rule is a no-op, and a sync against an
empty store warns and creates the rule under the filename stem. -/
theorem claim_c3_witness :
    (sampleStore (rchars "tr") = some sampleStored ∧
      rules_are_equivalent sampleStored
        (syncConverted sampleStored sampleConverted (rchars "tr")) = true ∧
      sync_rule_from_file sampleStore (rchars "tr") sampleConverted =
        ⟨.noChange (rchars "tr"), false, sampleStore⟩) ∧
    ((fun _ => none : RuleStore) (rchars "nr") = none ∧
      (sync_rule_from_file (fun _ => none) (rchars "nr") sampleConverted).outcome =
        .created (rchars "nr") ∧
      (sync_rule_from_file (fun _ => none) (rchars "nr") sampleConverted).warned = true ∧
      (sync_rule_from_file (fun _ => none) (rchars "nr") sampleConverted).store (rchars "nr") =
        some { sampleConverted with id := rchars "nr" }) :=
  ⟨⟨rfl, rfl,
    claim_c3_sync_reconciler.2.2.2.2.1 sampleStore (rchars "tr") sampleConverted
      sampleStored rfl rfl⟩,
   ⟨rfl,
    (claim_c3_sync_reconciler.2.2.2.2.2 (fun _ => none) (rchars "nr")
      sampleConverted rfl).1,
    (claim_c3_sync_reconciler.2.2.2.2.2 (fun _ => none) (rchars "nr")
      sampleConverted rfl).2.1,
    (claim_c3_sync_reconciler.2.2.2.2.2 (fun _ => none) (rchars "nr")
      sampleConverted rfl).2.2⟩⟩

/-- C10 (confirmed): when a sync matches a deployed file to an existing
stored rule, the stored rule's version, tags, priority and tool_overrides
after the sync equal their values before it, whatever the deployed file
contained: the four fields are copied into the converted rule before
comparison, and neither update path rewrites them. -/
theorem claim_c10_sync_preserves_canonical_fields :
    ∀ (store : RuleStore) (rule_id : RStr) (conv existing : UniversalRule),
      store rule_id = some existing →
      (((sync_rule_from_file store rule_id conv).store rule_id).map (·.version) =
          some existing.version ∧
       ((sync_rule_from_file store rule_id conv).store rule_id).map (·.metadata.tags) =
          some existing.metadata.tags ∧
       ((sync_rule_from_file store rule_id conv).store rule_id).map (·.metadata.priority) =
          some existing.metadata.priority ∧
       ((sync_rule_from_file store rule_id conv).store rule_id).map (·.tool_overrides) =
          some existing.tool_overrides) := by
  intro store rule_id conv existing hst
  rw [sync_some_eq store rule_id conv existing hst]
  by_cases heq : rules_are_equivalent existing (syncConverted existing conv rule_id) = true
  · rw [if_pos heq]
    show (store rule_id).map _ = _ ∧ (store rule_id).map _ = _ ∧
      (store rule_id).map _ = _ ∧ (store rule_id).map _ = _
    rw [hst]
    exact ⟨rfl, rfl, rfl, rfl⟩
  · rw [if_neg heq]
    have hsv : storeSave store rule_id
        (update_urf_file_selectively existing (syncConverted existing conv rule_id))
        rule_id =
        some (update_urf_file_selectively existing (syncConverted existing conv rule_id)) := by
      rw [storeSave, if_pos rfl]
    show (storeSave store rule_id _ rule_id).map _ = _ ∧
      (storeSave store rule_id _ rule_id).map _ = _ ∧
      (storeSave store rule_id _ rule_id).map _ = _ ∧
      (storeSave store rule_id _ rule_id).map _ = _
    rw [hsv]
    rw [update_urf_file_selectively]
    by_cases hstruct : existing.content ≠ (syncConverted existing conv rule_id).content
        ∨ existing.references ≠ (syncConverted existing conv rule_id).references
        ∨ existing.conditions ≠ (syncConverted existing conv rule_id).conditions
    · rw [if_pos hstruct]
      exact ⟨rfl, rfl, rfl, rfl⟩
    · rw [if_neg hstruct]
      exact ⟨rfl, rfl, rfl, rfl⟩

/-- Witness for `claim_c10_sync_preserves_canonical_fields` at a concrete
store and a converted rule that changes the name (an update, not a
no-op). -/
theorem claim_c10_witness :
    sampleStore (rchars "tr") = some sampleStored ∧
    (((sync_rule_from_file sampleStore (rchars "tr")
        { sampleConverted with
          metadata := { sampleConverted.metadata with name := rchars "New Name" } }).store
        (rchars "tr")).map (·.version) = some sampleStored.version ∧
     ((sync_rule_from_file sampleStore (rchars "tr")
        { sampleConverted with
          metadata := { sampleConverted.metadata with name := rchars "New Name" } }).store
        (rchars "tr")).map (·.metadata.tags) = some sampleStored.metadata.tags ∧
     ((sync_rule_from_file sampleStore (rchars "tr")
        { sampleConverted with
          metadata := { sampleConverted.metadata with name := rchars "New Name" } }).store
        (rchars "tr")).map (·.metadata.priority) = some sampleStored.metadata.priority ∧
     ((sync_rule_from_file sampleStore (rchars "tr")
        { sampleConverted with
          metadata := { sampleConverted.metadata with name := rchars "New Name" } }).store
        (rchars "tr")).map (·.tool_overrides) = some sampleStored.tool_overrides) :=
  ⟨rfl, claim_c10_sync_preserves_canonical_fields sampleStore (rchars "tr") _ sampleStored rfl⟩


/- ===================== Line-splitting lemmas ===================== -/

theorem splitNl_ne_nil (s : RStr) : splitNl s ≠ [] := by
  cases s with
  | nil => simp [splitNl]
  | cons c t =>
    rw [splitNl]
    by_cases hc : c = '\n'
    · simp [hc]
    · simp only [hc, if_false]
      rcases h : splitNl t with _ | ⟨l, ls⟩ <;> simp

theorem splitNl_append_nl : ∀ v s : RStr, splitNl (v ++ '\n' :: s) = splitNl v ++ splitNl s
  | [], s => by simp [splitNl]
  | c :: v, s => by
    rw [List.cons_append, splitNl]
    by_cases hc : c = '\n'
    · rw [if_pos hc, splitNl_append_nl v s]
      rw [splitNl, if_pos hc]
      rfl
    · rw [if_neg hc, splitNl_append_nl v s]
      conv_rhs => rw [splitNl, if_neg hc]
      cases h : splitNl v with
      | nil => exact absurd h (splitNl_ne_nil v)
      | cons l ls => simp

theorem splitNl_of_no_nl (v : RStr) (h : '\n' ∉ v) : splitNl v = [v] := by
  induction v with
  | nil => rfl
  | cons c t ih =>
    rw [splitNl]
    have hc : c ≠ '\n' := by
      intro he; exact h (by rw [he]; exact List.mem_cons_self _ _)
    rw [if_neg hc, ih (fun hm => h (List.mem_cons_of_mem _ hm))]

theorem splitNl_pieces : ∀ v : RStr, ∀ piece ∈ splitNl v, ∀ c ∈ piece, c ∈ v ∧ c ≠ '\n'
  | [] => by
    intro piece hp c hc
    simp [splitNl] at hp
    subst hp
    simp at hc
  | a :: t => by
    intro piece hp c hc
    have ih := splitNl_pieces t
    rw [splitNl] at hp
    by_cases ha : a = '\n'
    · rw [if_pos ha] at hp
      rcases List.mem_cons.mp hp with h1 | h1
      · subst h1; simp at hc
      · have := ih piece h1 c hc
        exact ⟨List.mem_cons_of_mem _ this.1, this.2⟩
    · rw [if_neg ha] at hp
      rcases h : splitNl t with _ | ⟨l, ls⟩
      · exact absurd h (splitNl_ne_nil t)
      · rw [h] at hp
        rcases List.mem_cons.mp hp with h1 | h1
        · rw [h1] at hc
          rcases List.mem_cons.mp hc with h2 | h2
          · subst h2; exact ⟨List.mem_cons_self _ _, ha⟩
          · have := ih l (by rw [h]; exact List.mem_cons_self _ _) c h2
            exact ⟨List.mem_cons_of_mem _ this.1, this.2⟩
        · have := ih piece (by rw [h]; exact List.mem_cons_of_mem _ h1) c hc
          exact ⟨List.mem_cons_of_mem _ this.1, this.2⟩

theorem rustLinesAux_append : ∀ xs ys : List RStr, ys ≠ [] →
    rustLinesAux (xs ++ ys) = xs.map stripCr ++ rustLinesAux ys
  | [], ys, _ => by simp
  | [x], ys, hne => by
    rw [List.singleton_append]
    cases ys with
    | nil => exact absurd rfl hne
    | cons y ys' => rfl
  | x :: x2 :: xs, ys, hne => by
    have := rustLinesAux_append (x2 :: xs) ys hne
    rw [List.cons_append]
    rw [show rustLinesAux (x :: (x2 :: xs ++ ys)) = stripCr x :: rustLinesAux (x2 :: xs ++ ys)
      from rfl]
    rw [this]
    rfl

theorem stripCr_of_no_cr : ∀ l : RStr, '\r' ∉ l → stripCr l = l
  | [], _ => rfl
  | [c], h => by
    have hc : c ≠ '\r' := by
      intro he; exact h (by rw [he]; exact List.mem_cons_self _ _)
    rw [stripCr, if_neg hc]
  | c :: c2 :: t, h => by
    rw [stripCr, stripCr_of_no_cr (c2 :: t) (fun hm => h (List.mem_cons_of_mem _ hm))]

theorem stripCr_last_ne : ∀ l : RStr, l.getLast? ≠ some '\r' → stripCr l = l
  | [], _ => rfl
  | [c], h => by
    have hc : c ≠ '\r' := by
      intro he
      rw [he] at h
      simp at h
    rw [stripCr, if_neg hc]
  | c :: c2 :: t, h => by
    rw [stripCr, stripCr_last_ne (c2 :: t) (by rwa [List.getLast?_cons_cons] at h)]

/-- Splitting off one `'\n'`-terminated line. -/
theorem rustLines_line_append (l s : RStr) (h : '\n' ∉ l) :
    rustLines (l ++ '\n' :: s) = stripCr l :: rustLines s := by
  rw [rustLines, splitNl_append_nl, splitNl_of_no_nl l h,
    rustLinesAux_append [l] (splitNl s) (splitNl_ne_nil s)]
  rfl

/-- Splitting off a `'\n'`-terminated chunk that may itself contain
newlines. -/
theorem rustLines_chunk_append (v s : RStr) :
    rustLines (v ++ '\n' :: s) = (splitNl v).map stripCr ++ rustLines s := by
  rw [rustLines, splitNl_append_nl, rustLinesAux_append _ _ (splitNl_ne_nil s)]
  rfl

/-- The concatenation of `'\n'`-terminated lines. -/
def unlines (ls : List RStr) : RStr := ls.flatMap (fun l => l ++ ['\n'])

theorem unlines_append (a b : List RStr) : unlines (a ++ b) = unlines a ++ unlines b := by
  rw [unlines, unlines, unlines, List.flatMap_append]

theorem rustLines_unlines : ∀ ls : List RStr, (∀ l ∈ ls, '\n' ∉ l) →
    rustLines (unlines ls) = ls.map stripCr
  | [], _ => rfl
  | l :: rest, h => by
    rw [unlines, List.flatMap_cons, List.append_assoc]
    rw [show ['\n'] ++ (rest.flatMap fun x => x ++ ['\n']) =
      '\n' :: (rest.flatMap fun x => x ++ ['\n']) from rfl]
    rw [rustLines_line_append l _ (h l (List.mem_cons_self _ _))]
    rw [show (rest.flatMap fun x => x ++ ['\n']) = unlines rest from rfl]
    rw [rustLines_unlines rest (fun x hx => h x (List.mem_cons_of_mem _ hx))]
    rfl


/- ===================== C6: cursor apply-mode and globs ===================== -/

/-- The single `globs:` sequence entry for a condition (none for regex
conditions). -/
def cursorGlobLine : RuleCondition → List RStr
  | .filePattern value => [rchars "  - \"" ++ value ++ ['"']]
  | .regex _ => []

/-- The frontmatter of the cursor export as a list of lines. -/
def cursorFMLines (rule : UniversalRule) : List RStr :=
  [rchars "---"]
  ++ (match rule.metadata.description with
      | some desc =>
        (if '\n' ∈ desc then
          rchars "description: |" :: (rustLines desc).map (fun line => rchars "  " ++ line)
        else [rchars "description: \"" ++ desc ++ ['"']])
        ++ [rchars "notes: \"Rule: " ++ rule.metadata.name ++ ['"']]
      | none => [rchars "description: \"" ++ rule.metadata.name ++ ['"']])
  ++ (if Cursor.resolved_apply_mode rule = rchars "specific_files"
        ∧ ¬rule.conditions.isEmpty then
        rchars "globs:" :: rule.conditions.flatMap cursorGlobLine
      else [])
  ++ [rchars "alwaysApply: "
        ++ (if Cursor.alwaysApplyFlag rule then rchars "true" else rchars "false"),
      rchars "---", []]

theorem glob_chunk (conds : List RuleCondition) :
    conds.flatMap (fun c =>
      match c with
      | .filePattern value => rchars "  - \"" ++ value ++ rchars "\"\n"
      | .regex _ => []) = unlines (conds.flatMap cursorGlobLine) := by
  induction conds with
  | nil => rfl
  | cons c rest ih =>
    rw [List.flatMap_cons, List.flatMap_cons, unlines_append, ih]
    cases c with
    | filePattern value => simp [cursorGlobLine, unlines, rchars]
    | regex value => simp [cursorGlobLine, unlines]

theorem frontmatter_eq_unlines (rule : UniversalRule) :
    Cursor.frontmatter rule = unlines (cursorFMLines rule) := by
  rw [Cursor.frontmatter, cursorFMLines]
  rw [unlines_append, unlines_append, unlines_append]
  have h4 : unlines [rchars "alwaysApply: "
      ++ (if Cursor.alwaysApplyFlag rule then rchars "true" else rchars "false"),
      rchars "---", []] =
      rchars "alwaysApply: "
      ++ (if Cursor.alwaysApplyFlag rule then rchars "true" else rchars "false")
      ++ rchars "\n---\n\n" := by
    simp [unlines, rchars]
  rw [h4]
  have h1 : unlines [rchars "---"] = rchars "---\n" := by simp [unlines, rchars]
  rw [h1]
  have h3 : (if Cursor.resolved_apply_mode rule = rchars "specific_files"
        ∧ ¬rule.conditions.isEmpty then
      rchars "globs:\n" ++ rule.conditions.flatMap (fun c =>
        match c with
        | .filePattern value => rchars "  - \"" ++ value ++ rchars "\"\n"
        | .regex _ => [])
    else []) =
      unlines (if Cursor.resolved_apply_mode rule = rchars "specific_files"
          ∧ ¬rule.conditions.isEmpty then
        rchars "globs:" :: rule.conditions.flatMap cursorGlobLine
      else []) := by
    by_cases hc : Cursor.resolved_apply_mode rule = rchars "specific_files"
        ∧ ¬rule.conditions.isEmpty
    · rw [if_pos hc, if_pos hc, glob_chunk]
      simp [unlines, rchars]
    · rw [if_neg hc, if_neg hc]
      rfl
  rw [h3]
  have h2 : (match rule.metadata.description with
      | some desc =>
        (if '\n' ∈ desc then
          rchars "description: |\n"
          ++ (rustLines desc).flatMap (fun line => rchars "  " ++ line ++ ['\n'])
        else rchars "description: \"" ++ desc ++ rchars "\"\n")
        ++ rchars "notes: \"Rule: " ++ rule.metadata.name ++ rchars "\"\n"
      | none => rchars "description: \"" ++ rule.metadata.name ++ rchars "\"\n") =
      unlines (match rule.metadata.description with
      | some desc =>
        (if '\n' ∈ desc then
          rchars "description: |" :: (rustLines desc).map (fun line => rchars "  " ++ line)
        else [rchars "description: \"" ++ desc ++ ['"']])
        ++ [rchars "notes: \"Rule: " ++ rule.metadata.name ++ ['"']]
      | none => [rchars "description: \"" ++ rule.metadata.name ++ ['"']]) := by
    cases hdesc : rule.metadata.description with
    | none => simp [unlines, rchars]
    | some desc =>
      dsimp only
      by_cases hnl : '\n' ∈ desc
      · rw [if_pos hnl]
        rw [unlines_append]
        have : unlines (rchars "description: |"
            :: (rustLines desc).map (fun line => rchars "  " ++ line)) =
            rchars "description: |\n"
            ++ unlines ((rustLines desc).map (fun line => rchars "  " ++ line)) := by
          simp [unlines, rchars]
        rw [if_pos hnl, this]
        have hfl : (rustLines desc).flatMap (fun line => rchars "  " ++ line ++ ['\n']) =
            unlines ((rustLines desc).map (fun line => rchars "  " ++ line)) := by
          rw [unlines, List.flatMap_map]
        rw [hfl]
        try simp [unlines, rchars]
      · rw [if_neg hnl, if_neg hnl]
        simp [unlines, rchars]
  rw [h2]
  simp [List.append_assoc]


/-- Rules whose name, description and file-pattern values are single-line,
so that the frontmatter's line structure is not disturbed. -/
def cursorLineSafe (rule : UniversalRule) : Bool :=
  decide ('\n' ∉ rule.metadata.name)
    && (match rule.metadata.description with
        | some d => decide ('\n' ∉ d)
        | none => true)
    && rule.conditions.all (fun c =>
        match c with
        | .filePattern value => decide ('\n' ∉ value)
        | .regex _ => true)

theorem strStartsWith_append_self : ∀ p rest : RStr, strStartsWith (p ++ rest) p = true
  | [], rest => by cases rest <;> rfl
  | c :: p, rest => by
    rw [List.cons_append]
    show (decide (c = c) && strStartsWith (p ++ rest) p) = true
    rw [strStartsWith_append_self p rest]
    simp

theorem cursor_frontmatter_lines (rule : UniversalRule) (h : cursorLineSafe rule = true) :
    rustLines (Cursor.frontmatter rule) = cursorFMLines rule := by
  rw [cursorLineSafe, Bool.and_eq_true, Bool.and_eq_true] at h
  obtain ⟨⟨hname, hdesc⟩, hconds⟩ := h
  rw [decide_eq_true_eq] at hname
  have hnonl : ∀ l ∈ cursorFMLines rule, '\n' ∉ l := by
    intro l hl
    rw [cursorFMLines, List.append_assoc, List.append_assoc] at hl
    simp only [List.mem_append, List.mem_cons, List.not_mem_nil, or_false] at hl
    have hlit : ∀ (s : String), (∀ c ∈ s.data, c ≠ '\n') → ∀ x : RStr, '\n' ∉ x →
        '\n' ∉ rchars s ++ x := by
      intro s hs x hx hm
      rcases List.mem_append.mp hm with hm | hm
      · exact hs '\n' hm rfl
      · exact hx hm
    rcases hl with hl | hl | hl | hl | hl | hl
    · subst hl; decide
    · -- description / notes block
      cases hde : rule.metadata.description with
      | none =>
        rw [hde] at hl
        simp only [List.mem_cons, List.not_mem_nil, or_false] at hl
        subst hl
        refine hlit "description: \"" (by decide) _ ?_
        intro hm
        rcases List.mem_append.mp hm with hm | hm
        · exact hname hm
        · simp at hm
      | some d =>
        rw [hde] at hl hdesc
        simp only [decide_eq_true_eq] at hdesc
        dsimp only at hl
        rw [if_neg hdesc] at hl
        simp only [List.mem_append, List.mem_cons, List.not_mem_nil, or_false] at hl
        rcases hl with hl | hl
        · subst hl
          refine hlit "description: \"" (by decide) _ ?_
          intro hm
          rcases List.mem_append.mp hm with hm | hm
          · exact hdesc hm
          · simp at hm
        · subst hl
          refine hlit "notes: \"Rule: " (by decide) _ ?_
          intro hm
          rcases List.mem_append.mp hm with hm | hm
          · exact hname hm
          · simp at hm
    · -- globs block
      by_cases hg : Cursor.resolved_apply_mode rule = rchars "specific_files"
          ∧ ¬rule.conditions.isEmpty
      · rw [if_pos hg] at hl
        simp only [List.mem_cons] at hl
        rcases hl with hl | hl
        · subst hl; decide
        · rw [List.mem_flatMap] at hl
          obtain ⟨c, hc, hlc⟩ := hl
          cases c with
          | regex v => simp [cursorGlobLine] at hlc
          | filePattern v =>
            have hv := List.all_eq_true.mp hconds _ hc
            simp only [decide_eq_true_eq] at hv
            simp only [cursorGlobLine, List.mem_cons, List.not_mem_nil, or_false] at hlc
            subst hlc
            refine hlit "  - \"" (by decide) _ ?_
            intro hm
            rcases List.mem_append.mp hm with hm | hm
            · exact hv hm
            · simp at hm
      · rw [if_neg hg] at hl
        simp at hl
    · subst hl
      refine hlit "alwaysApply: " (by decide) _ ?_
      cases Cursor.alwaysApplyFlag rule <;> decide
    · subst hl; decide
    · subst hl; simp
  rw [frontmatter_eq_unlines, rustLines_unlines _ hnonl]
  apply map_id_of
  intro l hl
  have hq : ∀ (s : String) (x : RStr), stripCr (rchars s ++ (x ++ ['\"'])) =
      rchars s ++ (x ++ ['\"']) := by
    intro s x
    apply stripCr_last_ne
    rw [List.getLast?_append_of_ne_nil (rchars s) (by simp),
      List.getLast?_concat]
    simp
  rw [cursorFMLines, List.append_assoc, List.append_assoc] at hl
  simp only [List.mem_append, List.mem_cons, List.not_mem_nil, or_false] at hl
  rcases hl with hl | hl | hl | hl | hl | hl
  · subst hl; rfl
  · cases hde : rule.metadata.description with
    | none =>
      rw [hde] at hl
      simp only [List.mem_cons, List.not_mem_nil, or_false] at hl
      subst hl
      exact hq "description: \"" _
    | some d =>
      rw [hde] at hl hdesc
      simp only [decide_eq_true_eq] at hdesc
      dsimp only at hl
      rw [if_neg hdesc] at hl
      simp only [List.mem_append, List.mem_cons, List.not_mem_nil, or_false] at hl
      rcases hl with hl | hl
      · subst hl; exact hq "description: \"" _
      · subst hl; exact hq "notes: \"Rule: " _
  · by_cases hg : Cursor.resolved_apply_mode rule = rchars "specific_files"
        ∧ ¬rule.conditions.isEmpty
    · rw [if_pos hg] at hl
      simp only [List.mem_cons] at hl
      rcases hl with hl | hl
      · subst hl; rfl
      · rw [List.mem_flatMap] at hl
        obtain ⟨c, hc, hlc⟩ := hl
        cases c with
        | regex v => simp [cursorGlobLine] at hlc
        | filePattern v =>
          simp only [cursorGlobLine, List.mem_cons, List.not_mem_nil, or_false] at hlc
          subst hlc
          exact hq "  - \"" _
    · rw [if_neg hg] at hl
      simp at hl
  · subst hl
    cases Cursor.alwaysApplyFlag rule <;> rfl
  · subst hl; rfl
  · subst hl; rfl


/-- The apply-mode resolution as the specification words it, with the
corrected final step: after the explicit `apply_mode` override and the
legacy `auto_apply` boolean, the mode is `"specific_files"` when any
condition exists (of either kind), else `"intelligent"`. -/
def spec_apply_mode (rule : UniversalRule) : RStr :=
  let cursor_overrides := ovGet rule.tool_overrides (rchars "cursor")
  match (cursor_overrides.bind (fun o => jGet o (rchars "apply_mode"))).bind jAsStr with
  | some m => m
  | none =>
    if (cursor_overrides.bind (fun o => jGet o (rchars "auto_apply"))).bind jAsBool
        = some true then
      rchars "always"
    else if rule.conditions ≠ [] then rchars "specific_files"
    else rchars "intelligent"

/-- The apply-mode resolution as the claim words it: the fallback step
checks for a FilePattern condition specifically, rather than for any
condition. -/
def spec_apply_mode_claimed (rule : UniversalRule) : RStr :=
  let cursor_overrides := ovGet rule.tool_overrides (rchars "cursor")
  match (cursor_overrides.bind (fun o => jGet o (rchars "apply_mode"))).bind jAsStr with
  | some m => m
  | none =>
    if (cursor_overrides.bind (fun o => jGet o (rchars "auto_apply"))).bind jAsBool
        = some true then
      rchars "always"
    else if rule.conditions.any (fun c =>
        match c with
        | .filePattern value => true
        | .regex value => false) then
      rchars "specific_files"
    else rchars "intelligent"

/-- A rule whose only condition is a Regex: the exporter resolves the
apply mode to `"specific_files"` (any condition counts), while the
claim's FilePattern-only reading predicts `"intelligent"`. -/
def c6regexRule : UniversalRule :=
  { id := rchars "c6-regex"
    version := rchars "1.0.0"
    metadata := { name := rchars "Regex Rule", description := none, tags := [], priority := 5 }
    content := [{ title := rchars "Guidelines", format := .markdown,
                  value := rchars "Use tests." }]
    references := []
    conditions := [.regex (rchars "test")]
    tool_overrides := [] }

/-- The specification's own example: an explicit
`apply_mode = "specific_files"` override and one FilePattern condition
`"*.ts"`. -/
def c6globRule : UniversalRule :=
  { id := rchars "c6-glob"
    version := rchars "1.0.0"
    metadata := { name := rchars "Glob Rule", description := none, tags := [], priority := 5 }
    content := [{ title := rchars "Guidelines", format := .markdown,
                  value := rchars "Use types." }]
    references := []
    conditions := [.filePattern (rchars "*.ts")]
    tool_overrides := [(rchars "cursor",
      Json.obj [(rchars "apply_mode", Json.str (rchars "specific_files"))])] }

/-- The specification's second example: `apply_mode = "intelligent"`
overridden with conditions still present. -/
def c6intelRule : UniversalRule :=
  { id := rchars "c6-intel"
    version := rchars "1.0.0"
    metadata := { name := rchars "Intel Rule", description := none, tags := [], priority := 5 }
    content := [{ title := rchars "Guidelines", format := .markdown,
                  value := rchars "Use types." }]
    references := []
    conditions := [.filePattern (rchars "*.ts")]
    tool_overrides := [(rchars "cursor",
      Json.obj [(rchars "apply_mode", Json.str (rchars "intelligent"))])] }

/-- C6 (amended): the resolved apply mode matches the spec's resolution
order with the fallback keyed on ANY condition (not only FilePattern);
`alwaysApply` is true exactly for mode `"always"`; for single-line rules
the `globs:` key appears in the frontmatter iff the resolved mode is
`"specific_files"` and some condition exists; and the indented glob
entries are exactly one per FilePattern condition, Regex conditions never
emitted. -/
theorem claim_c6_cursor_apply_mode :
    (∀ rule : UniversalRule,
      Cursor.resolved_apply_mode rule = spec_apply_mode rule)
    ∧ (∀ rule : UniversalRule,
      Cursor.alwaysApplyFlag rule = true ↔
        Cursor.resolved_apply_mode rule = rchars "always")
    ∧ (∀ rule : UniversalRule, cursorLineSafe rule = true →
      (rchars "globs:" ∈ rustLines (Cursor.frontmatter rule) ↔
        Cursor.resolved_apply_mode rule = rchars "specific_files"
          ∧ rule.conditions ≠ []))
    ∧ (∀ rule : UniversalRule, cursorLineSafe rule = true →
      (rustLines (Cursor.frontmatter rule)).filter
          (fun l => strStartsWith l (rchars "  - \"")) =
        (if Cursor.resolved_apply_mode rule = rchars "specific_files"
            ∧ ¬rule.conditions.isEmpty then
          rule.conditions.flatMap cursorGlobLine
        else [])) := by
  have hd1 : ∀ x : RStr, rchars "description: \"" ++ x ≠ rchars "globs:" := by
    intro x he
    have he' : 'd' :: (rchars "escription: \"" ++ x) = 'g' :: rchars "lobs:" := he
    injection he' with h1 _
    exact absurd h1 (by decide)
  have hn1 : ∀ x : RStr, rchars "notes: \"Rule: " ++ x ≠ rchars "globs:" := by
    intro x he
    have he' : 'n' :: (rchars "otes: \"Rule: " ++ x) = 'g' :: rchars "lobs:" := he
    injection he' with h1 _
    exact absurd h1 (by decide)
  have hi1 : ∀ x : RStr, rchars "  - \"" ++ x ≠ rchars "globs:" := by
    intro x he
    have he' : ' ' :: (rchars " - \"" ++ x) = 'g' :: rchars "lobs:" := he
    injection he' with h1 _
    exact absurd h1 (by decide)
  have ha1 : ∀ x : RStr, rchars "alwaysApply: " ++ x ≠ rchars "globs:" := by
    intro x he
    have he' : 'a' :: (rchars "lwaysApply: " ++ x) = 'g' :: rchars "lobs:" := he
    injection he' with h1 _
    exact absurd h1 (by decide)
  refine ⟨?_, ?_, ?_, ?_⟩
  · intro rule
    simp only [Cursor.resolved_apply_mode, spec_apply_mode]
    cases hm : ((ovGet rule.tool_overrides (rchars "cursor")).bind
        (fun o => jGet o (rchars "apply_mode"))).bind jAsStr with
    | some m => rfl
    | none =>
      cases ha : ((ovGet rule.tool_overrides (rchars "cursor")).bind
          (fun o => jGet o (rchars "auto_apply"))).bind jAsBool with
      | none =>
        cases hc : rule.conditions <;> simp
      | some b =>
        cases b
        · cases hc : rule.conditions <;> simp
        · simp
  · intro rule
    by_cases h : Cursor.resolved_apply_mode rule = rchars "always"
    · simp [Cursor.alwaysApplyFlag, h]
    · simp [Cursor.alwaysApplyFlag, h]
  · intro rule hsafe
    rw [cursor_frontmatter_lines rule hsafe]
    rw [cursorLineSafe, Bool.and_eq_true, Bool.and_eq_true] at hsafe
    obtain ⟨⟨hname, hdesc⟩, hconds⟩ := hsafe
    constructor
    · intro hmem
      by_cases hg : Cursor.resolved_apply_mode rule = rchars "specific_files"
          ∧ ¬rule.conditions.isEmpty
      · refine ⟨hg.1, ?_⟩
        intro hnil
        exact hg.2 (by rw [hnil]; rfl)
      · exfalso
        rw [cursorFMLines, if_neg hg, List.append_assoc, List.append_assoc] at hmem
        simp only [List.mem_append, List.mem_cons, List.not_mem_nil, or_false,
          false_or] at hmem
        rcases hmem with h | h | h | h | h
        · exact absurd h (by decide)
        · cases hde : rule.metadata.description with
          | none =>
            rw [hde] at h
            simp only [List.mem_cons, List.not_mem_nil, or_false] at h
            exact hd1 _ h.symm
          | some d =>
            rw [hde] at h hdesc
            simp only [decide_eq_true_eq] at hdesc
            dsimp only at h
            rw [if_neg hdesc] at h
            simp only [List.mem_append, List.mem_cons, List.not_mem_nil, or_false] at h
            rcases h with h | h
            · exact hd1 _ h.symm
            · exact hn1 _ h.symm
        · exact ha1 _ h.symm
        · exact absurd h (by decide)
        · exact absurd h (by decide)
    · rintro ⟨h1, h2⟩
      have hne : ¬rule.conditions.isEmpty := by
        intro hcontra
        exact h2 (List.isEmpty_iff.mp hcontra)
      rw [cursorFMLines, if_pos ⟨h1, hne⟩]
      simp [List.mem_append, List.mem_cons]
  · intro rule hsafe
    rw [cursor_frontmatter_lines rule hsafe]
    rw [cursorLineSafe, Bool.and_eq_true, Bool.and_eq_true] at hsafe
    obtain ⟨⟨hname, hdesc⟩, hconds⟩ := hsafe
    have hp1 : strStartsWith (rchars "---") (rchars "  - \"") = false := rfl
    have hpD : ∀ x : RStr,
        strStartsWith (rchars "description: \"" ++ x) (rchars "  - \"") = false :=
      fun _ => rfl
    have hpN : ∀ x : RStr,
        strStartsWith (rchars "notes: \"Rule: " ++ x) (rchars "  - \"") = false :=
      fun _ => rfl
    have hpG : strStartsWith (rchars "globs:") (rchars "  - \"") = false := rfl
    have hpA : ∀ x : RStr,
        strStartsWith (rchars "alwaysApply: " ++ x) (rchars "  - \"") = false :=
      fun _ => rfl
    have hpE : strStartsWith ([] : RStr) (rchars "  - \"") = false := rfl
    have hDchunk : (match rule.metadata.description with
        | some desc =>
          (if '\n' ∈ desc then
            rchars "description: |" :: (rustLines desc).map (fun line => rchars "  " ++ line)
          else [rchars "description: \"" ++ desc ++ ['"']])
          ++ [rchars "notes: \"Rule: " ++ rule.metadata.name ++ ['"']]
        | none => [rchars "description: \"" ++ rule.metadata.name ++ ['"']]).filter
          (fun l => strStartsWith l (rchars "  - \"")) = [] := by
      cases hde : rule.metadata.description with
      | none =>
        simp only [List.filter_cons, List.filter_nil, List.append_assoc, hpD]
        rfl
      | some d =>
        rw [hde] at hdesc
        simp only [decide_eq_true_eq] at hdesc
        dsimp only
        rw [if_neg hdesc]
        simp only [List.cons_append, List.nil_append, List.filter_cons, List.filter_nil,
          List.append_assoc, hpD, hpN]
        rfl
    rw [cursorFMLines, List.append_assoc, List.append_assoc]
    simp only [List.filter_append, List.filter_cons, List.filter_nil, hp1, hpG, hpE]
    rw [hDchunk]
    by_cases hg : Cursor.resolved_apply_mode rule = rchars "specific_files"
        ∧ ¬rule.conditions.isEmpty
    · rw [if_pos hg, if_pos hg]
      have hflt : (rule.conditions.flatMap cursorGlobLine).filter
          (fun l => strStartsWith l (rchars "  - \"")) =
          rule.conditions.flatMap cursorGlobLine := by
        apply List.filter_eq_self.mpr
        intro a hamem
        rw [List.mem_flatMap] at hamem
        obtain ⟨c, hc, hac⟩ := hamem
        cases c with
        | regex v => simp [cursorGlobLine] at hac
        | filePattern v =>
          simp only [cursorGlobLine, List.mem_cons, List.not_mem_nil, or_false] at hac
          subst hac
          rw [List.append_assoc]
          exact strStartsWith_append_self _ _
      simp only [List.filter_cons, hpG, List.filter_append]
      rw [hflt]
      cases Cursor.alwaysApplyFlag rule <;> simp [hpA]
    · rw [if_neg hg, if_neg hg]
      cases Cursor.alwaysApplyFlag rule <;> simp [hpA]

/-- C6 counterexample: a rule whose only condition is a Regex. The code
resolves the apply mode to `"specific_files"` and emits a `globs:` key,
while the claim's FilePattern-only reading predicts `"intelligent"` and
no `globs:` key. -/
theorem claim_c6_counterexample :
    Cursor.resolved_apply_mode c6regexRule = rchars "specific_files"
    ∧ spec_apply_mode_claimed c6regexRule = rchars "intelligent"
    ∧ rchars "globs:" ∈ rustLines (Cursor.convert_to_tool_format c6regexRule) := by
  refine ⟨rfl, rfl, ?_⟩
  decide

theorem claim_c6_witness :
    cursorLineSafe c6globRule = true
    ∧ (rchars "globs:" ∈ rustLines (Cursor.frontmatter c6globRule) ↔
        Cursor.resolved_apply_mode c6globRule = rchars "specific_files"
          ∧ c6globRule.conditions ≠ [])
    ∧ cursorLineSafe c6intelRule = true
    ∧ ((rustLines (Cursor.frontmatter c6intelRule)).filter
          (fun l => strStartsWith l (rchars "  - \"")) =
        (if Cursor.resolved_apply_mode c6intelRule = rchars "specific_files"
            ∧ ¬c6intelRule.conditions.isEmpty then
          c6intelRule.conditions.flatMap cursorGlobLine
        else [])) :=
  ⟨by decide, claim_c6_cursor_apply_mode.2.2.1 c6globRule (by decide), by decide,
    claim_c6_cursor_apply_mode.2.2.2 c6intelRule (by decide)⟩



/-- C7: cursor import fails exactly when the text opens a frontmatter
block (`---` at the start) that no later line closes (no line whose trim
is exactly `---`), or when the enclosed YAML block is malformed (the
frontmatter-fragment parser rejects it); and on any text that does not
begin with the delimiter, import always succeeds, with the name taken
from the first parsed section's title and falling back to the fixed
placeholder `"Imported Rule"` when there is none. -/
theorem claim_c7_cursor_import_errors :
    (∀ content : RStr,
      Cursor.convert_from_tool_format content = none ↔
        strStartsWith content (rchars "---") = true
        ∧ ((∀ l ∈ (rustLines content).drop 1, rtrim l ≠ rchars "---")
           ∨ Cursor.parseFMLines
               (((rustLines content).drop 1).takeWhile (fun l => rtrim l ≠ rchars "---"))
               Cursor.emptyFM = none))
    ∧ (∀ content : RStr, strStartsWith content (rchars "---") = false →
      ∃ r, Cursor.convert_from_tool_format content = some r
        ∧ r.metadata.name =
            (((Cursor.parse_markdown_content content).1.head?.map (·.title)).getD
              (rchars "Imported Rule"))) := by
  constructor
  · intro content
    rw [Cursor.convert_from_tool_format, Option.map_eq_none']
    constructor
    · intro hnone
      simp only [Cursor.parse_cursor_format] at hnone
      by_cases h : strStartsWith content (rchars "---")
      · refine ⟨h, ?_⟩
        rw [if_pos h] at hnone
        cases hdw : ((rustLines content).drop 1).dropWhile
            (fun l => rtrim l ≠ rchars "---") with
        | nil =>
          left
          intro l hl
          have := List.dropWhile_eq_nil_iff.mp hdw l hl
          simpa using this
        | cons x xs =>
          right
          rw [hdw] at hnone
          dsimp only at hnone
          exact Option.map_eq_none'.mp hnone
      · exfalso
        rw [if_neg h] at hnone
        simp at hnone
    · rintro ⟨h, hcase⟩
      simp only [Cursor.parse_cursor_format]
      rw [if_pos h]
      rcases hcase with hall | hparse
      · have hdw : ((rustLines content).drop 1).dropWhile
            (fun l => rtrim l ≠ rchars "---") = [] := by
          apply List.dropWhile_eq_nil_iff.mpr
          intro l hl
          simpa using hall l hl
        rw [hdw]
      · cases hdw : ((rustLines content).drop 1).dropWhile
            (fun l => rtrim l ≠ rchars "---") with
        | nil => rfl
        | cons x xs =>
          dsimp only
          exact Option.map_eq_none'.mpr hparse
  · intro content h
    rw [Cursor.convert_from_tool_format]
    simp only [Cursor.parse_cursor_format, h, Bool.false_eq_true, if_false,
      Option.map_some']
    refine ⟨_, rfl, ?_⟩
    simp [Cursor.emptyFM, Option.orElse]

theorem claim_c7_witness :
    strStartsWith (rchars "free text, no markers") (rchars "---") = false
    ∧ ∃ r, Cursor.convert_from_tool_format (rchars "free text, no markers") = some r
        ∧ r.metadata.name =
            (((Cursor.parse_markdown_content (rchars "free text, no markers")).1.head?.map
              (·.title)).getD (rchars "Imported Rule")) :=
  ⟨by decide, claim_c7_cursor_import_errors.2 (rchars "free text, no markers") (by decide)⟩



theorem strStartsWith_nil : ∀ s : RStr, strStartsWith s [] = true
  | [] => rfl
  | _ :: _ => rfl

theorem strStartsWith_append_of_le : ∀ (q z p : RStr), p.length ≤ q.length →
    strStartsWith (q ++ z) p = strStartsWith q p
  | q, z, [], _ => by rw [strStartsWith_nil, strStartsWith_nil]
  | [], z, c :: ps, h => by simp at h
  | d :: qs, z, c :: ps, h => by
    rw [List.cons_append]
    show (decide (d = c) && strStartsWith (qs ++ z) ps) = (decide (d = c) && strStartsWith qs ps)
    rw [strStartsWith_append_of_le qs z ps (by simpa using h)]

theorem strStartsWith_decomp : ∀ (s p : RStr), strStartsWith s p = true →
    s = p ++ s.drop p.length
  | s, [], _ => rfl
  | [], c :: ps, h => by simp [strStartsWith] at h
  | d :: t, c :: ps, h => by
    rw [strStartsWith, Bool.and_eq_true, decide_eq_true_eq] at h
    obtain ⟨rfl, h2⟩ := h
    simpa using strStartsWith_decomp t ps h2

theorem strStartsWith_append_left : ∀ (s b p : RStr), strStartsWith s p = true →
    strStartsWith (s ++ b) p = true
  | s, b, [], _ => strStartsWith_nil _
  | [], b, c :: ps, h => by simp [strStartsWith] at h
  | d :: t, b, c :: ps, h => by
    rw [strStartsWith, Bool.and_eq_true] at h
    rw [List.cons_append]
    show (decide (d = c) && strStartsWith (t ++ b) ps) = true
    rw [strStartsWith_append_left t b ps h.2, h.1]
    rfl

theorem strEndsWith_append_left (x ρ p : RStr) (h : strEndsWith ρ p = true) :
    strEndsWith (x ++ ρ) p = true := by
  rw [strEndsWith] at h ⊢
  rw [List.reverse_append]
  exact strStartsWith_append_left _ _ _ h

theorem takeWhile_append_all {p : Char → Bool} :
    ∀ (a b : RStr), (∀ x ∈ a, p x = true) →
    (a ++ b).takeWhile p = a ++ b.takeWhile p
  | [], b, _ => rfl
  | c :: a, b, h => by
    rw [List.cons_append, List.takeWhile_cons, h c (List.mem_cons_self _ _),
      takeWhile_append_all a b (fun x hx => h x (List.mem_cons_of_mem _ hx))]
    rfl

theorem takeWhile_append_stop {p : Char → Bool} :
    ∀ (a b : RStr), (∃ x ∈ a, p x = false) →
    (a ++ b).takeWhile p = a.takeWhile p
  | [], b, h => by simp at h
  | c :: a, b, h => by
    rw [List.cons_append, List.takeWhile_cons, List.takeWhile_cons]
    cases hpc : p c with
    | false => rfl
    | true =>
      obtain ⟨x, hx, hpx⟩ := h
      rcases List.mem_cons.mp hx with rfl | hx
      · rw [hpc] at hpx; cases hpx
      · rw [takeWhile_append_stop a b ⟨x, hx, hpx⟩]

theorem takeWhile_length_lt {p : Char → Bool} :
    ∀ (a : RStr), (∃ x ∈ a, p x = false) →
    (a.takeWhile p).length < a.length
  | [], h => by simp at h
  | c :: a, h => by
    rw [List.takeWhile_cons]
    cases hpc : p c with
    | false => simp
    | true =>
      obtain ⟨x, hx, hpx⟩ := h
      rcases List.mem_cons.mp hx with rfl | hx
      · rw [hpc] at hpx; cases hpx
      · simpa using takeWhile_length_lt a ⟨x, hx, hpx⟩

theorem dropWhile_cons_head {p : Char → Bool} :
    ∀ (l : RStr) (x : Char) (xs : RStr), l.dropWhile p = x :: xs → p x = false
  | [], x, xs, h => by simp at h
  | c :: l, x, xs, h => by
    rw [List.dropWhile_cons] at h
    cases hpc : p c with
    | false =>
      rw [hpc, if_neg (by simp)] at h
      injection h with h1 _
      rw [← h1]; exact hpc
    | true =>
      rw [hpc, if_pos rfl] at h
      exact dropWhile_cons_head l x xs h


theorem markerOpen_length : (markerOpen : RStr).length = 18 := rfl

/-- Constructing a marker match: at a position of the form
`markerOpen ++ ρ ++ '>' :: rest` with `ρ` free of `'>'`, of length at
least 4 and ending in `" --"`, the regex matches, consuming through the
`'>'` and capturing `ρ` minus its `" --"` tail. -/
theorem matchMarker_mk (ρ rest : RStr) (h1 : '>' ∉ ρ) (h2 : 4 ≤ ρ.length)
    (h3 : strEndsWith ρ (rchars " --") = true) :
    matchMarkerAt (markerOpen ++ (ρ ++ '>' :: rest))
      = some (18 + ρ.length + 1, ρ.take (ρ.length - 3)) := by
  have hsw : strStartsWith (markerOpen ++ (ρ ++ '>' :: rest)) markerOpen = true :=
    strStartsWith_append_self _ _
  have hdrop : (markerOpen ++ (ρ ++ '>' :: rest)).drop 18 = ρ ++ '>' :: rest :=
    List.drop_left' markerOpen_length
  have htw : (ρ ++ '>' :: rest).takeWhile (fun c => c ≠ '>') = ρ := by
    rw [takeWhile_append_all ρ _ (fun x hx => by
      simp only [decide_eq_true_eq]
      intro he; exact h1 (he ▸ hx))]
    simp [List.takeWhile_cons]
  have hcond : ρ.length < (ρ ++ '>' :: rest).length ∧ 4 ≤ ρ.length
      ∧ strEndsWith ρ (rchars " --") = true :=
    ⟨by rw [List.length_append, List.length_cons]; omega, h2, h3⟩
  simp only [matchMarkerAt]
  rw [if_pos hsw, hdrop, htw, if_pos hcond]

/-- Destructing a marker match: a successful match decomposes the text as
`markerOpen ++ ρ ++ '>' :: rest` with `ρ` a good capture run. -/
theorem matchMarker_some_decomp (s : RStr) (n : Nat) (cap : RStr)
    (h : matchMarkerAt s = some (n, cap)) :
    ∃ ρ rest, s = markerOpen ++ (ρ ++ '>' :: rest) ∧ '>' ∉ ρ ∧ 4 ≤ ρ.length
      ∧ strEndsWith ρ (rchars " --") = true ∧ n = 18 + ρ.length + 1 := by
  simp only [matchMarkerAt] at h
  by_cases hs : strStartsWith s markerOpen = true
  · rw [if_pos hs] at h
    set v := s.drop 18 with hv
    set r := v.takeWhile (fun c => c ≠ '>') with hr
    by_cases hc : r.length < v.length ∧ 4 ≤ r.length ∧ strEndsWith r (rchars " --") = true
    · rw [if_pos hc] at h
      have hpair := Option.some.inj h
      have hn : 18 + r.length + 1 = n := congrArg Prod.fst hpair
      cases hvd : v.dropWhile (fun c => c ≠ '>') with
      | nil =>
        exfalso
        have hh2 := List.takeWhile_append_dropWhile (fun c => decide (c ≠ '>')) v
        rw [hvd, List.append_nil, ← hr] at hh2
        have : r.length = v.length := by rw [hh2]
        omega
      | cons x xs =>
        have hx : (fun c => decide (c ≠ '>')) x = false := dropWhile_cons_head v x xs hvd
        have hx' : x = '>' := by simpa using hx
        have hsd : s = markerOpen ++ v := by
          have hd := strStartsWith_decomp s markerOpen hs
          rw [markerOpen_length] at hd
          exact hd
        have hvsplit : v = r ++ '>' :: xs := by
          have hh2 := List.takeWhile_append_dropWhile (fun c => decide (c ≠ '>')) v
          rw [hvd, ← hr, hx'] at hh2
          exact hh2.symm
        refine ⟨r, xs, ?_, ?_, hc.2.1, hc.2.2, by omega⟩
        · rw [hsd, hvsplit]
        · intro hmem
          have hmt := List.mem_takeWhile_imp (hr ▸ hmem)
          simp at hmt
    · rw [if_neg hc] at h; cases h
  · rw [if_neg hs] at h; cases h

/-- Replacing one good marker site by another cannot create a match at an
enclosing position where none existed: the match decision at the start of
`P ++ markerOpen ++ ρ ++ '>' :: r` does not depend on which good run `ρ`
and tail `r` follow the opener. -/
theorem matchMarker_none_transfer (P ρ₁ r₁ ρ₂ r₂ : RStr)
    (hg1 : '>' ∉ ρ₁) (hg2 : 4 ≤ ρ₁.length)
    (hg3 : strEndsWith ρ₁ (rchars " --") = true)
    (hu : matchMarkerAt (P ++ (markerOpen ++ (ρ₁ ++ '>' :: r₁))) = none) :
    matchMarkerAt (P ++ (markerOpen ++ (ρ₂ ++ '>' :: r₂))) = none := by
  have hq : ∀ z : RStr, P ++ (markerOpen ++ z) = (P ++ markerOpen) ++ z :=
    fun z => (List.append_assoc _ _ _).symm
  rw [hq] at hu
  rw [hq]
  set q := P ++ markerOpen with hqdef
  have hlen : 18 ≤ q.length := by
    rw [hqdef, List.length_append, markerOpen_length]; omega
  have hlen' : (markerOpen : RStr).length ≤ q.length := by
    rw [markerOpen_length]; exact hlen
  simp only [matchMarkerAt] at hu ⊢
  have hsw : ∀ z : RStr, strStartsWith (q ++ z) markerOpen = strStartsWith q markerOpen :=
    fun z => strStartsWith_append_of_le q z markerOpen hlen'
  cases hqs : strStartsWith q markerOpen with
  | false =>
    rw [hsw, hqs]
    simp
  | true =>
    rw [hsw, hqs, if_pos rfl] at hu ⊢
    have hdrop : ∀ z : RStr, (q ++ z).drop 18 = q.drop 18 ++ z :=
      fun z => List.drop_append_of_le_length hlen
    rw [hdrop] at hu ⊢
    set D := q.drop 18 with hD
    by_cases hDg : '>' ∈ D
    · have hst : ∀ z : RStr, (D ++ z).takeWhile (fun c => c ≠ '>')
          = D.takeWhile (fun c => c ≠ '>') :=
        fun z => takeWhile_append_stop D z ⟨'>', hDg, by simp⟩
      rw [hst] at hu ⊢
      have hlt : (D.takeWhile (fun c => c ≠ '>')).length < D.length :=
        takeWhile_length_lt D ⟨'>', hDg, by simp⟩
      by_cases hcnd : 4 ≤ (D.takeWhile (fun c => c ≠ '>')).length
          ∧ strEndsWith (D.takeWhile (fun c => c ≠ '>')) (rchars " --") = true
      · exfalso
        rw [if_pos ⟨Nat.lt_of_lt_of_le hlt (by rw [List.length_append]; omega),
          hcnd.1, hcnd.2⟩] at hu
        cases hu
      · rw [if_neg (fun h => hcnd ⟨h.2.1, h.2.2⟩)]
    · exfalso
      have hall : ∀ x ∈ D, (fun c => decide (c ≠ '>')) x = true := by
        intro x hx
        simp only [decide_eq_true_eq]
        intro he; exact hDg (he ▸ hx)
      have hall1 : ∀ x ∈ ρ₁, (fun c => decide (c ≠ '>')) x = true := by
        intro x hx
        simp only [decide_eq_true_eq]
        intro he; exact hg1 (he ▸ hx)
      have htw1 : (D ++ (ρ₁ ++ '>' :: r₁)).takeWhile (fun c => c ≠ '>') = D ++ ρ₁ := by
        rw [takeWhile_append_all D _ hall, takeWhile_append_all ρ₁ _ hall1]
        simp [List.takeWhile_cons]
      rw [htw1] at hu
      rw [if_pos ⟨by simp [List.length_append],
        by rw [List.length_append]; omega,
        strEndsWith_append_left D ρ₁ _ hg3⟩] at hu
      cases hu

theorem strEndsWith_append_right (x p : RStr) : strEndsWith (x ++ p) p = true := by
  rw [strEndsWith, List.reverse_append]
  exact strStartsWith_append_self _ _

theorem markerComment_append (id X : RStr) :
    markerComment id ++ X = markerOpen ++ ((id ++ rchars " --") ++ '>' :: X) := by
  simp [markerComment, List.append_assoc]
  rfl

theorem markerComment_length (id : RStr) :
    (markerComment id).length = 18 + id.length + 4 := by
  simp [markerComment, List.length_append, markerOpen_length]
  have h4 : (rchars " -->").length = 4 := rfl
  omega

theorem reReplaceMarker_match (s repl : RStr) (n : Nat) (cap : RStr) (hs : s ≠ [])
    (h : matchMarkerAt s = some (n, cap)) :
    reReplaceMarker s repl = repl ++ s.drop n := by
  cases s with
  | nil => cases hs rfl
  | cons c' t => simp only [reReplaceMarker, h]

theorem reReplaceMarker_cons_none (c' : Char) (t repl : RStr)
    (h : matchMarkerAt (c' :: t) = none) :
    reReplaceMarker (c' :: t) repl = c' :: reReplaceMarker t repl := by
  simp only [reReplaceMarker, h]

theorem matchMarker_comment (id : RStr) (hid : id ≠ []) (hgt : '>' ∉ id) (X : RStr) :
    matchMarkerAt (markerComment id ++ X) = some (18 + id.length + 4, id) := by
  rw [markerComment_append]
  have h1 : '>' ∉ id ++ rchars " --" := by
    intro hmem
    rcases List.mem_append.mp hmem with h | h
    · exact hgt h
    · exact absurd h (by decide)
  have h2 : 4 ≤ (id ++ rchars " --").length := by
    rw [List.length_append]
    have hp : 1 ≤ id.length := List.length_pos.mpr hid
    have hl : (rchars " --").length = 3 := rfl
    omega
  have h3 := strEndsWith_append_right id (rchars " --")
  rw [matchMarker_mk (id ++ rchars " --") X h1 h2 h3]
  have hlen : (id ++ rchars " --").length = id.length + 3 := by
    rw [List.length_append]; rfl
  have htake : (id ++ rchars " --").take ((id ++ rchars " --").length - 3) = id := by
    rw [hlen]
    have h4 : id.length + 3 - 3 = id.length := by omega
    rw [h4]
    exact List.take_left' rfl
  rw [htake, hlen]
  have h5 : 18 + (id.length + 3) + 1 = 18 + id.length + 4 := by omega
  rw [h5]

theorem markerComment_ne_nil (id : RStr) : markerComment id ≠ [] := by
  intro h
  have := congrArg List.length h
  rw [markerComment_length] at this
  simp at this

theorem reReplaceMarker_comment_headed (id : RStr) (hid : id ≠ []) (hgt : '>' ∉ id)
    (X : RStr) :
    reReplaceMarker (markerComment id ++ X) (markerComment id) = markerComment id ++ X := by
  have hm := matchMarker_comment id hid hgt X
  rw [reReplaceMarker_match _ _ _ _ (by
    intro h
    exact markerComment_ne_nil id (List.append_eq_nil.mp h).1) hm]
  congr 1
  have hlen : (markerComment id).length = 18 + id.length + 4 := markerComment_length id
  exact List.drop_left' hlen

theorem reReplaceMarker_shape (id : RStr) (hid : id ≠ []) (hgt : '>' ∉ id) :
    ∀ t : RStr, reReplaceMarker t (markerComment id) = t
      ∨ ∃ p ρ rest, t = p ++ (markerOpen ++ (ρ ++ '>' :: rest))
          ∧ '>' ∉ ρ ∧ 4 ≤ ρ.length ∧ strEndsWith ρ (rchars " --") = true
          ∧ reReplaceMarker t (markerComment id)
              = p ++ (markerOpen ++ ((id ++ rchars " --") ++ '>' :: rest))
  | [] => Or.inl rfl
  | c' :: t' => by
    cases hm : matchMarkerAt (c' :: t') with
    | some val =>
      obtain ⟨n, cap⟩ := val
      obtain ⟨ρ, rest, hdec, hρ1, hρ2, hρ3, hn⟩ := matchMarker_some_decomp _ _ _ hm
      right
      refine ⟨[], ρ, rest, by simpa using hdec, hρ1, hρ2, hρ3, ?_⟩
      rw [reReplaceMarker_match _ _ n cap (by simp) hm]
      have hdrop : (c' :: t').drop n = rest := by
        rw [hdec, hn]
        have hsplit : markerOpen ++ (ρ ++ '>' :: rest) = (markerOpen ++ ρ ++ ['>']) ++ rest := by
          simp [List.append_assoc]
        rw [hsplit]
        exact List.drop_left' (by simp [List.length_append, markerOpen_length]; omega)
      rw [hdrop, markerComment_append]
      simp
    | none =>
      rcases reReplaceMarker_shape id hid hgt t' with h | ⟨p, ρ, rest, hdec, h1, h2, h3, hres⟩
      · left
        rw [reReplaceMarker_cons_none _ _ _ hm, h]
      · right
        refine ⟨c' :: p, ρ, rest, by rw [List.cons_append, ← hdec], h1, h2, h3, ?_⟩
        rw [reReplaceMarker_cons_none _ _ _ hm, hres, List.cons_append]

theorem reReplaceMarker_idem (id : RStr) (hid : id ≠ []) (hgt : '>' ∉ id) :
    ∀ t : RStr, reReplaceMarker (reReplaceMarker t (markerComment id)) (markerComment id)
      = reReplaceMarker t (markerComment id)
  | [] => rfl
  | c' :: t' => by
    cases hm : matchMarkerAt (c' :: t') with
    | some val =>
      obtain ⟨n, cap⟩ := val
      rw [reReplaceMarker_match _ _ n cap (by simp) hm]
      exact reReplaceMarker_comment_headed id hid hgt _
    | none =>
      rw [reReplaceMarker_cons_none _ _ _ hm]
      have hnone : matchMarkerAt (c' :: reReplaceMarker t' (markerComment id)) = none := by
        rcases reReplaceMarker_shape id hid hgt t' with h | ⟨p, ρ, rest, hdec, h1, h2, h3, hres⟩
        · rw [h]; exact hm
        · rw [hres]
          have hu : matchMarkerAt ((c' :: p) ++ (markerOpen ++ (ρ ++ '>' :: rest))) = none := by
            rw [List.cons_append, ← hdec]
            exact hm
          have hw := matchMarker_none_transfer (c' :: p) ρ rest (id ++ rchars " --") rest
            h1 h2 h3 hu
          rw [List.cons_append] at hw
          exact hw
      rw [reReplaceMarker_cons_none _ _ _ hnone, reReplaceMarker_idem id hid hgt t']

theorem strContains_of_startsWith (s p : RStr) (h : strStartsWith s p = true) :
    strContains s p = true := by
  rw [strContains.eq_def, if_pos h]

theorem strContains_append_right : ∀ (a b p : RStr), strContains b p = true →
    strContains (a ++ b) p = true
  | [], b, p, h => h
  | c :: a', b, p, h => by
    rw [List.cons_append, strContains.eq_def]
    by_cases hsw : strStartsWith (c :: (a' ++ b)) p = true
    · rw [if_pos hsw]
    · rw [if_neg hsw]
      exact strContains_append_right a' b p h

theorem comment_startsWith_key (id X : RStr) :
    strStartsWith (markerComment id ++ X) markerKey = true := by
  have hform : markerComment id ++ X
      = markerKey ++ (' ' :: (id ++ (rchars " -->" ++ X))) := by
    simp [markerComment, markerOpen, markerKey, List.append_assoc]
    rfl
  rw [hform]
  exact strStartsWith_append_self _ _

theorem embed_fresh (t id : RStr) (h : strContains t markerKey = false) :
    embed_rule_id_in_content t id = markerComment id ++ '\n' :: t := by
  simp only [embed_rule_id_in_content, h]
  simp

theorem embed_idem (t id : RStr) (hid : id ≠ []) (hgt : '>' ∉ id) :
    embed_rule_id_in_content (embed_rule_id_in_content t id) id
      = embed_rule_id_in_content t id := by
  simp only [embed_rule_id_in_content]
  by_cases hc : strContains t markerKey = true
  · rw [if_pos hc]
    have hw : strContains (reReplaceMarker t (markerComment id)) markerKey = true := by
      rcases reReplaceMarker_shape id hid hgt t with h | ⟨p, ρ, rest, hdec, h1, h2, h3, hres⟩
      · rw [h]; exact hc
      · rw [hres]
        apply strContains_append_right
        apply strContains_of_startsWith
        have hform : markerOpen ++ ((id ++ rchars " --") ++ '>' :: rest)
            = markerKey ++ (' ' :: ((id ++ rchars " --") ++ '>' :: rest)) := by
          simp [markerOpen, markerKey, List.append_assoc]
          rfl
        rw [hform]
        exact strStartsWith_append_self _ _
    rw [if_pos hw]
    exact reReplaceMarker_idem id hid hgt t
  · rw [if_neg hc]
    have hw : strContains (markerComment id ++ '\n' :: t) markerKey = true :=
      strContains_of_startsWith _ _ (comment_startsWith_key id _)
    rw [if_pos hw]
    exact reReplaceMarker_comment_headed id hid hgt _

/-- The number of positions at which the marker key
`"<!-- rulesify-id:"` occurs in a text. -/
def markerKeyCount : RStr → Nat
  | [] => 0
  | c :: t => (if strStartsWith (c :: t) markerKey = true then 1 else 0) + markerKeyCount t

theorem markerKeyCount_append_no_lt : ∀ (a t : RStr), (∀ x ∈ a, x ≠ '<') →
    markerKeyCount (a ++ t) = markerKeyCount t
  | [], t, _ => rfl
  | c :: a', t, h => by
    rw [List.cons_append, markerKeyCount]
    have hsw : strStartsWith (c :: (a' ++ t)) markerKey = false := by
      show (decide (c = '<') && strStartsWith (a' ++ t) (rchars "!-- rulesify-id:")) = false
      rw [decide_eq_false (h c (List.mem_cons_self _ _))]
      rfl
    rw [hsw]
    simp only [Bool.false_eq_true, if_false, Nat.zero_add]
    exact markerKeyCount_append_no_lt a' t (fun x hx => h x (List.mem_cons_of_mem _ hx))

theorem markerKeyCount_eq_zero : ∀ t : RStr, strContains t markerKey = false →
    markerKeyCount t = 0
  | [], _ => rfl
  | c :: t, h => by
    rw [strContains.eq_def] at h
    by_cases hsw : strStartsWith (c :: t) markerKey = true
    · rw [if_pos hsw] at h; cases h
    · rw [if_neg hsw] at h
      rw [markerKeyCount, if_neg hsw, markerKeyCount_eq_zero t h]

theorem markerKeyCount_embed (t id : RStr) (h : strContains t markerKey = false)
    (hlt : '<' ∉ id) : markerKeyCount (embed_rule_id_in_content t id) = 1 := by
  rw [embed_fresh t id h]
  have hform : markerComment id ++ '\n' :: t
      = '<' :: ((rchars "!-- rulesify-id: " ++ (id ++ rchars " -->\n")) ++ t) := by
    simp [markerComment, markerOpen, List.append_assoc]
    rfl
  rw [hform, markerKeyCount]
  have hsw : strStartsWith ('<' :: ((rchars "!-- rulesify-id: " ++ (id ++ rchars " -->\n")) ++ t))
      markerKey = true := by
    rw [← hform]
    exact comment_startsWith_key id _
  rw [if_pos hsw]
  rw [markerKeyCount_append_no_lt _ t ?hfree, markerKeyCount_eq_zero t h]
  case hfree =>
    intro x hx
    rcases List.mem_append.mp hx with hx | hx
    · exact fun he => absurd (he ▸ hx) (by decide)
    · rcases List.mem_append.mp hx with hx | hx
      · exact fun he => hlt (he ▸ hx)
      · exact fun he => absurd (he ▸ hx) (by decide)

theorem reFindMarker_match (s : RStr) (n : Nat) (cap : RStr) (hs : s ≠ [])
    (h : matchMarkerAt s = some (n, cap)) : reFindMarker s = some cap := by
  cases s with
  | nil => cases hs rfl
  | cons c' t => simp only [reFindMarker, h]

theorem extract_embed (t id : RStr) (hid : id ≠ []) (hgt : '>' ∉ id)
    (htr : rtrim id ≠ []) (h : strContains t markerKey = false) :
    extract_embedded_rule_id (embed_rule_id_in_content t id) = some (rtrim id) := by
  rw [embed_fresh t id h]
  have hm : matchMarkerAt (markerComment id ++ '\n' :: t) = some (18 + id.length + 4, id) :=
    matchMarker_comment id hid hgt _
  rw [extract_embedded_rule_id, reFindMarker_match _ _ _ (by
    intro he
    exact markerComment_ne_nil id (List.append_eq_nil.mp he).1) hm]
  simp [Option.filter, htr]

/-- Rules free of the character `'<'` in every field the Cline exporter
prints, so that the exported text cannot contain a marker key. -/
def clineLtFree (rule : UniversalRule) : Bool :=
  decide ('<' ∉ rule.metadata.name)
    && (match rule.metadata.description with
        | some d => decide ('<' ∉ d)
        | none => true)
    && rule.content.all (fun s => decide ('<' ∉ s.title) && decide ('<' ∉ s.value))

theorem strContains_key_false_of_no_lt : ∀ s : RStr, (∀ x ∈ s, x ≠ '<') →
    strContains s markerKey = false
  | [], _ => rfl
  | c :: t, h => by
    rw [strContains.eq_def]
    have hsw : strStartsWith (c :: t) markerKey = false := by
      show (decide (c = '<') && strStartsWith t (rchars "!-- rulesify-id:")) = false
      rw [decide_eq_false (h c (List.mem_cons_self _ _))]
      rfl
    rw [if_neg (by rw [hsw]; simp)]
    exact strContains_key_false_of_no_lt t (fun x hx => h x (List.mem_cons_of_mem _ hx))

theorem cline_no_lt (rule : UniversalRule) (h : clineLtFree rule = true) :
    ∀ x ∈ Cline.convert_to_tool_format rule, x ≠ '<' := by
  rw [clineLtFree, Bool.and_eq_true, Bool.and_eq_true] at h
  obtain ⟨⟨hname, hdesc⟩, hcont⟩ := h
  rw [decide_eq_true_eq] at hname
  intro x hx
  rw [Cline.convert_to_tool_format] at hx
  rcases List.mem_append.mp hx with hx | hx
  · rcases List.mem_append.mp hx with hx | hx
    · rcases List.mem_append.mp hx with hx | hx
      · rcases List.mem_append.mp hx with hx | hx
        · exact fun he => absurd (he ▸ hx) (by decide)
        · exact fun he => hname (he ▸ hx)
      · exact fun he => absurd (he ▸ hx) (by decide)
    · cases hde : rule.metadata.description with
      | none => rw [hde] at hx; simp at hx
      | some d =>
        rw [hde] at hx hdesc
        rw [decide_eq_true_eq] at hdesc
        rcases List.mem_append.mp hx with hx | hx
        · exact fun he => hdesc (he ▸ hx)
        · exact fun he => absurd (he ▸ hx) (by decide)
  · rw [List.mem_flatMap] at hx
    obtain ⟨s, hs, hxs⟩ := hx
    have hsf := List.all_eq_true.mp hcont _ hs
    rw [Bool.and_eq_true, decide_eq_true_eq, decide_eq_true_eq] at hsf
    rcases List.mem_append.mp hxs with hx | hx
    · rcases List.mem_append.mp hx with hx | hx
      · rcases List.mem_append.mp hx with hx | hx
        · rcases List.mem_append.mp hx with hx | hx
          · exact fun he => absurd (he ▸ hx) (by decide)
          · exact fun he => hsf.1 (he ▸ hx)
        · exact fun he => absurd (he ▸ hx) (by decide)
      · exact fun he => hsf.2 (he ▸ hx)
    · exact fun he => absurd (he ▸ hx) (by decide)

/-- A plain rule used to compare the two plain-Markdown exporters. -/
def c8plainRule : UniversalRule :=
  { id := rchars "my-rule"
    version := rchars "1.0.0"
    metadata := { name := rchars "My Rule", description := some (rchars "A demo."),
                  tags := [], priority := 5 }
    content := [{ title := rchars "Guidelines", format := .markdown,
                  value := rchars "Keep it simple." }]
    references := []
    conditions := []
    tool_overrides := [] }

/-- C8 (amended): embedding into marker-free text places the id marker
comment as the first line; the Claude-style export is exactly that
embedding applied to the shared plain-Markdown body, which is the Cline
export verbatim; embedding is idempotent for non-empty ids free of `'>'`;
the embedded result carries exactly one marker key; and the Cline export
itself never contains a marker key (for rules whose printed fields are
free of `'<'`), so only the Claude-style converter embeds the id. -/
theorem claim_c8_marker_discipline :
    (∀ t id : RStr, strContains t markerKey = false →
      embed_rule_id_in_content t id = markerComment id ++ '\n' :: t)
    ∧ (∀ rule : UniversalRule,
      ClaudeCode.convert_to_tool_format rule
        = embed_rule_id_in_content (Cline.convert_to_tool_format rule) rule.id)
    ∧ (∀ t id : RStr, id ≠ [] → '>' ∉ id →
      embed_rule_id_in_content (embed_rule_id_in_content t id) id
        = embed_rule_id_in_content t id)
    ∧ (∀ t id : RStr, strContains t markerKey = false → '<' ∉ id →
      markerKeyCount (embed_rule_id_in_content t id) = 1)
    ∧ (∀ t id : RStr, id ≠ [] → '>' ∉ id → rtrim id ≠ [] →
      strContains t markerKey = false →
      extract_embedded_rule_id (embed_rule_id_in_content t id) = some (rtrim id))
    ∧ (∀ rule : UniversalRule, clineLtFree rule = true →
      strContains (Cline.convert_to_tool_format rule) markerKey = false) :=
  ⟨embed_fresh, fun _ => rfl, embed_idem, markerKeyCount_embed, extract_embed,
    fun rule h => strContains_key_false_of_no_lt _ (cline_no_lt rule h)⟩

/-- C8 counterexample: the Cline export of a plain rule carries no
id marker at all — no marker key occurs and extraction finds nothing —
while the Claude-style export of the same rule does carry it.  This
refutes the claim that BOTH plain-Markdown converters embed the id. -/
theorem claim_c8_counterexample :
    strContains (Cline.convert_to_tool_format c8plainRule) markerKey = false
    ∧ extract_embedded_rule_id (Cline.convert_to_tool_format c8plainRule) = none
    ∧ extract_embedded_rule_id (ClaudeCode.convert_to_tool_format c8plainRule)
        = some c8plainRule.id := by
  refine ⟨by decide, by decide, by decide⟩

theorem claim_c8_witness :
    (strContains (rchars "# My Rule\n\nBody.") markerKey = false
      ∧ embed_rule_id_in_content (rchars "# My Rule\n\nBody.") (rchars "my-rule")
          = markerComment (rchars "my-rule") ++ '\n' :: rchars "# My Rule\n\nBody.")
    ∧ (rchars "my-rule" ≠ [] ∧ '>' ∉ rchars "my-rule"
      ∧ embed_rule_id_in_content
          (embed_rule_id_in_content (rchars "# My Rule\n\nBody.") (rchars "my-rule"))
          (rchars "my-rule")
        = embed_rule_id_in_content (rchars "# My Rule\n\nBody.") (rchars "my-rule"))
    ∧ markerKeyCount (embed_rule_id_in_content (rchars "# My Rule\n\nBody.")
        (rchars "my-rule")) = 1
    ∧ extract_embedded_rule_id (embed_rule_id_in_content (rchars "# My Rule\n\nBody.")
        (rchars "my-rule")) = some (rtrim (rchars "my-rule"))
    ∧ clineLtFree c8plainRule = true
    ∧ strContains (Cline.convert_to_tool_format c8plainRule) markerKey = false :=
  ⟨⟨by decide, claim_c8_marker_discipline.1 _ _ (by decide)⟩,
    ⟨by decide, by decide,
      claim_c8_marker_discipline.2.2.1 _ _ (by decide) (by decide)⟩,
    claim_c8_marker_discipline.2.2.2.1 _ _ (by decide) (by decide),
    claim_c8_marker_discipline.2.2.2.2.1 _ _ (by decide) (by decide) (by decide) (by decide),
    by decide,
    claim_c8_marker_discipline.2.2.2.2.2 c8plainRule (by decide)⟩



/-- Is an edge character (as an `Option`) present and non-whitespace? -/
def nonWsEdge (o : Option Char) : Bool :=
  match o with
  | some c => !isRustWs c
  | none => false

/-- A line with non-whitespace first and last characters (hence non-empty
and stable under trimming). -/
def tight (s : RStr) : Bool := nonWsEdge s.head? && nonWsEdge s.getLast?

theorem tight_head (s : RStr) (h : tight s = true) :
    ∃ c s', s = c :: s' ∧ isRustWs c = false := by
  rw [tight, Bool.and_eq_true] at h
  obtain ⟨h1, _⟩ := h
  cases hh : s.head? with
  | none => rw [hh] at h1; simp [nonWsEdge] at h1
  | some c =>
    rw [hh] at h1
    rw [nonWsEdge, Bool.not_eq_true'] at h1
    cases s with
    | nil => simp at hh
    | cons x xs =>
      rw [List.head?_cons] at hh
      injection hh with hh
      subst hh
      exact ⟨_, xs, rfl, h1⟩

theorem tight_last (s : RStr) (h : tight s = true) :
    ∃ d, s.getLast? = some d ∧ isRustWs d = false := by
  rw [tight, Bool.and_eq_true] at h
  obtain ⟨_, h2⟩ := h
  cases hl : s.getLast? with
  | none => rw [hl] at h2; simp [nonWsEdge] at h2
  | some d =>
    rw [hl] at h2
    rw [nonWsEdge, Bool.not_eq_true'] at h2
    exact ⟨d, rfl, h2⟩

theorem tight_ne_nil (s : RStr) (h : tight s = true) : s ≠ [] := by
  obtain ⟨c, s', rfl, _⟩ := tight_head s h
  simp

theorem trimStart_cons_of (c : Char) (s : RStr) (h : isRustWs c = false) :
    trimStart (c :: s) = c :: s := by
  rw [trimStart, List.dropWhile_cons, h]
  rfl

theorem trimStart_cons_ws (c : Char) (s : RStr) (h : isRustWs c = true) :
    trimStart (c :: s) = trimStart s := by
  rw [trimStart, List.dropWhile_cons, h]
  rfl

theorem trimEnd_of_last (s : RStr) (d : Char) (h1 : s.getLast? = some d)
    (h2 : isRustWs d = false) : trimEnd s = s := by
  rw [trimEnd]
  rw [← List.head?_reverse] at h1
  cases hrev : s.reverse with
  | nil => rw [hrev] at h1; simp at h1
  | cons x xs =>
    rw [hrev] at h1
    injection h1 with h1
    subst h1
    rw [List.dropWhile_cons, h2]
    simp only [Bool.false_eq_true, if_false]
    rw [← hrev, List.reverse_reverse]

theorem trimEnd_append_ws (s : RStr) (c : Char) (h : isRustWs c = true) :
    trimEnd (s ++ [c]) = trimEnd s := by
  rw [trimEnd, trimEnd, List.reverse_append]
  simp only [List.reverse_singleton, List.singleton_append, List.dropWhile_cons, h]
  rfl

theorem tight_trimStart (s : RStr) (h : tight s = true) : trimStart s = s := by
  obtain ⟨c, s', rfl, hc⟩ := tight_head s h
  exact trimStart_cons_of c s' hc

theorem tight_trimEnd (s : RStr) (h : tight s = true) : trimEnd s = s := by
  obtain ⟨d, hd, hw⟩ := tight_last s h
  exact trimEnd_of_last s d hd hw

theorem tight_rtrim (s : RStr) (h : tight s = true) : rtrim s = s := by
  rw [rtrim, tight_trimStart s h, tight_trimEnd s h]

theorem rtrim_cons_ws (c : Char) (s : RStr) (h : isRustWs c = true) :
    rtrim (c :: s) = rtrim s := by
  rw [rtrim, rtrim, trimStart_cons_ws c s h]

theorem rtrim_append_ws (s : RStr) (c : Char) (h : isRustWs c = true) :
    rtrim (s ++ [c]) = rtrim s := by
  rw [rtrim, rtrim, trimStart, trimStart, List.dropWhile_append]
  cases hts : List.dropWhile isRustWs s with
  | nil =>
    simp only [List.isEmpty_nil, if_true]
    rw [List.dropWhile_cons, h]
    simp only [if_true]
    rfl
  | cons x xs =>
    simp only [List.isEmpty_cons, Bool.false_eq_true, if_false]
    exact trimEnd_append_ws _ c h

theorem head_last_rtrim (s : RStr) (c : Char) (s' : RStr) (d : Char)
    (hh : s = c :: s') (hc : isRustWs c = false)
    (hl : s.getLast? = some d) (hd : isRustWs d = false) : rtrim s = s := by
  rw [rtrim, hh, trimStart_cons_of c s' hc, ← hh, trimEnd_of_last s d hl hd]


theorem joinNl_cons_ne (x : RStr) (Z : List RStr) (h : Z ≠ []) :
    joinNl (x :: Z) = x ++ '\n' :: joinNl Z := by
  cases Z with
  | nil => cases h rfl
  | cons y ys => rfl

theorem joinNl_append_single : ∀ (Z : List RStr) (x : RStr), Z ≠ [] →
    joinNl (Z ++ [x]) = joinNl Z ++ '\n' :: x
  | [], x, h => by cases h rfl
  | [y], x, _ => by simp [joinNl]
  | y :: y2 :: ys, x, _ => by
    rw [List.cons_append, joinNl_cons_ne y _ (by simp), joinNl_cons_ne y (y2 :: ys) (by simp),
      joinNl_append_single (y2 :: ys) x (by simp)]
    simp

theorem joinNl_splitNl : ∀ v : RStr, joinNl (splitNl v) = v
  | [] => rfl
  | c :: s => by
    rw [splitNl]
    by_cases hc : c = '\n'
    · rw [if_pos hc, joinNl_cons_ne _ _ (splitNl_ne_nil s), joinNl_splitNl s, hc]
      rfl
    · rw [if_neg hc]
      cases hsp : splitNl s with
      | nil => exact absurd hsp (splitNl_ne_nil s)
      | cons l ls =>
        have hj : joinNl (l :: ls) = s := by rw [← hsp, joinNl_splitNl s]
        cases ls with
        | nil =>
          rw [joinNl]
          rw [joinNl] at hj
          rw [hj]
        | cons l2 ls2 =>
          rw [joinNl_cons_ne _ _ (by simp), List.cons_append]
          rw [joinNl_cons_ne _ _ (by simp)] at hj
          rw [hj]

theorem splitNl_joinNl : ∀ T : List RStr, T ≠ [] → (∀ l ∈ T, '\n' ∉ l) →
    splitNl (joinNl T) = T
  | [], h, _ => by cases h rfl
  | [x], _, hnl => by
    rw [joinNl, splitNl_of_no_nl x (hnl x (List.mem_cons_self _ _))]
  | x :: y :: ys, _, hnl => by
    rw [joinNl_cons_ne _ _ (by simp), splitNl_append_nl,
      splitNl_of_no_nl x (hnl x (List.mem_cons_self _ _)),
      splitNl_joinNl (y :: ys) (by simp) (fun l hl => hnl l (List.mem_cons_of_mem _ hl))]
    rfl

theorem rustLinesAux_no_cr : ∀ T : List RStr, (∀ l ∈ T, '\r' ∉ l) →
    T.getLast? ≠ some [] → rustLinesAux T = T
  | [], _, _ => rfl
  | [x], _, hl => by
    rw [rustLinesAux, if_neg]
    intro he
    exact hl (by rw [he]; rfl)
  | x :: y :: ys, hcr, hl => by
    rw [rustLinesAux, stripCr_of_no_cr x (hcr x (List.mem_cons_self _ _)),
      rustLinesAux_no_cr (y :: ys) (fun l h => hcr l (List.mem_cons_of_mem _ h)) (by
        rw [List.getLast?_cons_cons] at hl
        exact hl)]
    simp

theorem rustLines_joinNl (T : List RStr) (hT : T ≠ [])
    (hnl : ∀ l ∈ T, '\n' ∉ l) (hcr : ∀ l ∈ T, '\r' ∉ l)
    (hlast : T.getLast? ≠ some []) : rustLines (joinNl T) = T := by
  rw [rustLines, splitNl_joinNl T hT hnl, rustLinesAux_no_cr T hcr hlast]

theorem utf8CharLen_pos (c : Char) : 1 ≤ utf8CharLen c := by
  rw [utf8CharLen]
  split
  · omega
  · split
    · omega
    · split <;> omega

theorem utf8Len_pos (s : RStr) (h : s ≠ []) : 1 ≤ utf8Len s := by
  cases s with
  | nil => cases h rfl
  | cons c t =>
    rw [utf8Len, List.map_cons, List.sum_cons]
    have := utf8CharLen_pos c
    omega

theorem startsWith_key_false_of_no_lt (l : RStr) (h : '<' ∉ l) :
    strStartsWith l markerKey = false := by
  cases l with
  | nil => rfl
  | cons c t =>
    show (decide (c = '<') && strStartsWith t (rchars "!-- rulesify-id:")) = false
    rw [decide_eq_false (fun he => h (by rw [← he]; exact List.mem_cons_self _ _))]
    rfl

theorem startsWith_hash_false_of (l : RStr) (h : ¬strStartsWith l ['#'] = true) :
    strStartsWith l (rchars "# ") = false ∧ strStartsWith l (rchars "## ") = false := by
  cases l with
  | nil => exact ⟨rfl, rfl⟩
  | cons c t =>
    have hc : c ≠ '#' := by
      intro he
      apply h
      subst he
      show (decide ('#' = '#') && strStartsWith t []) = true
      rw [decide_eq_true rfl, strStartsWith_nil]
      rfl
    constructor
    · show (decide (c = '#') && strStartsWith t (rchars " ")) = false
      rw [decide_eq_false hc]
      rfl
    · show (decide (c = '#') && strStartsWith t (rchars "# ")) = false
      rw [decide_eq_false hc]
      rfl


theorem unlines_splitNl : ∀ v : RStr, unlines (splitNl v) = v ++ ['\n']
  | [] => rfl
  | c :: s => by
    rw [splitNl]
    by_cases hc : c = '\n'
    · rw [if_pos hc, unlines, List.flatMap_cons, ← unlines, unlines_splitNl s, hc]
      rfl
    · rw [if_neg hc]
      cases hsp : splitNl s with
      | nil => exact absurd hsp (splitNl_ne_nil s)
      | cons l ls =>
        have hu : unlines (l :: ls) = s ++ ['\n'] := by rw [← hsp, unlines_splitNl s]
        show unlines ((c :: l) :: ls) = (c :: s) ++ ['\n']
        rw [unlines, List.flatMap_cons, ← unlines] at hu ⊢
        simp only [List.cons_append, List.append_assoc] at hu ⊢
        rw [hu]

/-- The lines of one `## `-headed (or `# `-headed) Markdown section chunk. -/
def chunkLinesMd (hdr : String) (s : RuleContent) : List RStr :=
  [rchars hdr ++ s.title, []] ++ splitNl s.value ++ [[]]

/-- The cline export as a list of lines. -/
def clineLines (rule : UniversalRule) : List RStr :=
  [rchars "# " ++ rule.metadata.name, []]
  ++ (match rule.metadata.description with
      | some d => [d, []]
      | none => [])
  ++ rule.content.flatMap (chunkLinesMd "## ")

theorem unlines_chunkLinesMd (hdr : String) (s : RuleContent) :
    unlines (chunkLinesMd hdr s)
      = rchars hdr ++ s.title ++ rchars "\n\n" ++ s.value ++ rchars "\n\n" := by
  rw [chunkLinesMd, unlines_append, unlines_append, unlines_splitNl]
  simp only [unlines, List.flatMap_cons, List.flatMap_nil, List.append_nil, List.nil_append,
    List.cons_append, List.append_assoc]
  rfl

theorem cline_text_eq (rule : UniversalRule) :
    Cline.convert_to_tool_format rule = unlines (clineLines rule) := by
  rw [Cline.convert_to_tool_format, clineLines, unlines_append, unlines_append]
  have h1 : unlines [rchars "# " ++ rule.metadata.name, []]
      = rchars "# " ++ rule.metadata.name ++ rchars "\n\n" := by
    simp only [unlines, List.flatMap_cons, List.flatMap_nil, List.append_nil, List.nil_append,
      List.cons_append, List.append_assoc]
    rfl
  have h2 : unlines ((match rule.metadata.description with
        | some d => [d, []]
        | none => []) : List RStr)
      = (match rule.metadata.description with
        | some description => description ++ rchars "\n\n"
        | none => []) := by
    cases rule.metadata.description with
    | none => rfl
    | some d =>
      simp only [unlines, List.flatMap_cons, List.flatMap_nil, List.append_nil, List.nil_append,
        List.cons_append, List.append_assoc]
      rfl
  have h3 : unlines (rule.content.flatMap (chunkLinesMd "## "))
      = rule.content.flatMap (fun s =>
          rchars "## " ++ s.title ++ rchars "\n\n" ++ s.value ++ rchars "\n\n") := by
    rw [unlines, List.flatMap_assoc]
    exact List.flatMap_congr (fun s _ => by
      rw [← unlines, unlines_chunkLinesMd])
  rw [h1, h2, h3]


/-- Structural well-formedness for the round-trip theorem: tight
single-line name and description free of markup-significant characters, at
least one section, tight titles, tight multi-line values whose lines never
look like headers or setext underlines, a single-line id, tight reference
paths and quotable file patterns. -/
def wellFormedRule (rule : UniversalRule) : Bool :=
  (tight rule.metadata.name && decide ('\n' ∉ rule.metadata.name)
    && decide ('\r' ∉ rule.metadata.name) && decide ('<' ∉ rule.metadata.name)
    && decide ('"' ∉ rule.metadata.name)
    && !(isUnderlineOf '=' rule.metadata.name || isUnderlineOf '-' rule.metadata.name))
  && (match rule.metadata.description with
      | some d => tight d && decide ('\n' ∉ d) && decide ('\r' ∉ d) && decide ('<' ∉ d)
          && decide ('"' ∉ d) && !strStartsWith d ['#']
      | none => true)
  && decide (rule.content ≠ [])
  && rule.content.all (fun s =>
      (tight s.title && decide ('\n' ∉ s.title) && decide ('\r' ∉ s.title)
        && decide ('<' ∉ s.title))
      && (tight s.value && decide ('\r' ∉ s.value) && decide ('<' ∉ s.value))
      && (splitNl s.value).all (fun l =>
          tight l && decide ('\r' ∉ l) && decide ('<' ∉ l)
          && !strStartsWith l ['#']
          && !(isUnderlineOf '=' l || isUnderlineOf '-' l)))
  && (decide ('\n' ∉ rule.id) && decide ('\r' ∉ rule.id))
  && rule.references.all (fun r =>
      tight r.path && decide ('\n' ∉ r.path) && decide ('\r' ∉ r.path))
  && rule.conditions.all (fun c =>
      match c with
      | .filePattern v => decide ('\n' ∉ v) && decide ('\r' ∉ v) && decide ('"' ∉ v)
      | .regex v => true)

/-- The goose export body as a list of lines. -/
def gooseLines (rule : UniversalRule) : List RStr :=
  [rule.metadata.name, List.replicate (utf8Len rule.metadata.name) '=', []]
  ++ (match rule.metadata.description with
      | some d => [d, []]
      | none => [])
  ++ rule.content.flatMap (fun s =>
      [s.title, List.replicate (utf8Len s.title) '-'] ++ splitNl s.value ++ [[]])

theorem goose_output_eq (rule : UniversalRule) :
    (rule.metadata.name ++ ['\n']
      ++ List.replicate (utf8Len rule.metadata.name) '='
      ++ rchars "\n\n"
      ++ (match rule.metadata.description with
          | some description => description ++ rchars "\n\n"
          | none => [])
      ++ rule.content.flatMap (fun s =>
          s.title ++ ['\n'] ++ List.replicate (utf8Len s.title) '-' ++ ['\n']
          ++ s.value ++ rchars "\n\n"))
    = unlines (gooseLines rule) := by
  rw [gooseLines, unlines_append, unlines_append]
  have h1 : unlines [rule.metadata.name, List.replicate (utf8Len rule.metadata.name) '=', []]
      = rule.metadata.name ++ ['\n'] ++ List.replicate (utf8Len rule.metadata.name) '='
        ++ rchars "\n\n" := by
    simp only [unlines, List.flatMap_cons, List.flatMap_nil, List.append_nil, List.nil_append,
      List.cons_append, List.append_assoc]
    rfl
  have h2 : unlines ((match rule.metadata.description with
        | some d => [d, []]
        | none => []) : List RStr)
      = (match rule.metadata.description with
        | some description => description ++ rchars "\n\n"
        | none => []) := by
    cases rule.metadata.description with
    | none => rfl
    | some d =>
      simp only [unlines, List.flatMap_cons, List.flatMap_nil, List.append_nil, List.nil_append,
        List.cons_append, List.append_assoc]
      rfl
  have h3 : unlines (rule.content.flatMap (fun s =>
        [s.title, List.replicate (utf8Len s.title) '-'] ++ splitNl s.value ++ [[]]))
      = rule.content.flatMap (fun s =>
          s.title ++ ['\n'] ++ List.replicate (utf8Len s.title) '-' ++ ['\n']
          ++ s.value ++ rchars "\n\n") := by
    rw [unlines, List.flatMap_assoc]
    refine List.flatMap_congr (fun s _ => ?_)
    rw [← unlines]
    rw [unlines_append, unlines_append, unlines_splitNl]
    simp only [unlines, List.flatMap_cons, List.flatMap_nil, List.append_nil, List.nil_append,
      List.cons_append, List.append_assoc]
    rfl
  rw [h1, h2, h3]

/-- The cursor export body as a list of lines. -/
def cursorBodyLines (rule : UniversalRule) : List RStr :=
  rule.content.flatMap (chunkLinesMd "# ")
  ++ rule.references.map (fun r => '@' :: r.path)

theorem cursor_body_eq (rule : UniversalRule) :
    Cursor.body rule = unlines (cursorBodyLines rule) := by
  rw [Cursor.body, cursorBodyLines, unlines_append]
  have h1 : unlines (rule.content.flatMap (chunkLinesMd "# "))
      = rule.content.flatMap (fun s =>
          rchars "# " ++ s.title ++ rchars "\n\n" ++ s.value ++ rchars "\n\n") := by
    rw [unlines, List.flatMap_assoc]
    exact List.flatMap_congr (fun s _ => by rw [← unlines, unlines_chunkLinesMd])
  have h2 : unlines (rule.references.map (fun r => '@' :: r.path))
      = rule.references.flatMap (fun r => '@' :: (r.path ++ ['\n'])) := by
    rw [unlines, List.flatMap_map]
    exact List.flatMap_congr (fun r _ => rfl)
  rw [h1, h2]

theorem cursor_text_eq (rule : UniversalRule) :
    Cursor.convert_to_tool_format rule
      = unlines (cursorFMLines rule ++ cursorBodyLines rule) := by
  rw [Cursor.convert_to_tool_format, unlines_append, ← frontmatter_eq_unlines,
    ← cursor_body_eq]


theorem wf_unpack (rule : UniversalRule) (h : wellFormedRule rule = true) :
    (tight rule.metadata.name = true ∧ '\n' ∉ rule.metadata.name
      ∧ '\r' ∉ rule.metadata.name ∧ '<' ∉ rule.metadata.name ∧ '"' ∉ rule.metadata.name
      ∧ isUnderlineOf '=' rule.metadata.name = false
      ∧ isUnderlineOf '-' rule.metadata.name = false)
    ∧ (∀ d, rule.metadata.description = some d →
        tight d = true ∧ '\n' ∉ d ∧ '\r' ∉ d ∧ '<' ∉ d ∧ '"' ∉ d
          ∧ strStartsWith d ['#'] = false)
    ∧ rule.content ≠ []
    ∧ (∀ s ∈ rule.content,
        (tight s.title = true ∧ '\n' ∉ s.title ∧ '\r' ∉ s.title ∧ '<' ∉ s.title)
        ∧ (tight s.value = true ∧ '\r' ∉ s.value ∧ '<' ∉ s.value)
        ∧ ∀ l ∈ splitNl s.value,
            tight l = true ∧ '\r' ∉ l ∧ '<' ∉ l ∧ strStartsWith l ['#'] = false
              ∧ isUnderlineOf '=' l = false ∧ isUnderlineOf '-' l = false)
    ∧ ('\n' ∉ rule.id ∧ '\r' ∉ rule.id)
    ∧ (∀ r ∈ rule.references, tight r.path = true ∧ '\n' ∉ r.path ∧ '\r' ∉ r.path)
    ∧ (∀ v, RuleCondition.filePattern v ∈ rule.conditions →
        '\n' ∉ v ∧ '\r' ∉ v ∧ '"' ∉ v) := by
  rw [wellFormedRule] at h
  simp only [Bool.and_eq_true, decide_eq_true_eq, Bool.not_eq_true', Bool.or_eq_false_iff,
    List.all_eq_true, and_assoc] at h
  obtain ⟨hn1, hn2, hn3, hn4, hn5, hu1, hu2, hd, hcne, hcall, hid1, hid2, hrefs, hconds⟩ := h
  refine ⟨⟨hn1, hn2, hn3, hn4, hn5, hu1, hu2⟩, ?_, hcne, ?_, ⟨hid1, hid2⟩, ?_, ?_⟩
  · intro d hde
    rw [hde] at hd
    simp only [Bool.and_eq_true, decide_eq_true_eq, Bool.not_eq_true', and_assoc] at hd
    exact hd
  · intro s hs
    have hsf := hcall s hs
    simp only [Bool.and_eq_true, decide_eq_true_eq, Bool.not_eq_true',
      Bool.or_eq_false_iff, List.all_eq_true, and_assoc] at hsf
    obtain ⟨ht1, ht2, ht3, ht4, hv1, hv2, hv3, hls⟩ := hsf
    exact ⟨⟨ht1, ht2, ht3, ht4⟩, ⟨hv1, hv2, hv3⟩, fun l hl => hls l hl⟩
  · intro r hr
    have := hrefs r hr
    simp only [Bool.and_eq_true, decide_eq_true_eq, and_assoc] at this
    exact this
  · intro v hv
    have := hconds _ hv
    simp only [Bool.and_eq_true, decide_eq_true_eq, and_assoc] at this
    exact this


theorem clineLines_facts (rule : UniversalRule) (h : wellFormedRule rule = true) :
    ∀ l ∈ clineLines rule, '\n' ∉ l ∧ '\r' ∉ l := by
  obtain ⟨⟨_, hn2, hn3, _⟩, hdesc, _, hsecs, _⟩ := wf_unpack rule h
  intro l hl
  rw [clineLines, List.append_assoc] at hl
  simp only [List.mem_append, List.mem_cons, List.not_mem_nil, or_false] at hl
  rcases hl with (hl | hl) | hl | hl
  · subst hl
    constructor <;> (intro hm; rcases List.mem_append.mp hm with hm | hm)
    · exact absurd hm (by decide)
    · exact hn2 hm
    · exact absurd hm (by decide)
    · exact hn3 hm
  · subst hl; constructor <;> simp
  · cases hde : rule.metadata.description with
    | none => rw [hde] at hl; simp at hl
    | some d =>
      rw [hde] at hl
      obtain ⟨_, hd2, hd3, _⟩ := hdesc d hde
      simp only [List.mem_cons, List.not_mem_nil, or_false] at hl
      rcases hl with hl | hl
      · subst hl; exact ⟨hd2, hd3⟩
      · subst hl; constructor <;> simp
  · rw [List.mem_flatMap] at hl
    obtain ⟨s, hs, hls⟩ := hl
    obtain ⟨⟨_, ht2, ht3, _⟩, ⟨_, hv2, _⟩, _⟩ := hsecs s hs
    rw [chunkLinesMd, List.append_assoc] at hls
    simp only [List.mem_append, List.mem_cons, List.not_mem_nil, or_false] at hls
    rcases hls with (hls | hls) | hls | hls
    · subst hls
      constructor <;> (intro hm; rcases List.mem_append.mp hm with hm | hm)
      · exact absurd hm (by decide)
      · exact ht2 hm
      · exact absurd hm (by decide)
      · exact ht3 hm
    · subst hls; constructor <;> simp
    · constructor <;> intro hm
      · exact (splitNl_pieces s.value l hls '\n' hm).2 rfl
      · exact hv2 (splitNl_pieces s.value l hls '\r' hm).1
    · subst hls; constructor <;> simp

theorem cline_lines_eq (rule : UniversalRule) (h : wellFormedRule rule = true) :
    rustLines (Cline.convert_to_tool_format rule) = clineLines rule := by
  rw [cline_text_eq, rustLines_unlines _ (fun l hl => (clineLines_facts rule h l hl).1)]
  exact map_id_of _ (fun l hl => stripCr_of_no_cr l (clineLines_facts rule h l hl).2)


theorem markerComment_getLast (id : RStr) :
    (markerComment id).getLast? = some '>' := by
  rw [markerComment, List.getLast?_append_of_ne_nil _ (by decide)]
  rfl

theorem markerComment_no_nl (id : RStr) (h : '\n' ∉ id) :
    '\n' ∉ markerComment id := by
  intro hm
  rw [markerComment] at hm
  rcases List.mem_append.mp hm with hm | hm
  · rcases List.mem_append.mp hm with hm | hm
    · exact absurd hm (by decide)
    · exact h hm
  · exact absurd hm (by decide)

theorem markerComment_stripCr (id : RStr) :
    stripCr (markerComment id) = markerComment id :=
  stripCr_last_ne _ (by rw [markerComment_getLast]; simp)

theorem markerComment_rtrim (id : RStr) :
    rtrim (markerComment id) = markerComment id := by
  apply head_last_rtrim _ '<' _ '>'
  · show markerComment id = '<' :: (rchars "!-- rulesify-id: " ++ id ++ rchars " -->")
    rw [markerComment, markerOpen]
    rfl
  · rfl
  · exact markerComment_getLast id
  · rfl

theorem goose_output_no_lt (rule : UniversalRule) (h : wellFormedRule rule = true) :
    ∀ x ∈ (rule.metadata.name ++ ['\n']
      ++ List.replicate (utf8Len rule.metadata.name) '='
      ++ rchars "\n\n"
      ++ (match rule.metadata.description with
          | some description => description ++ rchars "\n\n"
          | none => []) : RStr)
      ++ rule.content.flatMap (fun s =>
          s.title ++ ['\n'] ++ List.replicate (utf8Len s.title) '-' ++ ['\n']
          ++ s.value ++ rchars "\n\n"), x ≠ '<' := by
  obtain ⟨⟨_, _, _, hn4, _⟩, hdesc, _, hsecs, _⟩ := wf_unpack rule h
  intro x hx
  intro he
  subst he
  rcases List.mem_append.mp hx with hx | hx
  · rcases List.mem_append.mp hx with hx | hx
    · rcases List.mem_append.mp hx with hx | hx
      · rcases List.mem_append.mp hx with hx | hx
        · rcases List.mem_append.mp hx with hx | hx
          · exact hn4 hx
          · exact absurd hx (by decide)
        · exact absurd (List.eq_of_mem_replicate hx) (by decide)
      · exact absurd hx (by decide)
    · cases hde : rule.metadata.description with
      | none => rw [hde] at hx; simp at hx
      | some d =>
        rw [hde] at hx
        obtain ⟨_, _, _, hd4, _⟩ := hdesc d hde
        rcases List.mem_append.mp hx with hx | hx
        · exact hd4 hx
        · exact absurd hx (by decide)
  · rw [List.mem_flatMap] at hx
    obtain ⟨s, hs, hxs⟩ := hx
    obtain ⟨⟨_, _, _, ht4⟩, ⟨_, _, hv3⟩, _⟩ := hsecs s hs
    rcases List.mem_append.mp hxs with hx | hx
    · rcases List.mem_append.mp hx with hx | hx
      · rcases List.mem_append.mp hx with hx | hx
        · rcases List.mem_append.mp hx with hx | hx
          · rcases List.mem_append.mp hx with hx | hx
            · exact ht4 hx
            · exact absurd hx (by decide)
          · exact absurd (List.eq_of_mem_replicate hx) (by decide)
        · exact absurd hx (by decide)
      · exact hv3 hx
    · exact absurd hx (by decide)

theorem goose_export_eq (rule : UniversalRule) (h : wellFormedRule rule = true) :
    Goose.convert_to_tool_format rule
      = markerComment rule.id ++ '\n' :: unlines (gooseLines rule) := by
  rw [Goose.convert_to_tool_format]
  rw [embed_fresh _ _ (strContains_key_false_of_no_lt _ (goose_output_no_lt rule h))]
  rw [← goose_output_eq]

theorem gooseLines_facts (rule : UniversalRule) (h : wellFormedRule rule = true) :
    ∀ l ∈ gooseLines rule, '\n' ∉ l ∧ '\r' ∉ l := by
  obtain ⟨⟨_, hn2, hn3, _⟩, hdesc, _, hsecs, _⟩ := wf_unpack rule h
  intro l hl
  rw [gooseLines, List.append_assoc] at hl
  simp only [List.mem_append, List.mem_cons, List.not_mem_nil, or_false] at hl
  rcases hl with (hl | hl | hl) | hl | hl
  · subst hl; exact ⟨hn2, hn3⟩
  · subst hl
    constructor <;> (intro hm; exact absurd (List.eq_of_mem_replicate hm) (by decide))
  · subst hl; constructor <;> simp
  · cases hde : rule.metadata.description with
    | none => rw [hde] at hl; simp at hl
    | some d =>
      rw [hde] at hl
      obtain ⟨_, hd2, hd3, _⟩ := hdesc d hde
      simp only [List.mem_cons, List.not_mem_nil, or_false] at hl
      rcases hl with hl | hl
      · subst hl; exact ⟨hd2, hd3⟩
      · subst hl; constructor <;> simp
  · rw [List.mem_flatMap] at hl
    obtain ⟨s, hs, hls⟩ := hl
    obtain ⟨⟨_, ht2, ht3, _⟩, ⟨_, hv2, _⟩, _⟩ := hsecs s hs
    rw [List.append_assoc] at hls
    simp only [List.mem_append, List.mem_cons, List.not_mem_nil, or_false] at hls
    rcases hls with (hls | hls) | hls | hls
    · subst hls; exact ⟨ht2, ht3⟩
    · subst hls
      constructor <;> (intro hm; exact absurd (List.eq_of_mem_replicate hm) (by decide))
    · constructor <;> intro hm
      · exact (splitNl_pieces s.value l hls '\n' hm).2 rfl
      · exact hv2 (splitNl_pieces s.value l hls '\r' hm).1
    · subst hls; constructor <;> simp

theorem goose_lines_eq (rule : UniversalRule) (h : wellFormedRule rule = true) :
    rustLines (Goose.convert_to_tool_format rule)
      = markerComment rule.id :: gooseLines rule := by
  obtain ⟨_, _, _, _, ⟨hid1, _⟩, _⟩ := wf_unpack rule h
  rw [goose_export_eq rule h,
    rustLines_line_append _ _ (markerComment_no_nl _ hid1),
    markerComment_stripCr,
    rustLines_unlines _ (fun l hl => (gooseLines_facts rule h l hl).1)]
  rw [map_id_of _ (fun l hl => stripCr_of_no_cr l (gooseLines_facts rule h l hl).2)]

theorem wf_clineLtFree (rule : UniversalRule) (h : wellFormedRule rule = true) :
    clineLtFree rule = true := by
  obtain ⟨⟨_, _, _, hn4, _⟩, hdesc, _, hsecs, _⟩ := wf_unpack rule h
  rw [clineLtFree, Bool.and_eq_true, Bool.and_eq_true]
  refine ⟨⟨by simpa using hn4, ?_⟩, ?_⟩
  · cases hde : rule.metadata.description with
    | none => rfl
    | some d =>
      obtain ⟨_, _, _, hd4, _⟩ := hdesc d hde
      simpa using hd4
  · rw [List.all_eq_true]
    intro s hs
    obtain ⟨⟨_, _, _, ht4⟩, ⟨_, _, hv3⟩, _⟩ := hsecs s hs
    rw [Bool.and_eq_true]
    exact ⟨by simpa using ht4, by simpa using hv3⟩

theorem claude_export_eq (rule : UniversalRule) (h : wellFormedRule rule = true) :
    ClaudeCode.convert_to_tool_format rule
      = markerComment rule.id ++ '\n' :: unlines (clineLines rule) := by
  show embed_rule_id_in_content (Cline.convert_to_tool_format rule) rule.id = _
  rw [embed_fresh _ _ (strContains_key_false_of_no_lt _ (cline_no_lt rule (wf_clineLtFree rule h)))]
  rw [← cline_text_eq]

theorem claude_lines_eq (rule : UniversalRule) (h : wellFormedRule rule = true) :
    rustLines (ClaudeCode.convert_to_tool_format rule)
      = markerComment rule.id :: clineLines rule := by
  obtain ⟨_, _, _, _, ⟨hid1, _⟩, _⟩ := wf_unpack rule h
  rw [claude_export_eq rule h,
    rustLines_line_append _ _ (markerComment_no_nl _ hid1),
    markerComment_stripCr,
    rustLines_unlines _ (fun l hl => (clineLines_facts rule h l hl).1)]
  rw [map_id_of _ (fun l hl => stripCr_of_no_cr l (clineLines_facts rule h l hl).2)]


theorem rtrim_lit_tight (c : Char) (pre s : RStr) (hc : isRustWs c = false)
    (hs : tight s = true) : rtrim ((c :: pre) ++ s) = (c :: pre) ++ s := by
  obtain ⟨d, hd, hw⟩ := tight_last s hs
  apply head_last_rtrim _ c (pre ++ s) d
  · rfl
  · exact hc
  · rw [List.getLast?_append_of_ne_nil _ (tight_ne_nil s hs)]
    exact hd
  · exact hw

/-- The number of sections the loop state will deliver, counting an open
section as one. -/
def closedCount (st : MdParseState) : Nat :=
  match st.current with
  | some _ => st.sections.length + 1
  | none => st.sections.length

theorem clineGo_inert : ∀ (ls rest : List RStr) (st : MdParseState) (t : RStr)
    (cur : List RStr), st.current = some (t, cur) →
    (∀ l ∈ ls, strStartsWith (rtrim l) (rchars "# ") = false
      ∧ strStartsWith (rtrim l) (rchars "## ") = false) →
    clineGo (ls ++ rest) st 0
      = clineGo rest { st with current := some (t, cur ++ ls.map rtrim) } 0
  | [], rest, st, t, cur, hcur, _ => by
    rw [List.nil_append, List.map_nil, List.append_nil, ← hcur]
  | l :: ls', rest, st, t, cur, hcur, h => by
    rw [List.cons_append, clineGo]
    have h1 := (h l (List.mem_cons_self _ _)).1
    have h2 := (h l (List.mem_cons_self _ _)).2
    rw [h1, h2]
    simp only [Bool.false_eq_true, if_false]
    rw [hcur]
    dsimp only
    rw [clineGo_inert ls' rest _ t (cur ++ [rtrim l]) rfl
      (fun x hx => h x (List.mem_cons_of_mem _ hx))]
    rw [List.map_cons, List.append_assoc]
    rfl

theorem clineGo_chunks : ∀ (secs : List RuleContent) (st : MdParseState),
    (∀ s ∈ secs, tight s.title = true ∧
      (∀ l ∈ splitNl s.value, tight l = true ∧ strStartsWith l ['#'] = false)) →
    (clineGo (secs.flatMap (chunkLinesMd "## ")) st 0).name = st.name
    ∧ (clineGo (secs.flatMap (chunkLinesMd "## ")) st 0).description = st.description
    ∧ closedCount (clineGo (secs.flatMap (chunkLinesMd "## ")) st 0)
        = closedCount st + secs.length
  | [], st, _ => ⟨rfl, rfl, rfl⟩
  | s :: rest, st, h => by
    obtain ⟨ht, hls⟩ := h s (List.mem_cons_self _ _)
    have hrest := fun x hx => h x (List.mem_cons_of_mem _ hx)
    rw [List.flatMap_cons, chunkLinesMd]
    have hshape : ([rchars "## " ++ s.title, []] ++ splitNl s.value ++ [[]])
        ++ rest.flatMap (chunkLinesMd "## ")
        = (rchars "## " ++ s.title)
          :: (([] :: splitNl s.value ++ [[]]) ++ rest.flatMap (chunkLinesMd "## ")) := by
      simp [List.append_assoc]
    rw [hshape, clineGo]
    have htrim : rtrim (rchars "## " ++ s.title) = rchars "## " ++ s.title := by
      have : rchars "## " ++ s.title = ('#' :: rchars "# ") ++ s.title := rfl
      rw [this, rtrim_lit_tight '#' _ _ (by decide) ht]
    rw [htrim]
    have hns : strStartsWith (rchars "## " ++ s.title) (rchars "# ") = false := rfl
    have hss : strStartsWith (rchars "## " ++ s.title) (rchars "## ") = true :=
      strStartsWith_append_self _ _
    rw [hns, hss]
    simp only [Bool.false_eq_true, if_false, if_true]
    have hdrop : (rchars "## " ++ s.title).drop 3 = s.title := List.drop_left' rfl
    rw [hdrop, tight_rtrim _ ht]
    set st1 := (match st.current with
      | some cur => { st with sections := st.sections ++ [finishSection .markdown cur] }
      | none => st) with hst1
    have hinert := clineGo_inert ([] :: splitNl s.value ++ [[]])
      (rest.flatMap (chunkLinesMd "## "))
      { st1 with current := some (s.title, []) } s.title [] rfl
      (fun l hl => by
        simp only [List.mem_cons, List.mem_append, List.not_mem_nil, or_false] at hl
        rcases hl with (hl | hl) | hl
        · subst hl; exact ⟨rfl, rfl⟩
        · obtain ⟨htl, hhl⟩ := hls l hl
          rw [tight_rtrim l htl]
          exact startsWith_hash_false_of l (by rw [hhl]; simp)
        · subst hl; exact ⟨rfl, rfl⟩)
    rw [hinert]
    obtain ⟨hn, hd, hc⟩ := clineGo_chunks rest
      { st1 with current := some (s.title, [] ++ ([] :: splitNl s.value ++ [[]]).map rtrim) }
      hrest
    refine ⟨?_, ?_, ?_⟩
    · rw [hn, hst1]
      cases st.current <;> rfl
    · rw [hd, hst1]
      cases st.current <;> rfl
    · rw [hc]
      have : closedCount { st1 with
          current := some (s.title, [] ++ ([] :: splitNl s.value ++ [[]]).map rtrim) }
          = closedCount st + 1 := by
        rw [closedCount, closedCount, hst1]
        cases hcur : st.current with
        | none => simp
        | some cur => simp
      rw [this]
      simp [List.length_cons]
      omega

theorem secs_length_eq (st : MdParseState) :
    (match st.current with
      | some cur => st.sections ++ [finishSection .markdown cur]
      | none => st.sections).length = closedCount st := by
  rw [closedCount]
  cases st.current with
  | none => rfl
  | some cur => simp

theorem cline_parse_eval (rule : UniversalRule) (h : wellFormedRule rule = true) :
    (parse_cline_format (Cline.convert_to_tool_format rule)).1 = rule.metadata.name
    ∧ (parse_cline_format (Cline.convert_to_tool_format rule)).2.2.length
        = rule.content.length := by
  obtain ⟨⟨hnt, _⟩, hdesc, hcne, hsecs, _⟩ := wf_unpack rule h
  have hchunkarg : ∀ s ∈ rule.content, tight s.title = true ∧
      (∀ l ∈ splitNl s.value, tight l = true ∧ strStartsWith l ['#'] = false) := by
    intro s hs
    obtain ⟨⟨ht1, _⟩, _, hls⟩ := hsecs s hs
    exact ⟨ht1, fun l hl => ⟨(hls l hl).1, (hls l hl).2.2.2.1⟩⟩
  have hmain : ∀ st1 : MdParseState,
      (clineGo (rule.content.flatMap (chunkLinesMd "## ")) st1 0).name = st1.name
      ∧ closedCount (clineGo (rule.content.flatMap (chunkLinesMd "## ")) st1 0)
          = closedCount st1 + rule.content.length :=
    fun st1 => ⟨(clineGo_chunks rule.content st1 hchunkarg).1,
      (clineGo_chunks rule.content st1 hchunkarg).2.2⟩
  have hname : rtrim (rchars "# " ++ rule.metadata.name) = rchars "# " ++ rule.metadata.name := by
    have he : rchars "# " ++ rule.metadata.name = ('#' :: rchars " ") ++ rule.metadata.name := rfl
    rw [he, rtrim_lit_tight '#' _ _ (by decide) hnt]
  have hblank : ∀ (a : RStr) (tl : List RStr), tight a = true →
      (List.takeWhile (fun x => decide (rtrim x = [])) ([] :: a :: tl) = [[]]
        ∧ List.dropWhile (fun x => decide (rtrim x = [])) ([] :: a :: tl) = a :: tl) := by
    intro a tl hta
    have hpa : (decide (rtrim a = []) : Bool) = false := by
      rw [tight_rtrim a hta]
      exact decide_eq_false (tight_ne_nil a hta)
    constructor
    · rw [List.takeWhile_cons, if_pos (by decide), List.takeWhile_cons, hpa]
      rfl
    · rw [List.dropWhile_cons, if_pos (by decide), List.dropWhile_cons, hpa]
      rfl
  -- the state after consuming the `# name` header (and description, if any)
  have hst : ∀ st0 : MdParseState, st0.current = none → st0.sections = [] →
      ∃ stm : MdParseState, clineGo (clineLines rule) st0 0
          = clineGo (rule.content.flatMap (chunkLinesMd "## ")) stm 0
        ∧ stm.name = rule.metadata.name ∧ closedCount stm = 0 := by
    intro st0 hcur hsec
    rw [clineLines]
    have hshape : ([rchars "# " ++ rule.metadata.name, []]
          ++ (match rule.metadata.description with
              | some d => [d, []]
              | none => [])
          ++ rule.content.flatMap (chunkLinesMd "## "))
        = (rchars "# " ++ rule.metadata.name)
          :: ([] :: ((match rule.metadata.description with
              | some d => ([d, []] : List RStr)
              | none => [])
            ++ rule.content.flatMap (chunkLinesMd "## "))) := by
      simp [List.append_assoc]
    rw [hshape, clineGo, hname,
      strStartsWith_append_self (rchars "# ") rule.metadata.name]
    simp only [if_true]
    have hdr2 : (rchars "# " ++ rule.metadata.name).drop 2 = rule.metadata.name :=
      List.drop_left' rfl
    rw [hdr2, tight_rtrim _ hnt]
    cases hde : rule.metadata.description with
    | some d =>
      obtain ⟨htd, _, _, _, _, hd6⟩ := hdesc d hde
      simp only [List.cons_append, List.nil_append]
      rw [(hblank d _ htd).1, (hblank d _ htd).2]
      dsimp only
      rw [tight_rtrim d htd]
      rw [if_pos ⟨by rw [hd6]; simp, tight_ne_nil d htd⟩]
      show ∃ stm, clineGo ([] :: d :: ([] :: rule.content.flatMap (chunkLinesMd "## ")))
          { st0 with name := rule.metadata.name, description := some d } (1 + 1) = _ ∧ _
      rw [clineGo, clineGo, clineGo]
      have h0 : rtrim ([] : RStr) = [] := rfl
      rw [h0]
      have hf1 : strStartsWith ([] : RStr) (rchars "# ") = false := rfl
      have hf2 : strStartsWith ([] : RStr) (rchars "## ") = false := rfl
      rw [hf1, hf2]
      simp only [Bool.false_eq_true, if_false]
      rw [hcur]
      dsimp only
      rw [if_neg (by simp)]
      exact ⟨_, rfl, rfl, by simp [closedCount, hsec]⟩
    | none =>
      simp only [List.nil_append]
      cases hcf : rule.content with
      | nil => exact absurd hcf hcne
      | cons s srest =>
        obtain ⟨⟨hts, _⟩, _, _⟩ := hsecs s (by rw [hcf]; exact List.mem_cons_self _ _)
        have hFshape : (s :: srest).flatMap (chunkLinesMd "## ")
            = (rchars "## " ++ s.title)
              :: ([] :: (splitNl s.value ++ [[]] ++ srest.flatMap (chunkLinesMd "## "))) := by
          rw [List.flatMap_cons, chunkLinesMd]
          simp [List.append_assoc]
        rw [hFshape]
        have hhdrt : rtrim (rchars "## " ++ s.title) = rchars "## " ++ s.title := by
          have he : rchars "## " ++ s.title = ('#' :: rchars "# ") ++ s.title := rfl
          rw [he, rtrim_lit_tight '#' _ _ (by decide) hts]
        have hph : (decide (rtrim (rchars "## " ++ s.title) = []) : Bool) = false := by
          rw [hhdrt]
          exact decide_eq_false (by
            intro he
            exact absurd (List.append_eq_nil.mp he).1 (by decide))
        rw [List.takeWhile_cons, if_pos (by decide), List.takeWhile_cons, hph]
        rw [List.dropWhile_cons, if_pos (by decide), List.dropWhile_cons, hph]
        simp only [Bool.false_eq_true, if_false]
        rw [hhdrt]
        have hsh : strStartsWith (rchars "## " ++ s.title) ['#'] = true := by
          show (decide ('#' = '#') && strStartsWith (rchars "# " ++ s.title) []) = true
          rw [strStartsWith_nil, decide_eq_true rfl]
          rfl
        rw [if_neg (by rw [hsh]; simp)]
        rw [clineGo, clineGo]
        have h0 : rtrim ([] : RStr) = [] := rfl
        rw [h0]
        have hf1 : strStartsWith ([] : RStr) (rchars "# ") = false := rfl
        have hf2 : strStartsWith ([] : RStr) (rchars "## ") = false := rfl
        rw [hf1, hf2]
        simp only [Bool.false_eq_true, if_false]
        rw [hcur]
        dsimp only
        rw [if_neg (by simp)]
        rw [← hFshape]
        exact ⟨_, rfl, rfl, by simp [closedCount, hsec]⟩
  obtain ⟨stm, heq, hnm, hcc⟩ := hst ⟨rchars "Imported Rule", none, [], none⟩ rfl rfl
  simp only [parse_cline_format]
  rw [cline_lines_eq rule h, heq]
  constructor
  · exact (hmain stm).1.trans hnm
  · have hlen := (secs_length_eq (clineGo (rule.content.flatMap (chunkLinesMd "## ")) stm 0)).trans
      (by rw [(hmain stm).2, hcc, Nat.zero_add])
    have hne : (match (clineGo (rule.content.flatMap (chunkLinesMd "## ")) stm 0).current with
        | some cur => (clineGo (rule.content.flatMap (chunkLinesMd "## ")) stm 0).sections
            ++ [finishSection .markdown cur]
        | none => (clineGo (rule.content.flatMap (chunkLinesMd "## ")) stm 0).sections) ≠ [] := by
      intro he
      rw [he] at hlen
      simp at hlen
      exact hcne (List.length_eq_zero.mp hlen.symm)
    rw [if_neg (by
      intro hcontra
      exact hne (List.isEmpty_iff.mp hcontra.1))]
    rw [hlen]


theorem claudeGo_inert : ∀ (ls rest : List RStr) (st : MdParseState) (t : RStr)
    (cur : List RStr), st.current = some (t, cur) →
    (∀ l ∈ ls, strStartsWith (rtrim l) (rchars "# ") = false
      ∧ strStartsWith (rtrim l) (rchars "## ") = false
      ∧ strStartsWith (rtrim l) markerKey = false) →
    claudeGo (ls ++ rest) st 0
      = claudeGo rest { st with current := some (t, cur ++ ls.map rtrim) } 0
  | [], rest, st, t, cur, hcur, _ => by
    rw [List.nil_append, List.map_nil, List.append_nil, ← hcur]
  | l :: ls', rest, st, t, cur, hcur, h => by
    rw [List.cons_append, claudeGo]
    obtain ⟨h1, h2, h3⟩ := h l (List.mem_cons_self _ _)
    rw [h1, h2]
    simp only [Bool.false_eq_true, if_false]
    rw [hcur]
    dsimp only
    rw [if_pos (by rw [h3]; simp)]
    rw [claudeGo_inert ls' rest _ t (cur ++ [rtrim l]) rfl
      (fun x hx => h x (List.mem_cons_of_mem _ hx))]
    rw [List.map_cons, List.append_assoc]
    rfl

theorem claudeGo_chunks : ∀ (secs : List RuleContent) (st : MdParseState),
    (∀ s ∈ secs, tight s.title = true ∧
      (∀ l ∈ splitNl s.value, tight l = true ∧ strStartsWith l ['#'] = false
        ∧ strStartsWith l markerKey = false)) →
    (claudeGo (secs.flatMap (chunkLinesMd "## ")) st 0).name = st.name
    ∧ (claudeGo (secs.flatMap (chunkLinesMd "## ")) st 0).description = st.description
    ∧ closedCount (claudeGo (secs.flatMap (chunkLinesMd "## ")) st 0)
        = closedCount st + secs.length
  | [], st, _ => ⟨rfl, rfl, rfl⟩
  | s :: rest, st, h => by
    obtain ⟨ht, hls⟩ := h s (List.mem_cons_self _ _)
    have hrest := fun x hx => h x (List.mem_cons_of_mem _ hx)
    rw [List.flatMap_cons, chunkLinesMd]
    have hshape : ([rchars "## " ++ s.title, []] ++ splitNl s.value ++ [[]])
        ++ rest.flatMap (chunkLinesMd "## ")
        = (rchars "## " ++ s.title)
          :: (([] :: splitNl s.value ++ [[]]) ++ rest.flatMap (chunkLinesMd "## ")) := by
      simp [List.append_assoc]
    rw [hshape, claudeGo]
    have htrim : rtrim (rchars "## " ++ s.title) = rchars "## " ++ s.title := by
      have he : rchars "## " ++ s.title = ('#' :: rchars "# ") ++ s.title := rfl
      rw [he, rtrim_lit_tight '#' _ _ (by decide) ht]
    rw [htrim]
    have hns : strStartsWith (rchars "## " ++ s.title) (rchars "# ") = false := rfl
    have hss : strStartsWith (rchars "## " ++ s.title) (rchars "## ") = true :=
      strStartsWith_append_self _ _
    rw [hns, hss]
    simp only [Bool.false_eq_true, if_false, if_true]
    have hdrop : (rchars "## " ++ s.title).drop 3 = s.title := List.drop_left' rfl
    rw [hdrop, tight_rtrim _ ht]
    set st1 := (match st.current with
      | some cur => { st with sections := st.sections ++ [finishSection .markdown cur] }
      | none => st) with hst1
    have hinert := claudeGo_inert ([] :: splitNl s.value ++ [[]])
      (rest.flatMap (chunkLinesMd "## "))
      { st1 with current := some (s.title, []) } s.title [] rfl
      (fun l hl => by
        simp only [List.mem_cons, List.mem_append, List.not_mem_nil, or_false] at hl
        rcases hl with (hl | hl) | hl
        · subst hl; exact ⟨rfl, rfl, rfl⟩
        · obtain ⟨htl, hhl, hkl⟩ := hls l hl
          rw [tight_rtrim l htl]
          exact ⟨(startsWith_hash_false_of l (by rw [hhl]; simp)).1,
            (startsWith_hash_false_of l (by rw [hhl]; simp)).2, hkl⟩
        · subst hl; exact ⟨rfl, rfl, rfl⟩)
    rw [hinert]
    obtain ⟨hn, hd, hc⟩ := claudeGo_chunks rest
      { st1 with current := some (s.title, [] ++ ([] :: splitNl s.value ++ [[]]).map rtrim) }
      hrest
    refine ⟨?_, ?_, ?_⟩
    · rw [hn, hst1]
      cases st.current <;> rfl
    · rw [hd, hst1]
      cases st.current <;> rfl
    · rw [hc]
      have : closedCount { st1 with
          current := some (s.title, [] ++ ([] :: splitNl s.value ++ [[]]).map rtrim) }
          = closedCount st + 1 := by
        rw [closedCount, closedCount, hst1]
        cases hcur : st.current with
        | none => simp
        | some cur => simp
      rw [this]
      simp [List.length_cons]
      omega


theorem secs_length_eq_claude (st : MdParseState) :
    (match st.current with
      | some cur => st.sections ++ [finishSection .markdown cur]
      | none => st.sections).length = closedCount st := secs_length_eq st

theorem claude_parse_eval (rule : UniversalRule) (h : wellFormedRule rule = true) :
    (parse_claude_code_format (ClaudeCode.convert_to_tool_format rule)).1
        = rule.metadata.name
    ∧ (parse_claude_code_format (ClaudeCode.convert_to_tool_format rule)).2.2.length
        = rule.content.length := by
  obtain ⟨⟨hnt, _⟩, hdesc, hcne, hsecs, _⟩ := wf_unpack rule h
  have hchunkarg : ∀ s ∈ rule.content, tight s.title = true ∧
      (∀ l ∈ splitNl s.value, tight l = true ∧ strStartsWith l ['#'] = false
        ∧ strStartsWith l markerKey = false) := by
    intro s hs
    obtain ⟨⟨ht1, _⟩, _, hls⟩ := hsecs s hs
    exact ⟨ht1, fun l hl => ⟨(hls l hl).1, (hls l hl).2.2.2.1,
      startsWith_key_false_of_no_lt l (hls l hl).2.2.1⟩⟩
  have hmain : ∀ st1 : MdParseState,
      (claudeGo (rule.content.flatMap (chunkLinesMd "## ")) st1 0).name = st1.name
      ∧ closedCount (claudeGo (rule.content.flatMap (chunkLinesMd "## ")) st1 0)
          = closedCount st1 + rule.content.length :=
    fun st1 => ⟨(claudeGo_chunks rule.content st1 hchunkarg).1,
      (claudeGo_chunks rule.content st1 hchunkarg).2.2⟩
  have hname : rtrim (rchars "# " ++ rule.metadata.name) = rchars "# " ++ rule.metadata.name := by
    have he : rchars "# " ++ rule.metadata.name = ('#' :: rchars " ") ++ rule.metadata.name := rfl
    rw [he, rtrim_lit_tight '#' _ _ (by decide) hnt]
  have hblank : ∀ (a : RStr) (tl : List RStr), tight a = true →
      (List.takeWhile (fun x => decide (rtrim x = [])) ([] :: a :: tl) = [[]]
        ∧ List.dropWhile (fun x => decide (rtrim x = [])) ([] :: a :: tl) = a :: tl) := by
    intro a tl hta
    have hpa : (decide (rtrim a = []) : Bool) = false := by
      rw [tight_rtrim a hta]
      exact decide_eq_false (tight_ne_nil a hta)
    constructor
    · rw [List.takeWhile_cons, if_pos (by decide), List.takeWhile_cons, hpa]
      rfl
    · rw [List.dropWhile_cons, if_pos (by decide), List.dropWhile_cons, hpa]
      rfl
  have hst : ∀ st0 : MdParseState, st0.current = none → st0.sections = [] →
      ∃ stm : MdParseState, claudeGo (clineLines rule) st0 0
          = claudeGo (rule.content.flatMap (chunkLinesMd "## ")) stm 0
        ∧ stm.name = rule.metadata.name ∧ closedCount stm = 0 := by
    intro st0 hcur hsec
    rw [clineLines]
    have hshape : ([rchars "# " ++ rule.metadata.name, []]
          ++ (match rule.metadata.description with
              | some d => [d, []]
              | none => [])
          ++ rule.content.flatMap (chunkLinesMd "## "))
        = (rchars "# " ++ rule.metadata.name)
          :: ([] :: ((match rule.metadata.description with
              | some d => ([d, []] : List RStr)
              | none => [])
            ++ rule.content.flatMap (chunkLinesMd "## "))) := by
      simp [List.append_assoc]
    rw [hshape, claudeGo, hname,
      strStartsWith_append_self (rchars "# ") rule.metadata.name]
    simp only [if_true]
    have hdr2 : (rchars "# " ++ rule.metadata.name).drop 2 = rule.metadata.name :=
      List.drop_left' rfl
    rw [hdr2, tight_rtrim _ hnt]
    cases hde : rule.metadata.description with
    | some d =>
      obtain ⟨htd, _, _, _, _, hd6⟩ := hdesc d hde
      simp only [List.cons_append, List.nil_append]
      rw [(hblank d _ htd).1, (hblank d _ htd).2]
      dsimp only
      rw [tight_rtrim d htd]
      rw [if_pos ⟨by rw [hd6]; simp, tight_ne_nil d htd⟩]
      show ∃ stm, claudeGo ([] :: d :: ([] :: rule.content.flatMap (chunkLinesMd "## ")))
          { st0 with name := rule.metadata.name, description := some d } (1 + 1) = _ ∧ _
      rw [claudeGo, claudeGo, claudeGo]
      have h0 : rtrim ([] : RStr) = [] := rfl
      rw [h0]
      have hf1 : strStartsWith ([] : RStr) (rchars "# ") = false := rfl
      have hf2 : strStartsWith ([] : RStr) (rchars "## ") = false := rfl
      rw [hf1, hf2]
      simp only [Bool.false_eq_true, if_false]
      rw [hcur]
      dsimp only
      rw [if_neg (by simp)]
      exact ⟨_, rfl, rfl, by simp [closedCount, hsec]⟩
    | none =>
      simp only [List.nil_append]
      cases hcf : rule.content with
      | nil => exact absurd hcf hcne
      | cons s srest =>
        obtain ⟨⟨hts, _⟩, _, _⟩ := hsecs s (by rw [hcf]; exact List.mem_cons_self _ _)
        have hFshape : (s :: srest).flatMap (chunkLinesMd "## ")
            = (rchars "## " ++ s.title)
              :: ([] :: (splitNl s.value ++ [[]] ++ srest.flatMap (chunkLinesMd "## "))) := by
          rw [List.flatMap_cons, chunkLinesMd]
          simp [List.append_assoc]
        rw [hFshape]
        have hhdrt : rtrim (rchars "## " ++ s.title) = rchars "## " ++ s.title := by
          have he : rchars "## " ++ s.title = ('#' :: rchars "# ") ++ s.title := rfl
          rw [he, rtrim_lit_tight '#' _ _ (by decide) hts]
        have hph : (decide (rtrim (rchars "## " ++ s.title) = []) : Bool) = false := by
          rw [hhdrt]
          exact decide_eq_false (by
            intro he
            exact absurd (List.append_eq_nil.mp he).1 (by decide))
        rw [List.takeWhile_cons, if_pos (by decide), List.takeWhile_cons, hph]
        rw [List.dropWhile_cons, if_pos (by decide), List.dropWhile_cons, hph]
        simp only [Bool.false_eq_true, if_false]
        rw [hhdrt]
        have hsh : strStartsWith (rchars "## " ++ s.title) ['#'] = true := by
          show (decide ('#' = '#') && strStartsWith (rchars "# " ++ s.title) []) = true
          rw [strStartsWith_nil, decide_eq_true rfl]
          rfl
        rw [if_neg (by rw [hsh]; simp)]
        rw [claudeGo, claudeGo]
        have h0 : rtrim ([] : RStr) = [] := rfl
        rw [h0]
        have hf1 : strStartsWith ([] : RStr) (rchars "# ") = false := rfl
        have hf2 : strStartsWith ([] : RStr) (rchars "## ") = false := rfl
        rw [hf1, hf2]
        simp only [Bool.false_eq_true, if_false]
        rw [hcur]
        dsimp only
        rw [if_neg (by simp)]
        rw [← hFshape]
        exact ⟨_, rfl, rfl, by simp [closedCount, hsec]⟩
  -- the marker line is skipped by the identity-marker guard
  have hmarker : ∀ st0 : MdParseState, st0.current = none →
      claudeGo (markerComment rule.id :: clineLines rule) st0 0
        = claudeGo (clineLines rule) st0 0 := by
    intro st0 hcur
    rw [claudeGo, markerComment_rtrim]
    have hm1 : strStartsWith (markerComment rule.id) (rchars "# ") = false := rfl
    have hm2 : strStartsWith (markerComment rule.id) (rchars "## ") = false := rfl
    rw [hm1, hm2]
    simp only [Bool.false_eq_true, if_false]
    rw [hcur]
    dsimp only
    have hmk : strStartsWith (markerComment rule.id) markerKey = true := by
      have := comment_startsWith_key rule.id []
      rw [List.append_nil] at this
      exact this
    rw [if_neg (by rw [hmk]; simp)]
  obtain ⟨stm, heq, hnm, hcc⟩ := hst ⟨rchars "Imported Rule", none, [], none⟩ rfl rfl
  simp only [parse_claude_code_format]
  rw [claude_lines_eq rule h, hmarker _ rfl, heq]
  constructor
  · exact (hmain stm).1.trans hnm
  · have hlen := (secs_length_eq (claudeGo (rule.content.flatMap (chunkLinesMd "## ")) stm 0)).trans
      (by rw [(hmain stm).2, hcc, Nat.zero_add])
    have hne : (match (claudeGo (rule.content.flatMap (chunkLinesMd "## ")) stm 0).current with
        | some cur => (claudeGo (rule.content.flatMap (chunkLinesMd "## ")) stm 0).sections
            ++ [finishSection .markdown cur]
        | none => (claudeGo (rule.content.flatMap (chunkLinesMd "## ")) stm 0).sections) ≠ [] := by
      intro he
      rw [he] at hlen
      simp at hlen
      exact hcne (List.length_eq_zero.mp hlen.symm)
    rw [if_neg (by
      intro hcontra
      exact hne (List.isEmpty_iff.mp hcontra.1))]
    rw [hlen]


theorem replicate_getLast (c : Char) (n : Nat) (h : 1 ≤ n) :
    (List.replicate n c).getLast? = some c := by
  cases n with
  | zero => omega
  | succ m =>
    rw [List.replicate_succ', List.getLast?_concat]

theorem replicate_tight (c : Char) (n : Nat) (h : 1 ≤ n) (hws : isRustWs c = false) :
    tight (List.replicate n c) = true := by
  cases n with
  | zero => omega
  | succ m =>
    rw [tight, Bool.and_eq_true]
    constructor
    · rw [List.replicate_succ, List.head?_cons, nonWsEdge, hws]
      rfl
    · rw [replicate_getLast c (m + 1) (by omega), nonWsEdge, hws]
      rfl

theorem replicate_rtrim (c : Char) (n : Nat) (h : 1 ≤ n) (hws : isRustWs c = false) :
    rtrim (List.replicate n c) = List.replicate n c :=
  tight_rtrim _ (replicate_tight c n h hws)

theorem isUnderlineOf_replicate (c : Char) (n : Nat) (h : 1 ≤ n) :
    isUnderlineOf c (List.replicate n c) = true := by
  rw [isUnderlineOf, Bool.and_eq_true]
  constructor
  · rw [decide_eq_true_eq]
    intro he
    have := congrArg List.length he
    simp at this
    omega
  · rw [List.all_eq_true]
    intro x hx
    rw [List.eq_of_mem_replicate hx]
    simp

theorem isUnderlineOf_replicate_ne (c d : Char) (n : Nat) (h : 1 ≤ n) (hne : d ≠ c) :
    isUnderlineOf c (List.replicate n d) = false := by
  rw [isUnderlineOf]
  cases hall : (List.replicate n d).all (fun x => x == c) with
  | false => simp
  | true =>
    exfalso
    have := List.all_eq_true.mp hall d (by
      rw [List.mem_replicate]
      exact ⟨by omega, rfl⟩)
    simp at this
    exact hne this

theorem gooseGo_inert : ∀ (ls rest : List RStr) (st : MdParseState) (t : RStr)
    (cur : List RStr), st.current = some (t, cur) →
    (∀ l ∈ ls, rtrim l = l ∧ strStartsWith l markerKey = false
      ∧ isUnderlineOf '=' l = false ∧ isUnderlineOf '-' l = false) →
    ls.getLast? = some [] →
    gooseGo (ls ++ rest) st 0 = gooseGo rest { st with current := some (t, cur ++ ls) } 0
  | [], _, _, _, _, _, _, hlast => by simp at hlast
  | [l], rest, st, t, cur, hcur, h, hlast => by
    rw [List.getLast?_singleton] at hlast
    injection hlast with hlast
    subst hlast
    cases rest with
    | nil =>
      show gooseGo [[]] st 0 = gooseGo [] _ 0
      rw [gooseGo, gooseGo]
      show gooseElse (rtrim []) st = _
      have h0 : rtrim ([] : RStr) = [] := rfl
      rw [h0, gooseElse, hcur]
    | cons r rs =>
      show gooseGo ([] :: r :: rs) st 0 = _
      rw [gooseGo]
      have h0 : rtrim ([] : RStr) = [] := rfl
      rw [h0]
      rw [if_pos rfl, gooseElse, hcur]
  | l :: l2 :: ls'', rest, st, t, cur, hcur, h, hlast => by
    obtain ⟨hr, hk, hu1, hu2⟩ := h l (List.mem_cons_self _ _)
    obtain ⟨hr2, _, hu12, hu22⟩ := h l2 (List.mem_cons_of_mem _ (List.mem_cons_self _ _))
    have hrest2 := fun x hx => h x (List.mem_cons_of_mem _ hx)
    have hlast2 : (l2 :: ls'').getLast? = some [] := by
      rw [List.getLast?_cons_cons] at hlast
      exact hlast
    rw [List.cons_append, List.cons_append, gooseGo, hr]
    by_cases hl0 : l = []
    · rw [if_pos hl0, gooseElse, hcur]
      dsimp only
      rw [← List.cons_append,
        gooseGo_inert (l2 :: ls'') rest _ t (cur ++ [l]) rfl hrest2 hlast2]
      rw [List.append_assoc]
      rfl
    · rw [if_neg hl0]
      dsimp only
      rw [hr2, hu12, hu22]
      rw [if_neg (by simp)]
      rw [gooseMid, hcur]
      dsimp only
      rw [if_pos (by rw [hk]; simp)]
      rw [← List.cons_append,
        gooseGo_inert (l2 :: ls'') rest _ t (cur ++ [l]) rfl hrest2 hlast2]
      rw [List.append_assoc]
      rfl


/-- Goose loop section count, counting the open section as one. -/
def gcount (st : MdParseState) : Nat :=
  st.sections.length + (match st.current with | some _ => 1 | none => 0)

/-- The open goose section, if any, has non-empty trimmed content, so its
closure contributes exactly one section. -/
def invFinish (st : MdParseState) : Prop :=
  match st.current with
  | some cur => rtrim (joinNl cur.2) ≠ []
  | none => True

theorem gooseFinish_inv (cur : RStr × List RStr) (h : rtrim (joinNl cur.2) ≠ []) :
    gooseFinish cur = [⟨cur.1, .plainText, rtrim (joinNl cur.2)⟩] := by
  rw [gooseFinish, if_pos h]

theorem joined_value_inv (v : RStr) (hv : tight v = true) :
    rtrim (joinNl (splitNl v ++ [[]])) ≠ [] := by
  rw [joinNl_append_single _ _ (splitNl_ne_nil v), joinNl_splitNl]
  show rtrim (v ++ ['\n']) ≠ []
  rw [rtrim_append_ws v '\n' (by decide), tight_rtrim v hv]
  exact tight_ne_nil v hv

theorem gooseGo_chunks : ∀ (secs : List RuleContent) (st : MdParseState),
    (∀ s ∈ secs, tight s.title = true ∧ tight s.value = true ∧
      (∀ l ∈ splitNl s.value, tight l = true ∧ '<' ∉ l
        ∧ isUnderlineOf '=' l = false ∧ isUnderlineOf '-' l = false)) →
    invFinish st →
    (gooseGo (secs.flatMap (fun s =>
        [s.title, List.replicate (utf8Len s.title) '-'] ++ splitNl s.value ++ [[]])) st 0).name
      = st.name
    ∧ (gooseGo (secs.flatMap (fun s =>
        [s.title, List.replicate (utf8Len s.title) '-'] ++ splitNl s.value ++ [[]])) st 0).description
      = st.description
    ∧ gcount (gooseGo (secs.flatMap (fun s =>
        [s.title, List.replicate (utf8Len s.title) '-'] ++ splitNl s.value ++ [[]])) st 0)
      = gcount st + secs.length
    ∧ invFinish (gooseGo (secs.flatMap (fun s =>
        [s.title, List.replicate (utf8Len s.title) '-'] ++ splitNl s.value ++ [[]])) st 0)
  | [], st, _, hinv => ⟨rfl, rfl, rfl, hinv⟩
  | s :: rest, st, h, hinv => by
    obtain ⟨ht, hv, hls⟩ := h s (List.mem_cons_self _ _)
    have hrest := fun x hx => h x (List.mem_cons_of_mem _ hx)
    have hn1 : 1 ≤ utf8Len s.title := utf8Len_pos _ (tight_ne_nil _ ht)
    rw [List.flatMap_cons]
    have hshape : ([s.title, List.replicate (utf8Len s.title) '-'] ++ splitNl s.value ++ [[]])
        ++ rest.flatMap (fun s =>
          [s.title, List.replicate (utf8Len s.title) '-'] ++ splitNl s.value ++ [[]])
        = s.title :: (List.replicate (utf8Len s.title) '-')
          :: ((splitNl s.value ++ [[]]) ++ rest.flatMap (fun s =>
            [s.title, List.replicate (utf8Len s.title) '-'] ++ splitNl s.value ++ [[]])) := by
      simp [List.append_assoc]
    rw [hshape, gooseGo, tight_rtrim _ ht]
    rw [if_neg (tight_ne_nil _ ht)]
    dsimp only
    rw [replicate_rtrim '-' _ hn1 (by decide)]
    rw [isUnderlineOf_replicate '-' _ hn1,
      isUnderlineOf_replicate_ne '=' '-' _ hn1 (by decide)]
    rw [if_pos (by simp)]
    rw [if_neg (by simp)]
    rw [gooseGo]
    rw [gooseGo_inert (splitNl s.value ++ [[]]) _ _ s.title [] rfl
      (fun l hl => by
        rcases List.mem_append.mp hl with hl | hl
        · obtain ⟨htl, hltl, hu1l, hu2l⟩ := hls l hl
          exact ⟨tight_rtrim l htl, startsWith_key_false_of_no_lt l hltl, hu1l, hu2l⟩
        · simp only [List.mem_cons, List.not_mem_nil, or_false] at hl
          subst hl
          exact ⟨rfl, rfl, rfl, rfl⟩)
      (by rw [List.getLast?_append_of_ne_nil _ (by simp)]; rfl)]
    set st1 := (match st.current with
      | some cur => { st with sections := st.sections ++ gooseFinish cur }
      | none => st) with hst1
    obtain ⟨hn, hd, hc, hi⟩ := gooseGo_chunks rest
      { st1 with current := some (s.title, [] ++ (splitNl s.value ++ [[]])) } hrest
      (by
        rw [invFinish]
        dsimp only
        rw [List.nil_append]
        exact joined_value_inv s.value hv)
    refine ⟨?_, ?_, ?_, hi⟩
    · rw [hn, hst1]
      cases st.current <;> rfl
    · rw [hd, hst1]
      cases st.current <;> rfl
    · rw [hc]
      have hstep : gcount { st1 with
          current := some (s.title, [] ++ (splitNl s.value ++ [[]])) } = gcount st + 1 := by
        rw [gcount, gcount, hst1]
        cases hcur : st.current with
        | none => simp
        | some cur =>
          rw [invFinish, hcur] at hinv
          simp [gooseFinish_inv cur hinv]
      rw [hstep]
      simp [List.length_cons]
      omega


theorem dash_all (m : Nat) :
    (List.replicate m '-').all (fun c => c == '=' || c == '-') = true := by
  rw [List.all_eq_true]
  intro x hx
  rw [List.eq_of_mem_replicate hx]
  rfl

theorem replicate_isEmpty (c : Char) (m : Nat) (h : 1 ≤ m) :
    (List.replicate m c).isEmpty = false := by
  cases m with
  | zero => omega
  | succ k => rw [List.replicate_succ]; rfl

theorem goose_secs_length (st : MdParseState) (hi : invFinish st) :
    (match st.current with
      | some cur => st.sections ++ gooseFinish cur
      | none => st.sections).length = gcount st := by
  rw [gcount]
  cases hcur : st.current with
  | none => rfl
  | some cur =>
    rw [invFinish, hcur] at hi
    dsimp only at hi ⊢
    rw [gooseFinish_inv cur hi]
    simp

theorem goose_parse_eval (rule : UniversalRule) (h : wellFormedRule rule = true) :
    (parse_goose_format (Goose.convert_to_tool_format rule)).1 = rule.metadata.name
    ∧ (parse_goose_format (Goose.convert_to_tool_format rule)).2.2.length
        = rule.content.length := by
  obtain ⟨⟨hnt, _, _, _, _, hnu1, hnu2⟩, hdesc, hcne, hsecs, _⟩ := wf_unpack rule h
  have hn1 : 1 ≤ utf8Len rule.metadata.name := utf8Len_pos _ (tight_ne_nil _ hnt)
  have hchunkarg : ∀ s ∈ rule.content, tight s.title = true ∧ tight s.value = true ∧
      (∀ l ∈ splitNl s.value, tight l = true ∧ '<' ∉ l
        ∧ isUnderlineOf '=' l = false ∧ isUnderlineOf '-' l = false) := by
    intro s hs
    obtain ⟨⟨ht1, _⟩, ⟨hv1, _⟩, hls⟩ := hsecs s hs
    exact ⟨ht1, hv1, fun l hl => ⟨(hls l hl).1, (hls l hl).2.2.1,
      (hls l hl).2.2.2.2.1, (hls l hl).2.2.2.2.2⟩⟩
  have hblank : ∀ (a : RStr) (tl : List RStr), rtrim a = a → a ≠ [] →
      (List.takeWhile (fun x => decide (rtrim x = [])) ([] :: a :: tl) = [[]]
        ∧ List.dropWhile (fun x => decide (rtrim x = [])) ([] :: a :: tl) = a :: tl) := by
    intro a tl hra hane
    have hpa : (decide (rtrim a = []) : Bool) = false := by
      rw [hra]
      exact decide_eq_false hane
    constructor
    · rw [List.takeWhile_cons, if_pos (by decide), List.takeWhile_cons, hpa]
      rfl
    · rw [List.dropWhile_cons, if_pos (by decide), List.dropWhile_cons, hpa]
      rfl
  -- after the header phase the loop continues at the section chunks
  have hst : ∃ stm : MdParseState,
      gooseGo (markerComment rule.id :: gooseLines rule)
          ⟨rchars "Imported Rule", none, [], none⟩ 0
        = gooseGo (rule.content.flatMap (fun s =>
            [s.title, List.replicate (utf8Len s.title) '-'] ++ splitNl s.value ++ [[]])) stm 0
      ∧ stm.name = rule.metadata.name ∧ gcount stm = 0 ∧ invFinish stm
      ∧ stm.current = none ∧ stm.sections = [] := by
    cases hcf : rule.content with
    | nil => exact absurd hcf hcne
    | cons s srest =>
      obtain ⟨⟨hts, _⟩, _, _⟩ := hsecs s (by rw [hcf]; exact List.mem_cons_self _ _)
      have hm1 : 1 ≤ utf8Len s.title := utf8Len_pos _ (tight_ne_nil _ hts)
      have hFshape : ((s :: srest).flatMap fun s =>
            [s.title, List.replicate (utf8Len s.title) '-'] ++ splitNl s.value ++ [[]])
          = s.title :: (List.replicate (utf8Len s.title) '-'
            :: ((splitNl s.value ++ [[]]) ++ srest.flatMap (fun s =>
              [s.title, List.replicate (utf8Len s.title) '-'] ++ splitNl s.value ++ [[]]))) := by
        rw [List.flatMap_cons]
        simp [List.append_assoc]
      have hFshapeN : ((s :: srest).flatMap fun s =>
            s.title :: List.replicate (utf8Len s.title) '-' :: (splitNl s.value ++ [[]]))
          = s.title :: List.replicate (utf8Len s.title) '-'
            :: ((splitNl s.value ++ [[]]) ++ srest.flatMap fun s =>
              s.title :: List.replicate (utf8Len s.title) '-' :: (splitNl s.value ++ [[]])) := by
        rw [List.flatMap_cons]
        simp [List.append_assoc]
      rw [gooseLines, hcf]
      have hshape : ([rule.metadata.name, List.replicate (utf8Len rule.metadata.name) '=', []]
            ++ (match rule.metadata.description with
                | some d => [d, []]
                | none => [])
            ++ (s :: srest).flatMap (fun s =>
              [s.title, List.replicate (utf8Len s.title) '-'] ++ splitNl s.value ++ [[]]))
          = rule.metadata.name :: (List.replicate (utf8Len rule.metadata.name) '='
            :: ([] :: ((match rule.metadata.description with
                | some d => ([d, []] : List RStr)
                | none => [])
              ++ (s :: srest).flatMap (fun s =>
                [s.title, List.replicate (utf8Len s.title) '-'] ++ splitNl s.value ++ [[]])))) := by
        simp [List.append_assoc]
      rw [hshape]
      -- the identity-marker line is skipped
      rw [gooseGo, markerComment_rtrim]
      rw [if_neg (markerComment_ne_nil rule.id)]
      dsimp only
      rw [tight_rtrim _ hnt, hnu1, hnu2]
      rw [if_neg (by simp)]
      rw [gooseMid]
      dsimp only
      rw [if_neg (by
        intro hcontra
        have := comment_startsWith_key rule.id []
        rw [List.append_nil] at this
        rw [this] at hcontra
        simp at hcontra)]
      -- the setext `name` heading
      rw [gooseGo]
      rw [tight_rtrim _ hnt]
      rw [if_neg (tight_ne_nil _ hnt)]
      dsimp only
      rw [replicate_rtrim '=' _ hn1 (by decide),
        isUnderlineOf_replicate '=' _ hn1]
      rw [if_pos (by simp), if_pos (by simp)]
      cases hde : rule.metadata.description with
      | some d =>
        obtain ⟨htd, _, _, _, _, _⟩ := hdesc d hde
        simp only [List.cons_append, List.nil_append]
        rw [(hblank d _ (tight_rtrim d htd) (tight_ne_nil d htd)).1,
          (hblank d _ (tight_rtrim d htd) (tight_ne_nil d htd)).2]
        dsimp only
        rw [tight_rtrim d htd]
        rw [if_pos (tight_ne_nil d htd)]
        rw [if_pos (by decide)]
        rw [show (1 + (([[]] : List RStr).length + 1)) = 1 + 1 + 1 from rfl]
        rw [gooseGo, gooseGo, gooseGo]
        rw [hFshapeN]
        rw [gooseGo]
        have h0 : rtrim ([] : RStr) = [] := rfl
        rw [h0, if_pos rfl, gooseElse]
        dsimp only
        rw [if_neg (by simp)]
        rw [← hFshapeN]
        exact ⟨_, rfl, rfl, rfl, by simp [invFinish], rfl, rfl⟩
      | none =>
        simp only [List.nil_append]
        rw [hFshape]
        have hpt : (decide (rtrim s.title = []) : Bool) = false := by
          rw [tight_rtrim _ hts]
          exact decide_eq_false (tight_ne_nil _ hts)
        rw [List.takeWhile_cons, if_pos (by decide), List.takeWhile_cons, hpt]
        rw [List.dropWhile_cons, if_pos (by decide), List.dropWhile_cons, hpt]
        simp only [Bool.false_eq_true, if_false]
        rw [tight_rtrim _ hts]
        rw [if_pos (tight_ne_nil _ hts)]
        rw [replicate_rtrim '-' _ hm1 (by decide)]
        rw [if_neg (by
          rw [dash_all, replicate_isEmpty '-' _ hm1]
          simp)]
        rw [gooseGo, gooseGo]
        have h0 : rtrim ([] : RStr) = [] := rfl
        rw [h0, if_pos rfl, gooseElse]
        dsimp only
        rw [if_neg (by simp)]
        rw [← hFshape]
        exact ⟨_, rfl, rfl, rfl, by simp [invFinish], rfl, rfl⟩
  obtain ⟨stm, heq, hnm, hgc, hinv, _, _⟩ := hst
  obtain ⟨hn, _, hc, hi⟩ := gooseGo_chunks rule.content stm hchunkarg hinv
  simp only [parse_goose_format]
  rw [goose_lines_eq rule h, heq]
  constructor
  · exact hn.trans hnm
  · have hlen := (goose_secs_length _ hi).trans (by rw [hc, hgc, Nat.zero_add])
    have hne : (match (gooseGo (rule.content.flatMap (fun s =>
          [s.title, List.replicate (utf8Len s.title) '-'] ++ splitNl s.value ++ [[]])) stm 0).current with
        | some cur => (gooseGo (rule.content.flatMap (fun s =>
            [s.title, List.replicate (utf8Len s.title) '-'] ++ splitNl s.value ++ [[]])) stm 0).sections
            ++ gooseFinish cur
        | none => (gooseGo (rule.content.flatMap (fun s =>
            [s.title, List.replicate (utf8Len s.title) '-'] ++ splitNl s.value ++ [[]])) stm 0).sections) ≠ [] := by
      intro he
      rw [he] at hlen
      simp at hlen
      exact hcne (List.length_eq_zero.mp hlen.symm)
    rw [if_neg (by
      intro hcontra
      exact hne (List.isEmpty_iff.mp hcontra.1))]
    rw [hlen]


theorem cursorFMLines_facts (rule : UniversalRule) (h : cursorLineSafe rule = true) :
    ∀ l ∈ cursorFMLines rule, '\n' ∉ l ∧ stripCr l = l := by
  rw [cursorLineSafe, Bool.and_eq_true, Bool.and_eq_true] at h
  obtain ⟨⟨hname, hdesc⟩, hconds⟩ := h
  rw [decide_eq_true_eq] at hname
  intro l hl
  have hlit : ∀ (s : String), (∀ c ∈ s.data, c ≠ '\n') → ∀ x : RStr, '\n' ∉ x →
      '\n' ∉ rchars s ++ x := by
    intro s hs x hx hm
    rcases List.mem_append.mp hm with hm | hm
    · exact hs '\n' hm rfl
    · exact hx hm
  have hq : ∀ (s : String) (x : RStr), stripCr (rchars s ++ (x ++ ['"'])) =
      rchars s ++ (x ++ ['"']) := by
    intro s x
    apply stripCr_last_ne
    rw [List.getLast?_append_of_ne_nil (rchars s) (by simp),
      List.getLast?_concat]
    simp
  rw [cursorFMLines, List.append_assoc, List.append_assoc] at hl
  simp only [List.mem_append, List.mem_cons, List.not_mem_nil, or_false] at hl
  rcases hl with hl | hl | hl | hl | hl | hl
  · subst hl; exact ⟨by decide, rfl⟩
  · cases hde : rule.metadata.description with
    | none =>
      rw [hde] at hl
      simp only [List.mem_cons, List.not_mem_nil, or_false] at hl
      subst hl
      refine ⟨hlit "description: \"" (by decide) _ ?_, hq "description: \"" _⟩
      intro hm
      rcases List.mem_append.mp hm with hm | hm
      · exact hname hm
      · simp at hm
    | some d =>
      rw [hde] at hl hdesc
      simp only [decide_eq_true_eq] at hdesc
      dsimp only at hl
      rw [if_neg hdesc] at hl
      simp only [List.mem_append, List.mem_cons, List.not_mem_nil, or_false] at hl
      rcases hl with hl | hl
      · subst hl
        refine ⟨hlit "description: \"" (by decide) _ ?_, hq "description: \"" _⟩
        intro hm
        rcases List.mem_append.mp hm with hm | hm
        · exact hdesc hm
        · simp at hm
      · subst hl
        refine ⟨hlit "notes: \"Rule: " (by decide) _ ?_, hq "notes: \"Rule: " _⟩
        intro hm
        rcases List.mem_append.mp hm with hm | hm
        · exact hname hm
        · simp at hm
  · by_cases hg : Cursor.resolved_apply_mode rule = rchars "specific_files"
        ∧ ¬rule.conditions.isEmpty
    · rw [if_pos hg] at hl
      simp only [List.mem_cons] at hl
      rcases hl with hl | hl
      · subst hl; exact ⟨by decide, rfl⟩
      · rw [List.mem_flatMap] at hl
        obtain ⟨c, hc, hlc⟩ := hl
        cases c with
        | regex v => simp [cursorGlobLine] at hlc
        | filePattern v =>
          have hv := List.all_eq_true.mp hconds _ hc
          simp only [decide_eq_true_eq] at hv
          simp only [cursorGlobLine, List.mem_cons, List.not_mem_nil, or_false] at hlc
          subst hlc
          refine ⟨hlit "  - \"" (by decide) _ ?_, hq "  - \"" _⟩
          intro hm
          rcases List.mem_append.mp hm with hm | hm
          · exact hv hm
          · simp at hm
    · rw [if_neg hg] at hl
      simp at hl
  · subst hl
    constructor
    · refine hlit "alwaysApply: " (by decide) _ ?_
      cases Cursor.alwaysApplyFlag rule <;> decide
    · cases Cursor.alwaysApplyFlag rule <;> rfl
  · subst hl; exact ⟨by decide, rfl⟩
  · subst hl; exact ⟨by simp, rfl⟩

theorem wf_cursorLineSafe (rule : UniversalRule) (h : wellFormedRule rule = true) :
    cursorLineSafe rule = true := by
  obtain ⟨⟨_, hn2, _⟩, hdesc, _, _, _, _, hconds⟩ := wf_unpack rule h
  rw [cursorLineSafe, Bool.and_eq_true, Bool.and_eq_true]
  refine ⟨⟨by simpa using hn2, ?_⟩, ?_⟩
  · cases hde : rule.metadata.description with
    | none => rfl
    | some d =>
      obtain ⟨_, hd2, _⟩ := hdesc d hde
      simpa using hd2
  · rw [List.all_eq_true]
    intro c hc
    cases c with
    | regex v => rfl
    | filePattern v =>
      obtain ⟨hv1, _, _⟩ := hconds v hc
      simpa using hv1

theorem cursorBodyLines_facts (rule : UniversalRule) (h : wellFormedRule rule = true) :
    ∀ l ∈ cursorBodyLines rule, '\n' ∉ l ∧ '\r' ∉ l := by
  obtain ⟨_, _, _, hsecs, _, hrefs, _⟩ := wf_unpack rule h
  intro l hl
  rw [cursorBodyLines] at hl
  rcases List.mem_append.mp hl with hl | hl
  · rw [List.mem_flatMap] at hl
    obtain ⟨s, hs, hls⟩ := hl
    obtain ⟨⟨_, ht2, ht3, _⟩, ⟨_, hv2, _⟩, _⟩ := hsecs s hs
    rw [chunkLinesMd, List.append_assoc] at hls
    simp only [List.mem_append, List.mem_cons, List.not_mem_nil, or_false] at hls
    rcases hls with (hls | hls) | hls | hls
    · subst hls
      constructor <;> (intro hm; rcases List.mem_append.mp hm with hm | hm)
      · exact absurd hm (by decide)
      · exact ht2 hm
      · exact absurd hm (by decide)
      · exact ht3 hm
    · subst hls; constructor <;> simp
    · constructor <;> intro hm
      · exact (splitNl_pieces s.value l hls '\n' hm).2 rfl
      · exact hv2 (splitNl_pieces s.value l hls '\r' hm).1
    · subst hls; constructor <;> simp
  · rw [List.mem_map] at hl
    obtain ⟨r, hr, hrl⟩ := hl
    obtain ⟨_, hp2, hp3⟩ := hrefs r hr
    subst hrl
    constructor <;> intro hm
    · rcases List.mem_cons.mp hm with hm | hm
      · exact absurd hm (by decide)
      · exact hp2 hm
    · rcases List.mem_cons.mp hm with hm | hm
      · exact absurd hm (by decide)
      · exact hp3 hm

theorem cursor_lines_eq (rule : UniversalRule) (h : wellFormedRule rule = true) :
    rustLines (Cursor.convert_to_tool_format rule)
      = cursorFMLines rule ++ cursorBodyLines rule := by
  have hfm := cursorFMLines_facts rule (wf_cursorLineSafe rule h)
  have hbody := cursorBodyLines_facts rule h
  rw [cursor_text_eq, rustLines_unlines _ (fun l hl => by
    rcases List.mem_append.mp hl with hl | hl
    · exact (hfm l hl).1
    · exact (hbody l hl).1)]
  apply map_id_of
  intro l hl
  rcases List.mem_append.mp hl with hl | hl
  · exact (hfm l hl).2
  · exact stripCr_of_no_cr l (hbody l hl).2


theorem takeWhile_append_all_gen {α : Type} {p : α → Bool} :
    ∀ (a b : List α), (∀ x ∈ a, p x = true) →
    (a ++ b).takeWhile p = a ++ b.takeWhile p
  | [], _, _ => rfl
  | c :: a, b, h => by
    rw [List.cons_append, List.takeWhile_cons, h c (List.mem_cons_self _ _),
      takeWhile_append_all_gen a b (fun x hx => h x (List.mem_cons_of_mem _ hx))]
    rfl

theorem dropWhile_append_all_gen {α : Type} {p : α → Bool} :
    ∀ (a b : List α), (∀ x ∈ a, p x = true) →
    (a ++ b).dropWhile p = b.dropWhile p
  | [], _, _ => rfl
  | c :: a, b, h => by
    rw [List.cons_append, List.dropWhile_cons, h c (List.mem_cons_self _ _)]
    simp only [if_true]
    exact dropWhile_append_all_gen a b (fun x hx => h x (List.mem_cons_of_mem _ hx))

theorem parseQuoted_wrap (x : RStr) (hx : '"' ∉ x) :
    Cursor.parseQuoted ('"' :: (x ++ ['"'])) = some x := by
  rw [Cursor.parseQuoted]
  rw [if_pos ⟨strEndsWith_append_right x ['"'], by simp⟩]
  have hlen : (x ++ ['"']).length - 1 = x.length := by
    rw [List.length_append]
    simp
  rw [hlen, List.take_left' rfl, if_neg hx]

theorem pfm_desc (x : RStr) (rest : List RStr) (fm : Cursor.Frontmatter)
    (hx : '"' ∉ x) :
    Cursor.parseFMLines ((rchars "description: \"" ++ x ++ ['"']) :: rest) fm
      = Cursor.parseFMLines rest { fm with description := some x } := by
  have hform : rchars "description: \"" ++ x ++ ['"']
      = rchars "description: " ++ ('"' :: (x ++ ['"'])) := by
    rw [List.append_assoc]
    rfl
  rw [hform, Cursor.parseFMLines]
  rw [if_neg (by simp)]
  rw [if_neg (by
    intro he
    have h13 : (rchars "description: " ++ ('"' :: (x ++ ['"'])))[13]?
        = (rchars "description: |")[13]? := by rw [he]
    rw [List.getElem?_append_right (by decide)] at h13
    rw [show 13 - (rchars "description: ").length = 0 from rfl] at h13
    rw [List.getElem?_cons_zero] at h13
    exact absurd h13 (by decide))]
  rw [if_pos (strStartsWith_append_self _ _)]
  have hdrop : List.drop 13 (rchars "description: " ++ ('"' :: (x ++ ['"'])))
      = '"' :: (x ++ ['"']) := List.drop_left' rfl
  rw [hdrop, parseQuoted_wrap x hx]
  rfl

theorem pfm_notes (x : RStr) (rest : List RStr) (fm : Cursor.Frontmatter)
    (hx : '"' ∉ x) :
    Cursor.parseFMLines ((rchars "notes: \"" ++ x ++ ['"']) :: rest) fm
      = Cursor.parseFMLines rest { fm with notes := some x } := by
  have hform : rchars "notes: \"" ++ x ++ ['"']
      = rchars "notes: " ++ ('"' :: (x ++ ['"'])) := by
    rw [List.append_assoc]
    rfl
  rw [hform, Cursor.parseFMLines]
  rw [if_neg (by simp)]
  rw [if_neg (by
    intro he
    have h0 : (rchars "notes: " ++ ('"' :: (x ++ ['"'])))[0]?
        = (rchars "description: |")[0]? := by rw [he]
    rw [List.getElem?_append_left (by decide)] at h0
    exact absurd h0 (by decide))]
  have hds : strStartsWith (rchars "notes: " ++ ('"' :: (x ++ ['"'])))
      (rchars "description: ") = false := rfl
  rw [hds]
  simp only [Bool.false_eq_true, if_false]
  rw [if_pos (strStartsWith_append_self _ _)]
  have hdrop : List.drop 7 (rchars "notes: " ++ ('"' :: (x ++ ['"'])))
      = '"' :: (x ++ ['"']) := List.drop_left' rfl
  rw [hdrop, parseQuoted_wrap x hx]
  rfl

theorem globs_mapM : ∀ (conds : List RuleCondition),
    (∀ v, RuleCondition.filePattern v ∈ conds → '"' ∉ v) →
    (conds.flatMap cursorGlobLine).mapM (fun x => Cursor.parseQuoted (x.drop 4))
      = some (conds.flatMap (fun c => match c with
          | .filePattern v => [v]
          | .regex _ => []))
  | [], _ => rfl
  | c :: conds, h => by
    cases c with
    | regex v =>
      rw [List.flatMap_cons, List.flatMap_cons]
      show (conds.flatMap cursorGlobLine).mapM (fun x => Cursor.parseQuoted (x.drop 4)) = _
      rw [globs_mapM conds (fun v hv => h v (List.mem_cons_of_mem _ hv))]
      rfl
    | filePattern v =>
      rw [List.flatMap_cons, List.flatMap_cons]
      show ((rchars "  - \"" ++ v ++ ['"']) :: conds.flatMap cursorGlobLine).mapM
          (fun x => Cursor.parseQuoted (x.drop 4)) = _
      rw [List.mapM_cons]
      have hform : rchars "  - \"" ++ v ++ ['"'] = rchars "  - " ++ ('"' :: (v ++ ['"'])) := by
        rw [List.append_assoc]
        rfl
      have hdrop : (rchars "  - \"" ++ v ++ ['"']).drop 4 = '"' :: (v ++ ['"']) := by
        rw [hform]
        exact List.drop_left' rfl
      rw [hdrop, parseQuoted_wrap v (h v (List.mem_cons_self _ _))]
      rw [globs_mapM conds (fun v hv => h v (List.mem_cons_of_mem _ hv))]
      rfl

theorem items_startsWith (conds : List RuleCondition) :
    ∀ x ∈ conds.flatMap cursorGlobLine, strStartsWith x (rchars "  - ") = true := by
  intro x hx
  rw [List.mem_flatMap] at hx
  obtain ⟨c, _, hxc⟩ := hx
  cases c with
  | regex v => simp [cursorGlobLine] at hxc
  | filePattern v =>
    simp only [cursorGlobLine, List.mem_cons, List.not_mem_nil, or_false] at hxc
    subst hxc
    have hform : rchars "  - \"" ++ v ++ ['"'] = rchars "  - " ++ ('"' :: (v ++ ['"'])) := by
      rw [List.append_assoc]
      rfl
    rw [hform]
    exact strStartsWith_append_self _ _

theorem pfm_globs (conds : List RuleCondition) (alw : RStr) (rest : List RStr)
    (fm : Cursor.Frontmatter)
    (hq : ∀ v, RuleCondition.filePattern v ∈ conds → '"' ∉ v)
    (halw : strStartsWith alw (rchars "  - ") = false) :
    Cursor.parseFMLines (rchars "globs:" :: (conds.flatMap cursorGlobLine ++ (alw :: rest))) fm
      = Cursor.parseFMLines (alw :: rest)
          { fm with globs := some (conds.flatMap (fun c => match c with
              | .filePattern v => [v]
              | .regex _ => [])) } := by
  rw [Cursor.parseFMLines]
  rw [if_neg (by decide), if_neg (by decide)]
  have hd : strStartsWith (rchars "globs:") (rchars "description: ") = false := rfl
  have hn : strStartsWith (rchars "globs:") (rchars "notes: ") = false := rfl
  rw [hd, hn]
  simp only [Bool.false_eq_true, if_false]
  rw [if_pos trivial]
  rw [takeWhile_append_all_gen _ _ (items_startsWith conds),
    dropWhile_append_all_gen _ _ (items_startsWith conds)]
  rw [List.takeWhile_cons, halw]
  simp only [Bool.false_eq_true, if_false, List.append_nil]
  rw [List.dropWhile_cons, halw]
  simp only [Bool.false_eq_true, if_false]
  rw [globs_mapM conds hq]
  rfl

theorem pfm_always (flag : Bool) (fm : Cursor.Frontmatter) :
    Cursor.parseFMLines
        [rchars "alwaysApply: " ++ (if flag then rchars "true" else rchars "false")] fm
      = some { fm with alwaysApply := some flag } := by
  cases flag
  case false =>
    show Cursor.parseFMLines [rchars "alwaysApply: false"] fm = _
    rw [Cursor.parseFMLines]
    rw [if_neg (by decide), if_neg (by decide)]
    have h1 : strStartsWith (rchars "alwaysApply: false") (rchars "description: ") = false := by
      decide
    have h2 : strStartsWith (rchars "alwaysApply: false") (rchars "notes: ") = false := by
      decide
    rw [h1, h2]
    simp only [Bool.false_eq_true, if_false]
    rw [if_neg (by decide), if_neg (by decide), if_pos trivial]
    rw [Cursor.parseFMLines]
  case true =>
    show Cursor.parseFMLines [rchars "alwaysApply: true"] fm = _
    rw [Cursor.parseFMLines]
    rw [if_neg (by decide), if_neg (by decide)]
    have h1 : strStartsWith (rchars "alwaysApply: true") (rchars "description: ") = false := by
      decide
    have h2 : strStartsWith (rchars "alwaysApply: true") (rchars "notes: ") = false := by
      decide
    rw [h1, h2]
    simp only [Bool.false_eq_true, if_false]
    rw [if_neg (by decide), if_pos trivial]
    rw [Cursor.parseFMLines]


theorem unlines_cons (l : RStr) (ls : List RStr) :
    unlines (l :: ls) = l ++ ('\n' :: unlines ls) := by
  rw [unlines, List.flatMap_cons, ← unlines, List.append_assoc]
  rfl

theorem ne_head_append (c : Char) (pre tail : RStr) (d : Char) (rest : RStr) (h : c ≠ d) :
    (c :: pre) ++ tail ≠ d :: rest := by
  intro he
  rw [List.cons_append] at he
  injection he with h1 _
  exact h h1

theorem ne_head2_append (c e : Char) (pre tail : RStr) (d f : Char) (rest : RStr)
    (h : e ≠ f) : (c :: e :: pre) ++ tail ≠ d :: f :: rest := by
  intro he
  rw [List.cons_append] at he
  injection he with _ he2
  rw [List.cons_append] at he2
  injection he2 with h2 _
  exact h h2

theorem rtrim_cons_quote (c : Char) (pre X : RStr) (hc : isRustWs c = false) :
    rtrim ((c :: pre) ++ X ++ ['"']) = (c :: pre) ++ X ++ ['"'] :=
  head_last_rtrim _ c ((pre ++ X) ++ ['"']) '"' rfl hc
    (by
      rw [show (c :: pre) ++ X ++ ['"'] = ((c :: pre) ++ X) ++ ['"'] from rfl]
      exact List.getLast?_concat _)
    (by decide)

theorem rtrim_item (v : RStr) :
    rtrim (rchars "  - \"" ++ v ++ ['"']) = rchars "- \"" ++ v ++ ['"'] := by
  rw [show rchars "  - \"" ++ v ++ ['"']
      = ' ' :: (' ' :: (rchars "- \"" ++ v ++ ['"'])) from rfl]
  rw [rtrim_cons_ws _ _ (by decide), rtrim_cons_ws _ _ (by decide)]
  exact rtrim_cons_quote '-' (rchars " \"") v (by decide)

/-- The frontmatter lines of the cursor export strictly between the two
`---` delimiters. -/
def cursorFMMid (rule : UniversalRule) : List RStr :=
  (match rule.metadata.description with
      | some desc =>
        (if '\n' ∈ desc then
          rchars "description: |" :: (rustLines desc).map (fun line => rchars "  " ++ line)
        else [rchars "description: \"" ++ desc ++ ['"']])
        ++ [rchars "notes: \"Rule: " ++ rule.metadata.name ++ ['"']]
      | none => [rchars "description: \"" ++ rule.metadata.name ++ ['"']])
  ++ (if Cursor.resolved_apply_mode rule = rchars "specific_files"
        ∧ ¬rule.conditions.isEmpty then
        rchars "globs:" :: rule.conditions.flatMap cursorGlobLine
      else [])
  ++ [rchars "alwaysApply: "
        ++ (if Cursor.alwaysApplyFlag rule then rchars "true" else rchars "false")]

theorem fm_shape (rule : UniversalRule) :
    cursorFMLines rule = rchars "---" :: (cursorFMMid rule ++ [rchars "---", []]) := by
  rw [cursorFMLines, cursorFMMid]
  simp only [List.append_assoc, List.cons_append, List.singleton_append, List.nil_append]

theorem fmMid_keeps (rule : UniversalRule) (h : wellFormedRule rule = true) :
    ∀ l ∈ cursorFMMid rule, decide (rtrim l ≠ rchars "---") = true := by
  obtain ⟨_, hdesc, _⟩ := wf_unpack rule h
  intro l hl
  rw [decide_eq_true_eq]
  rw [cursorFMMid, List.append_assoc] at hl
  simp only [List.mem_append, List.mem_cons, List.not_mem_nil, or_false] at hl
  rcases hl with hl | hl | hl
  · cases hde : rule.metadata.description with
    | none =>
      rw [hde] at hl
      simp only [List.mem_cons, List.not_mem_nil, or_false] at hl
      subst hl
      rw [show rchars "description: \"" ++ rule.metadata.name ++ ['"']
          = ('d' :: rchars "escription: \"") ++ rule.metadata.name ++ ['"'] from rfl]
      rw [rtrim_cons_quote _ _ _ (by decide)]
      rw [List.append_assoc]
      exact ne_head_append _ _ _ _ _ (by decide)
    | some d =>
      obtain ⟨_, hd2, _⟩ := hdesc d hde
      rw [hde] at hl
      dsimp only at hl
      rw [if_neg hd2] at hl
      simp only [List.mem_append, List.mem_cons, List.not_mem_nil, or_false] at hl
      rcases hl with hl | hl
      · subst hl
        rw [show rchars "description: \"" ++ d ++ ['"']
            = ('d' :: rchars "escription: \"") ++ d ++ ['"'] from rfl]
        rw [rtrim_cons_quote _ _ _ (by decide)]
        rw [List.append_assoc]
        exact ne_head_append _ _ _ _ _ (by decide)
      · subst hl
        rw [show rchars "notes: \"Rule: " ++ rule.metadata.name ++ ['"']
            = ('n' :: rchars "otes: \"Rule: ") ++ rule.metadata.name ++ ['"'] from rfl]
        rw [rtrim_cons_quote _ _ _ (by decide)]
        rw [List.append_assoc]
        exact ne_head_append _ _ _ _ _ (by decide)
  · by_cases hg : Cursor.resolved_apply_mode rule = rchars "specific_files"
        ∧ ¬rule.conditions.isEmpty
    · rw [if_pos hg] at hl
      simp only [List.mem_cons] at hl
      rcases hl with hl | hl
      · subst hl; decide
      · rw [List.mem_flatMap] at hl
        obtain ⟨c, _, hlc⟩ := hl
        cases c with
        | regex v => simp [cursorGlobLine] at hlc
        | filePattern v =>
          simp only [cursorGlobLine, List.mem_cons, List.not_mem_nil, or_false] at hlc
          subst hlc
          rw [rtrim_item]
          rw [show rchars "- \"" ++ v ++ ['"']
              = ('-' :: ' ' :: rchars "\"") ++ (v ++ ['"']) from List.append_assoc _ _ _]
          exact ne_head2_append _ _ _ _ _ _ _ (by decide)
    · rw [if_neg hg] at hl
      simp at hl
  · subst hl
    cases Cursor.alwaysApplyFlag rule <;> decide


theorem cursor_parse_split (rule : UniversalRule) (h : wellFormedRule rule = true) :
    Cursor.parse_cursor_format (Cursor.convert_to_tool_format rule)
      = (Cursor.parseFMLines (cursorFMMid rule) Cursor.emptyFM).map
          (fun fm => (fm, rtrim (joinNl ([] :: cursorBodyLines rule)))) := by
  have hsw : strStartsWith (Cursor.convert_to_tool_format rule) (rchars "---") = true := by
    rw [cursor_text_eq, fm_shape, List.cons_append, unlines_cons]
    exact strStartsWith_append_self _ _
  rw [Cursor.parse_cursor_format, if_pos hsw]
  rw [cursor_lines_eq rule h, fm_shape, List.cons_append, List.drop_one, List.tail_cons]
  rw [List.append_assoc]
  rw [show ([rchars "---", ([] : RStr)] : List RStr) ++ cursorBodyLines rule
      = rchars "---" :: ([] :: cursorBodyLines rule) from rfl]
  dsimp only
  rw [takeWhile_append_all_gen _ _ (fmMid_keeps rule h),
    dropWhile_append_all_gen _ _ (fmMid_keeps rule h)]
  rw [List.takeWhile_cons, List.dropWhile_cons]
  have hstop : decide (rtrim (rchars "---") ≠ rchars "---") = false := by decide
  rw [hstop]
  simp only [Bool.false_eq_true, if_false, List.append_nil]


/-- The frontmatter value recovered when re-importing a cursor export. -/
def cursorExportFM (rule : UniversalRule) : Cursor.Frontmatter :=
  { description := some (match rule.metadata.description with
      | some d => d
      | none => rule.metadata.name),
    notes := (match rule.metadata.description with
      | some _ => some (rchars "Rule: " ++ rule.metadata.name)
      | none => none),
    globs := (if Cursor.resolved_apply_mode rule = rchars "specific_files"
        ∧ ¬rule.conditions.isEmpty then
        some (rule.conditions.flatMap (fun c => match c with
          | .filePattern v => [v]
          | .regex _ => []))
      else none),
    alwaysApply := some (Cursor.alwaysApplyFlag rule) }

theorem cursor_fm_eval (rule : UniversalRule) (h : wellFormedRule rule = true) :
    Cursor.parseFMLines (cursorFMMid rule) Cursor.emptyFM = some (cursorExportFM rule) := by
  obtain ⟨⟨_, _, _, _, hn5, _⟩, hdesc, _, _, _, _, hconds⟩ := wf_unpack rule h
  rw [cursorFMMid, cursorExportFM]
  have halw : strStartsWith (rchars "alwaysApply: "
      ++ (if Cursor.alwaysApplyFlag rule then rchars "true" else rchars "false"))
      (rchars "  - ") = false := by
    cases Cursor.alwaysApplyFlag rule <;> rfl
  cases hde : rule.metadata.description with
  | none =>
    dsimp only
    by_cases hg : Cursor.resolved_apply_mode rule = rchars "specific_files"
        ∧ ¬rule.conditions.isEmpty
    · rw [if_pos hg, if_pos hg]
      simp only [List.cons_append, List.nil_append, List.singleton_append]
      rw [pfm_desc _ _ _ hn5]
      rw [pfm_globs _ _ _ _ (fun v hv => (hconds v hv).2.2) halw]
      rw [pfm_always]
      rfl
    · rw [if_neg hg, if_neg hg]
      simp only [List.cons_append, List.nil_append, List.singleton_append, List.append_nil]
      rw [pfm_desc _ _ _ hn5]
      rw [pfm_always]
      rfl
  | some d =>
    obtain ⟨_, hd2, _, _, hd5, _⟩ := hdesc d hde
    have hnq : '"' ∉ rchars "Rule: " ++ rule.metadata.name := by
      intro hm
      rcases List.mem_append.mp hm with hm | hm
      · exact absurd hm (by decide)
      · exact hn5 hm
    dsimp only
    rw [if_neg hd2]
    by_cases hg : Cursor.resolved_apply_mode rule = rchars "specific_files"
        ∧ ¬rule.conditions.isEmpty
    · rw [if_pos hg, if_pos hg]
      simp only [List.cons_append, List.nil_append, List.singleton_append]
      rw [pfm_desc _ _ _ hd5]
      rw [show rchars "notes: \"Rule: " ++ rule.metadata.name ++ ['"']
          = rchars "notes: \"" ++ (rchars "Rule: " ++ rule.metadata.name) ++ ['"'] from by
        rw [List.append_assoc, List.append_assoc]
        rfl]
      rw [pfm_notes _ _ _ hnq]
      rw [pfm_globs _ _ _ _ (fun v hv => (hconds v hv).2.2) halw]
      rw [pfm_always]
    · rw [if_neg hg, if_neg hg]
      simp only [List.cons_append, List.nil_append, List.singleton_append, List.append_nil]
      rw [pfm_desc _ _ _ hd5]
      rw [show rchars "notes: \"Rule: " ++ rule.metadata.name ++ ['"']
          = rchars "notes: \"" ++ (rchars "Rule: " ++ rule.metadata.name) ++ ['"'] from by
        rw [List.append_assoc, List.append_assoc]
        rfl]
      rw [pfm_notes _ _ _ hnq]
      rw [pfm_always]
      rfl


theorem joinNl_getLast? : ∀ (L : List RStr) (x : RStr), L.getLast? = some x → x ≠ [] →
    (joinNl L).getLast? = x.getLast?
  | [], x, hx, _ => by simp at hx
  | [y], x, hx, _ => by
    rw [List.getLast?_singleton] at hx
    injection hx with hx
    subst hx
    rfl
  | y :: y2 :: ys, x, hx, hne => by
    rw [List.getLast?_cons_cons] at hx
    have ih := joinNl_getLast? (y2 :: ys) x hx hne
    rw [joinNl_cons_ne y (y2 :: ys) (by simp)]
    rw [List.getLast?_append_of_ne_nil y (by simp)]
    cases hJ : joinNl (y2 :: ys) with
    | nil =>
      exfalso
      obtain ⟨c, s', rfl⟩ : ∃ c s', x = c :: s' := by
        cases x with
        | nil => cases hne rfl
        | cons c s' => exact ⟨c, s', rfl⟩
      rw [hJ, List.getLast?_eq_getLast (c :: s') (by simp)] at ih
      exact Option.noConfusion ih
    | cons j js =>
      rw [hJ] at ih
      rw [List.getLast?_cons_cons, ih]

/-- The lines of the markdown document recovered from a cursor export's
body once the surrounding blank lines are trimmed away: the sections with
`# ` headers, separated by blank lines, without the final blank run. -/
def secsLinesCursor : List RuleContent → List RStr
  | [] => []
  | [s] => [rchars "# " ++ s.title, []] ++ splitNl s.value
  | s :: s2 :: rest => [rchars "# " ++ s.title, []] ++ splitNl s.value ++ [[]]
      ++ secsLinesCursor (s2 :: rest)

theorem chunks_shape : ∀ (secs : List RuleContent), secs ≠ [] →
    secs.flatMap (chunkLinesMd "# ") = secsLinesCursor secs ++ [[]]
  | [], h => absurd rfl h
  | [s], _ => by
    rw [List.flatMap_cons, List.flatMap_nil, List.append_nil, chunkLinesMd, secsLinesCursor]
  | s :: s2 :: rest, _ => by
    rw [List.flatMap_cons, chunks_shape (s2 :: rest) (by simp), chunkLinesMd, secsLinesCursor]
    simp [List.append_assoc]

theorem secsLines_head : ∀ (s : RuleContent) (rest : List RuleContent),
    ∃ tl, secsLinesCursor (s :: rest) = (rchars "# " ++ s.title) :: tl ∧ tl ≠ []
  | s, [] => ⟨([] : RStr) :: splitNl s.value, rfl, by simp⟩
  | s, s2 :: rest => by
    refine ⟨([] : RStr) :: (splitNl s.value ++ ([] :: secsLinesCursor (s2 :: rest))), ?_, by simp⟩
    rw [secsLinesCursor]
    simp [List.append_assoc]

theorem secsLines_ne_nil (s : RuleContent) (rest : List RuleContent) :
    secsLinesCursor (s :: rest) ≠ [] := by
  obtain ⟨tl, heq, _⟩ := secsLines_head s rest
  rw [heq]
  simp

theorem secsLines_last : ∀ (s : RuleContent) (rest : List RuleContent),
    (∀ x ∈ s :: rest, ∀ l ∈ splitNl x.value, tight l = true) →
    ∃ ll, (secsLinesCursor (s :: rest)).getLast? = some ll ∧ tight ll = true
  | s, [], hf => by
    rw [secsLinesCursor]
    rw [List.getLast?_append_of_ne_nil _ (splitNl_ne_nil s.value)]
    obtain ⟨ll, hll⟩ : ∃ ll, (splitNl s.value).getLast? = some ll :=
      ⟨(splitNl s.value).getLast (splitNl_ne_nil s.value),
        List.getLast?_eq_getLast _ (splitNl_ne_nil s.value)⟩
    exact ⟨ll, hll, hf s (List.mem_cons_self _ _) ll (List.mem_of_mem_getLast? hll)⟩
  | s, s2 :: rest, hf => by
    rw [secsLinesCursor]
    rw [List.getLast?_append_of_ne_nil _ (secsLines_ne_nil s2 rest)]
    exact secsLines_last s2 rest (fun x hx => hf x (List.mem_cons_of_mem _ hx))

/-- The lines of the trimmed markdown body of a cursor export. -/
def cursorTrimmedLines (rule : UniversalRule) : List RStr :=
  secsLinesCursor rule.content
  ++ (match rule.references with
      | [] => []
      | _ :: _ => ([] : RStr) :: rule.references.map (fun r => '@' :: r.path))


theorem cursor_md_lines (rule : UniversalRule) (h : wellFormedRule rule = true) :
    rustLines (rtrim (joinNl (([] : RStr) :: cursorBodyLines rule)))
      = cursorTrimmedLines rule := by
  obtain ⟨_, _, hcne, hsecs, _, hrefs, _⟩ := wf_unpack rule h
  have hbody := cursorBodyLines_facts rule h
  have hfacts : ∀ x ∈ rule.content, ∀ l ∈ splitNl x.value, tight l = true :=
    fun x hx l hl => ((hsecs x hx).2.2 l hl).1
  obtain ⟨s, srest, hcontent⟩ : ∃ s srest, rule.content = s :: srest := by
    cases hc : rule.content with
    | nil => exact absurd hc hcne
    | cons s srest => exact ⟨s, srest, rfl⟩
  obtain ⟨tl, hhead, htlne⟩ := secsLines_head s srest
  obtain ⟨ll, hll, htll⟩ := secsLines_last s srest (by rw [← hcontent]; exact hfacts)
  obtain ⟨d, hd, hdw⟩ := tight_last ll htll
  have hsub : ∀ l ∈ secsLinesCursor (s :: srest), l ∈ cursorBodyLines rule := by
    intro l hl
    rw [cursorBodyLines, hcontent, chunks_shape (s :: srest) (by simp)]
    exact List.mem_append_left _ (List.mem_append_left _ hl)
  rw [cursorBodyLines, cursorTrimmedLines, hcontent, chunks_shape (s :: srest) (by simp)]
  cases hrefs0 : rule.references with
  | nil =>
    rw [List.map_nil, List.append_nil]
    rw [joinNl_cons_ne _ _ (by simp), List.nil_append]
    rw [rtrim_cons_ws _ _ (by decide)]
    rw [joinNl_append_single _ _ (secsLines_ne_nil s srest)]
    rw [rtrim_append_ws _ _ (by decide)]
    have hh : joinNl (secsLinesCursor (s :: srest))
        = '#' :: ((rchars " " ++ s.title) ++ ('\n' :: joinNl tl)) := by
      rw [hhead, joinNl_cons_ne _ _ htlne]
      rfl
    have hgl : (joinNl (secsLinesCursor (s :: srest))).getLast? = some d := by
      rw [joinNl_getLast? _ ll hll (tight_ne_nil ll htll), hd]
    rw [head_last_rtrim _ '#' _ d hh (by decide) hgl hdw]
    rw [rustLines_joinNl _ (secsLines_ne_nil s srest)
      (fun l hl => (hbody l (hsub l hl)).1)
      (fun l hl => (hbody l (hsub l hl)).2)
      (by intro he; rw [hll] at he; injection he with he; exact tight_ne_nil ll htll he)]
    simp
  | cons r rs =>
    rw [hhead]
    rw [joinNl_cons_ne _ _ (by simp), List.nil_append]
    rw [rtrim_cons_ws _ _ (by decide)]
    simp only [List.cons_append]
    obtain ⟨rl, hrl⟩ : ∃ rl, (r :: rs).getLast? = some rl :=
      ⟨_, List.getLast?_eq_getLast _ (by simp)⟩
    have hrlmem : rl ∈ rule.references := by
      rw [hrefs0]
      exact List.mem_of_mem_getLast? hrl
    obtain ⟨hpt, _, _⟩ := hrefs rl hrlmem
    obtain ⟨dp, hdp, hdpw⟩ := tight_last rl.path hpt
    have hh : joinNl ((rchars "# " ++ s.title)
          :: ((tl ++ [[]]) ++ (r :: rs).map (fun x => '@' :: x.path)))
        = '#' :: ((rchars " " ++ s.title)
          ++ ('\n' :: joinNl ((tl ++ [[]]) ++ (r :: rs).map (fun x => '@' :: x.path)))) := by
      rw [joinNl_cons_ne _ _ (by simp)]
      rfl
    have hgl2 : ((rchars "# " ++ s.title)
          :: ((tl ++ [[]]) ++ (r :: rs).map (fun x => '@' :: x.path))).getLast?
        = some ('@' :: rl.path) := by
      rw [show (rchars "# " ++ s.title)
            :: ((tl ++ [[]]) ++ (r :: rs).map (fun x => '@' :: x.path))
          = ((rchars "# " ++ s.title) :: (tl ++ [[]]))
            ++ (r :: rs).map (fun x => '@' :: x.path) from rfl]
      rw [List.getLast?_append_of_ne_nil _ (by simp), List.getLast?_map, hrl]
      rfl
    have hxlast : (('@' :: rl.path) : RStr).getLast? = some dp := by
      cases hp : rl.path with
      | nil => exact absurd hp (tight_ne_nil _ hpt)
      | cons p ps =>
        rw [hp] at hdp
        rw [List.getLast?_cons_cons]
        exact hdp
    have hgl : (joinNl ((rchars "# " ++ s.title)
          :: ((tl ++ [[]]) ++ (r :: rs).map (fun x => '@' :: x.path)))).getLast?
        = some dp := by
      rw [joinNl_getLast? _ _ hgl2 (by simp), hxlast]
    rw [head_last_rtrim _ '#' _ dp hh (by decide) hgl hdpw]
    have hsub2 : ∀ l ∈ (rchars "# " ++ s.title)
          :: ((tl ++ [[]]) ++ (r :: rs).map (fun x => '@' :: x.path)),
        l ∈ cursorBodyLines rule := by
      intro l hl
      rw [cursorBodyLines, hcontent, chunks_shape (s :: srest) (by simp), hhead, hrefs0]
      simp only [List.mem_cons, List.mem_append] at hl ⊢
      tauto
    rw [rustLines_joinNl _ (by simp)
      (fun l hl => (hbody l (hsub2 l hl)).1)
      (fun l hl => (hbody l (hsub2 l hl)).2)
      (by rw [hgl2]; simp)]
    simp [List.append_assoc]


theorem startsWith_ext_false (l : RStr) (c : Char) (p : RStr)
    (h : strStartsWith l [c] = false) : strStartsWith l (c :: p) = false := by
  cases l with
  | nil => rfl
  | cons a t =>
    have ht : strStartsWith t [] = true := by cases t <;> rfl
    have ha : decide (a = c) = false := by
      have h' : (decide (a = c) && strStartsWith t []) = false := h
      rw [ht, Bool.and_true] at h'
      exact h'
    show (decide (a = c) && strStartsWith t p) = false
    rw [ha, Bool.false_and]

theorem soft_of_no_hash (l : RStr) (h : strStartsWith l ['#'] = false) :
    strStartsWith l (rchars "# ") = false ∧ strStartsWith l (rchars "## ") = false :=
  ⟨startsWith_ext_false l '#' (rchars " ") h, startsWith_ext_false l '#' (rchars "# ") h⟩

theorem curFinish_of_title (t : RStr) (cls : List RStr) (ht : t ≠ []) :
    Cursor.curFinish (t, cls) = [⟨t, .markdown, rtrim (joinNl cls)⟩] := by
  rw [Cursor.curFinish]
  dsimp only
  rw [if_pos (Or.inr ht)]

theorem curGo_soft : ∀ (ls rest : List RStr) (S : List RuleContent)
    (R : List FileReference) (t : RStr) (cls : List RStr),
    (∀ l ∈ ls, strStartsWith l (rchars "# ") = false
      ∧ strStartsWith l (rchars "## ") = false) →
    ∃ cls' R', Cursor.curGo (ls ++ rest) ⟨S, R, some (t, cls)⟩
      = Cursor.curGo rest ⟨S, R', some (t, cls')⟩
  | [], _, S, R, t, cls, _ => ⟨cls, R, rfl⟩
  | l :: ls, rest, S, R, t, cls, hf => by
    rw [List.cons_append, Cursor.curGo]
    rw [if_neg (fun hc => by
      rcases hc with hc | hc
      · rw [(hf l (List.mem_cons_self _ _)).1] at hc
        exact Bool.false_ne_true hc
      · rw [(hf l (List.mem_cons_self _ _)).2] at hc
        exact Bool.false_ne_true hc)]
    by_cases hat : strStartsWith l ['@'] = true
    · rw [if_pos hat]
      dsimp only
      obtain ⟨cls', R', heq⟩ := curGo_soft ls rest S (R ++ [⟨rtrim (l.drop 1)⟩]) t cls
        (fun x hx => hf x (List.mem_cons_of_mem _ hx))
      exact ⟨cls', R', heq⟩
    · rw [if_neg hat]
      dsimp only
      obtain ⟨cls', R', heq⟩ := curGo_soft ls rest S R t (cls ++ [l])
        (fun x hx => hf x (List.mem_cons_of_mem _ hx))
      exact ⟨cls', R', heq⟩


theorem curGo_secs : ∀ (secs : List RuleContent) (rest : List RStr)
    (S : List RuleContent) (R : List FileReference) (t : RStr) (cls : List RStr),
    (∀ s ∈ secs, tight s.title = true
      ∧ ∀ l ∈ splitNl s.value, strStartsWith l ['#'] = false) →
    t ≠ [] →
    secs ≠ [] →
    ∃ S' R' t' cls', S'.length = secs.length ∧ t' ≠ []
      ∧ Cursor.curGo (secsLinesCursor secs ++ rest) ⟨S, R, some (t, cls)⟩
        = Cursor.curGo rest ⟨S ++ S', R', some (t', cls')⟩
  | [], _, _, _, _, _, _, _, hne => absurd rfl hne
  | [s], rest, S, R, t, cls, hf, ht, _ => by
    obtain ⟨hst, hsl⟩ := hf s (List.mem_cons_self _ _)
    rw [secsLinesCursor]
    simp only [List.cons_append, List.nil_append]
    rw [Cursor.curGo, if_pos (Or.inl (strStartsWith_append_self (rchars "# ") s.title))]
    dsimp only
    rw [if_pos (strStartsWith_append_self (rchars "# ") s.title)]
    rw [show List.drop 2 (rchars "# " ++ s.title) = s.title from List.drop_left' rfl]
    rw [tight_rtrim s.title hst]
    rw [curFinish_of_title t cls ht]
    rw [show ([] : RStr) :: (splitNl s.value ++ rest)
        = (([] : RStr) :: splitNl s.value) ++ rest from rfl]
    obtain ⟨cls', R', heq⟩ := curGo_soft (([] : RStr) :: splitNl s.value) rest
      (S ++ [⟨t, .markdown, rtrim (joinNl cls)⟩]) R s.title []
      (fun x hx => by
        rcases List.mem_cons.mp hx with hx | hx
        · subst hx
          exact ⟨rfl, rfl⟩
        · exact soft_of_no_hash x (hsl x hx))
    exact ⟨[⟨t, .markdown, rtrim (joinNl cls)⟩], R', s.title, cls', by simp,
      tight_ne_nil _ hst, heq⟩
  | s :: s2 :: srest, rest, S, R, t, cls, hf, ht, _ => by
    obtain ⟨hst, hsl⟩ := hf s (List.mem_cons_self _ _)
    rw [secsLinesCursor]
    simp only [List.cons_append, List.nil_append, List.append_assoc]
    rw [Cursor.curGo, if_pos (Or.inl (strStartsWith_append_self (rchars "# ") s.title))]
    dsimp only
    rw [if_pos (strStartsWith_append_self (rchars "# ") s.title)]
    rw [show List.drop 2 (rchars "# " ++ s.title) = s.title from List.drop_left' rfl]
    rw [tight_rtrim s.title hst]
    rw [curFinish_of_title t cls ht]
    rw [show ([] : RStr) :: (splitNl s.value
          ++ (([] : RStr) :: (secsLinesCursor (s2 :: srest) ++ rest)))
        = (([] : RStr) :: (splitNl s.value ++ [[]]))
          ++ (secsLinesCursor (s2 :: srest) ++ rest) from by
      simp [List.append_assoc]]
    obtain ⟨cls1, R1, heq1⟩ := curGo_soft (([] : RStr) :: (splitNl s.value ++ [[]]))
      (secsLinesCursor (s2 :: srest) ++ rest)
      (S ++ [⟨t, .markdown, rtrim (joinNl cls)⟩]) R s.title []
      (fun x hx => by
        rcases List.mem_cons.mp hx with hx | hx
        · subst hx
          exact ⟨rfl, rfl⟩
        · rcases List.mem_append.mp hx with hx | hx
          · exact soft_of_no_hash x (hsl x hx)
          · rcases List.mem_cons.mp hx with hx | hx
            · subst hx
              exact ⟨rfl, rfl⟩
            · simp at hx)
    rw [heq1]
    obtain ⟨S2, R2, t2, cls2, hlen2, ht2, heq2⟩ := curGo_secs (s2 :: srest) rest
      (S ++ [⟨t, .markdown, rtrim (joinNl cls)⟩]) R1 s.title cls1
      (fun x hx => hf x (List.mem_cons_of_mem _ hx)) (tight_ne_nil _ hst) (by simp)
    rw [heq2]
    exact ⟨[⟨t, .markdown, rtrim (joinNl cls)⟩] ++ S2, R2, t2, cls2, by simp [hlen2], ht2,
      by rw [List.append_assoc]⟩


theorem curGo_secs_top (secs : List RuleContent) (rest : List RStr) (R : List FileReference)
    (hf : ∀ s ∈ secs, tight s.title = true
      ∧ ∀ l ∈ splitNl s.value, strStartsWith l ['#'] = false)
    (hne : secs ≠ []) :
    ∃ S' R' t' cls', S'.length + 1 = secs.length ∧ t' ≠ []
      ∧ Cursor.curGo (secsLinesCursor secs ++ rest) ⟨[], R, none⟩
        = Cursor.curGo rest ⟨S', R', some (t', cls')⟩ := by
  match secs, hne with
  | [s], _ =>
    obtain ⟨hst, hsl⟩ := hf s (List.mem_cons_self _ _)
    rw [secsLinesCursor]
    simp only [List.cons_append, List.nil_append]
    rw [Cursor.curGo, if_pos (Or.inl (strStartsWith_append_self (rchars "# ") s.title))]
    dsimp only
    rw [if_pos (strStartsWith_append_self (rchars "# ") s.title)]
    rw [show List.drop 2 (rchars "# " ++ s.title) = s.title from List.drop_left' rfl]
    rw [tight_rtrim s.title hst]
    rw [show ([] : RStr) :: (splitNl s.value ++ rest)
        = (([] : RStr) :: splitNl s.value) ++ rest from rfl]
    obtain ⟨cls', R', heq⟩ := curGo_soft (([] : RStr) :: splitNl s.value) rest
      [] R s.title []
      (fun x hx => by
        rcases List.mem_cons.mp hx with hx | hx
        · subst hx
          exact ⟨rfl, rfl⟩
        · exact soft_of_no_hash x (hsl x hx))
    exact ⟨[], R', s.title, cls', by simp, tight_ne_nil _ hst, heq⟩
  | s :: s2 :: srest, _ =>
    obtain ⟨hst, hsl⟩ := hf s (List.mem_cons_self _ _)
    rw [secsLinesCursor]
    simp only [List.cons_append, List.nil_append, List.append_assoc]
    rw [Cursor.curGo, if_pos (Or.inl (strStartsWith_append_self (rchars "# ") s.title))]
    dsimp only
    rw [if_pos (strStartsWith_append_self (rchars "# ") s.title)]
    rw [show List.drop 2 (rchars "# " ++ s.title) = s.title from List.drop_left' rfl]
    rw [tight_rtrim s.title hst]
    rw [show ([] : RStr) :: (splitNl s.value
          ++ (([] : RStr) :: (secsLinesCursor (s2 :: srest) ++ rest)))
        = (([] : RStr) :: (splitNl s.value ++ [[]]))
          ++ (secsLinesCursor (s2 :: srest) ++ rest) from by
      simp [List.append_assoc]]
    obtain ⟨cls1, R1, heq1⟩ := curGo_soft (([] : RStr) :: (splitNl s.value ++ [[]]))
      (secsLinesCursor (s2 :: srest) ++ rest) [] R s.title []
      (fun x hx => by
        rcases List.mem_cons.mp hx with hx | hx
        · subst hx
          exact ⟨rfl, rfl⟩
        · rcases List.mem_append.mp hx with hx | hx
          · exact soft_of_no_hash x (hsl x hx)
          · rcases List.mem_cons.mp hx with hx | hx
            · subst hx
              exact ⟨rfl, rfl⟩
            · simp at hx)
    rw [heq1]
    obtain ⟨S2, R2, t2, cls2, hlen2, ht2, heq2⟩ := curGo_secs (s2 :: srest) rest
      [] R1 s.title cls1
      (fun x hx => hf x (List.mem_cons_of_mem _ hx)) (tight_ne_nil _ hst) (by simp)
    rw [heq2]
    exact ⟨[] ++ S2, R2, t2, cls2, by simp [hlen2], ht2, rfl⟩


/-- The reference tail of the trimmed cursor markdown body. -/
def cursorRefTail (rule : UniversalRule) : List RStr :=
  match rule.references with
  | [] => []
  | _ :: _ => ([] : RStr) :: rule.references.map (fun r => '@' :: r.path)

theorem cursorTrimmedLines_eq (rule : UniversalRule) :
    cursorTrimmedLines rule = secsLinesCursor rule.content ++ cursorRefTail rule := rfl

theorem cursorRefTail_soft (rule : UniversalRule) :
    ∀ l ∈ cursorRefTail rule, strStartsWith l (rchars "# ") = false
      ∧ strStartsWith l (rchars "## ") = false := by
  rw [cursorRefTail]
  cases rule.references with
  | nil =>
    intro l hl
    simp at hl
  | cons r rs =>
    intro l hl
    rcases List.mem_cons.mp hl with hl | hl
    · subst hl
      exact ⟨rfl, rfl⟩
    · rw [List.mem_map] at hl
      obtain ⟨x, _, hxl⟩ := hl
      subst hxl
      exact ⟨rfl, rfl⟩

theorem cursor_md_parse (rule : UniversalRule) (h : wellFormedRule rule = true) :
    (Cursor.parse_markdown_content
        (rtrim (joinNl (([] : RStr) :: cursorBodyLines rule)))).1.length
      = rule.content.length := by
  obtain ⟨_, _, hcne, hsecs, _, _, _⟩ := wf_unpack rule h
  have hf : ∀ s ∈ rule.content, tight s.title = true
      ∧ ∀ l ∈ splitNl s.value, strStartsWith l ['#'] = false :=
    fun s hs => ⟨(hsecs s hs).1.1, fun l hl => ((hsecs s hs).2.2 l hl).2.2.2.1⟩
  rw [Cursor.parse_markdown_content]
  rw [cursor_md_lines rule h, cursorTrimmedLines_eq]
  obtain ⟨S', R', t', cls', hlen, ht', heq⟩ :=
    curGo_secs_top rule.content (cursorRefTail rule) [] hf hcne
  rw [heq]
  rw [show cursorRefTail rule = cursorRefTail rule ++ ([] : List RStr) from
    (List.append_nil _).symm]
  obtain ⟨cls'', R'', heq2⟩ := curGo_soft (cursorRefTail rule) [] S' R' t' cls'
    (cursorRefTail_soft rule)
  rw [heq2]
  dsimp only
  rw [Cursor.curGo]
  dsimp only
  rw [curFinish_of_title t' cls'' ht']
  rw [if_neg (fun hcon => by
    have h1 := List.isEmpty_iff.mp hcon.1
    exact absurd h1 (by simp))]
  rw [List.length_append]
  simpa using hlen


theorem cursor_roundtrip (rule : UniversalRule) (h : wellFormedRule rule = true) :
    ∃ r', Cursor.convert_from_tool_format (Cursor.convert_to_tool_format rule) = some r'
      ∧ r'.metadata.name = rule.metadata.name
      ∧ r'.content.length = rule.content.length := by
  rw [Cursor.convert_from_tool_format, cursor_parse_split rule h, cursor_fm_eval rule h]
  simp only [Option.map_some']
  refine ⟨_, rfl, ?_, ?_⟩
  · dsimp only [cursorExportFM]
    cases hde : rule.metadata.description with
    | none =>
      dsimp only
      rfl
    | some d =>
      dsimp only
      have hb : ((some (rchars "Rule: " ++ rule.metadata.name)).bind fun notes =>
            if strStartsWith notes (rchars "Rule: ") = true then some (List.drop 6 notes)
            else none)
          = some rule.metadata.name := by
        show (if strStartsWith (rchars "Rule: " ++ rule.metadata.name) (rchars "Rule: ")
              = true then
            some (List.drop 6 (rchars "Rule: " ++ rule.metadata.name))
          else none) = some rule.metadata.name
        rw [if_pos (strStartsWith_append_self _ _)]
        rw [show List.drop 6 (rchars "Rule: " ++ rule.metadata.name) = rule.metadata.name from
          List.drop_left' rfl]
      rw [hb]
      rfl
  · exact cursor_md_parse rule h


/-- A rule with no content sections: it satisfies the structural validity
required by the round-trip claim (non-empty name, vacuously non-empty
sections), yet a cline round trip manufactures a `Content` section. -/
def c1zeroRule : UniversalRule :=
  { id := rchars "my-rule"
    version := rchars "0.1.0"
    metadata := { name := rchars "My Rule", description := none, tags := [], priority := 5 }
    content := []
    references := []
    conditions := []
    tool_overrides := [] }

/-- A rule whose single (non-empty) section value is a `# `-led line: on a
cline round trip the parser takes that value line as a new rule title and
the name changes. -/
def c1evilRule : UniversalRule :=
  { id := rchars "my-rule"
    version := rchars "0.1.0"
    metadata := { name := rchars "My Rule", description := none, tags := [], priority := 5 }
    content := [⟨rchars "Top", .markdown, rchars "# Sneaky"⟩]
    references := []
    conditions := []
    tool_overrides := [] }

/-- A well-formed rule exercising every frontmatter branch of the cursor
export (description, a file-pattern condition, a reference). -/
def c1wfRule : UniversalRule :=
  { id := rchars "my-rule"
    version := rchars "0.1.0"
    metadata := { name := rchars "My Rule", description := some (rchars "A demo rule."),
                  tags := [], priority := 5 }
    content := [⟨rchars "Usage", .markdown, rchars "Do the thing."⟩,
                ⟨rchars "Notes", .markdown, rchars "Be careful."⟩]
    references := [⟨rchars "docs/guide.md"⟩]
    conditions := [.filePattern (rchars "*.rs")]
    tool_overrides := [] }


/-- C1: for a rule whose name, description, section titles and section
values are trimmed single-paragraph text with no markdown-significant
lines (no `#`-led or underline-run value lines, no `<`, `"`, CR), every
converter's import of its own export recovers the rule name, and the
re-imported rule has exactly as many content sections as the original; the
cursor import also succeeds.  (The claim's weaker hypothesis — non-empty
name and non-empty sections — is not sufficient; see the
counterexample.) -/
theorem claim_c1_roundtrip (rule : UniversalRule) (now : Nat)
    (h : wellFormedRule rule = true) :
    ((Cline.convert_from_tool_format
        (Cline.convert_to_tool_format rule)).metadata.name = rule.metadata.name
      ∧ (Cline.convert_from_tool_format
        (Cline.convert_to_tool_format rule)).content.length = rule.content.length)
    ∧ ((ClaudeCode.convert_from_tool_format
        (ClaudeCode.convert_to_tool_format rule) now).metadata.name = rule.metadata.name
      ∧ (ClaudeCode.convert_from_tool_format
        (ClaudeCode.convert_to_tool_format rule) now).content.length = rule.content.length)
    ∧ ((Goose.convert_from_tool_format
        (Goose.convert_to_tool_format rule) now).metadata.name = rule.metadata.name
      ∧ (Goose.convert_from_tool_format
        (Goose.convert_to_tool_format rule) now).content.length = rule.content.length)
    ∧ (∃ r', Cursor.convert_from_tool_format (Cursor.convert_to_tool_format rule) = some r'
      ∧ r'.metadata.name = rule.metadata.name
      ∧ r'.content.length = rule.content.length) := by
  refine ⟨⟨?_, ?_⟩, ⟨?_, ?_⟩, ⟨?_, ?_⟩, cursor_roundtrip rule h⟩
  · exact (cline_parse_eval rule h).1
  · exact (cline_parse_eval rule h).2
  · exact (claude_parse_eval rule h).1
  · exact (claude_parse_eval rule h).2
  · exact (goose_parse_eval rule h).1
  · exact (goose_parse_eval rule h).2

/-- C1 counterexample to the claim as stated: both rules satisfy the
claim's structural validity (non-empty name, non-empty sections), yet the
cline round trip changes the section count of the first (0 to 1, via the
`Content` fallback of `parse_cline_format`) and changes the name of the
second (its `# `-led section value is re-parsed as a rule title). -/
theorem claim_c1_counterexample :
    (c1zeroRule.metadata.name ≠ []
      ∧ ∀ s ∈ c1zeroRule.content, s.title ≠ [] ∧ s.value ≠ [])
    ∧ (Cline.convert_from_tool_format
        (Cline.convert_to_tool_format c1zeroRule)).content.length
      ≠ c1zeroRule.content.length
    ∧ (c1evilRule.metadata.name ≠ []
      ∧ ∀ s ∈ c1evilRule.content, s.title ≠ [] ∧ s.value ≠ [])
    ∧ (Cline.convert_from_tool_format
        (Cline.convert_to_tool_format c1evilRule)).metadata.name
      ≠ c1evilRule.metadata.name := by
  refine ⟨⟨?_, ?_⟩, ?_, ⟨?_, ?_⟩, ?_⟩ <;> decide

/-- C1 witness: the round-trip theorem applied to a concrete well-formed
rule. -/
theorem claim_c1_witness :
    wellFormedRule c1wfRule = true
    ∧ (((Cline.convert_from_tool_format
        (Cline.convert_to_tool_format c1wfRule)).metadata.name = c1wfRule.metadata.name
      ∧ (Cline.convert_from_tool_format
        (Cline.convert_to_tool_format c1wfRule)).content.length = c1wfRule.content.length)
    ∧ ((ClaudeCode.convert_from_tool_format
        (ClaudeCode.convert_to_tool_format c1wfRule) 7).metadata.name = c1wfRule.metadata.name
      ∧ (ClaudeCode.convert_from_tool_format
        (ClaudeCode.convert_to_tool_format c1wfRule) 7).content.length
          = c1wfRule.content.length)
    ∧ ((Goose.convert_from_tool_format
        (Goose.convert_to_tool_format c1wfRule) 7).metadata.name = c1wfRule.metadata.name
      ∧ (Goose.convert_from_tool_format
        (Goose.convert_to_tool_format c1wfRule) 7).content.length = c1wfRule.content.length)
    ∧ (∃ r', Cursor.convert_from_tool_format (Cursor.convert_to_tool_format c1wfRule)
        = some r'
      ∧ r'.metadata.name = c1wfRule.metadata.name
      ∧ r'.content.length = c1wfRule.content.length)) :=
  ⟨by decide, claim_c1_roundtrip c1wfRule 7 (by decide)⟩

end Rulesify
